import Mathlib

/-!
# A shallow embedding of `octree.go`

The Go package stores payload values keyed by a three-dimensional point in an
adaptively subdivided tree.  This development embeds the data model and the
operations of `octree.go` and proves properties of them.

Modelling conventions.

* `float64` coordinates are taken as exact rational numbers (`ℚ`) in the
  embedding that the theorems are about: no rounding, no overflow, no
  infinities, no NaN.  A second embedding of the insertion and query code, over
  the bit patterns of `float64` with IEEE 754 arithmetic (namespace `Machine`),
  shows what the same operations do where `float64` differs from exact
  numbers.
* `interface{}` payloads are an arbitrary type `α` with decidable equality
  (the Go `==` on comparable dynamic types).
* A Go slice is a `List`; both the `nil` slice and the empty slice are `[]`.
  No two nodes ever share a backing array: `Add` allocates a new one-element
  slice, and `subdivide` hands the slice of a leaf to one child and sets its
  own to `nil`.
* A `*Vector3f` that may be `nil` is an `Option Vector3f`.
* The node graph is a tree (every node is allocated by exactly one
  `&Node{...}` expression and linked from exactly one place), so a node is a
  value of an inductive type and a `*Node` handed out to the caller is the
  address of that node: the root it hangs from together with the child
  indices leading to it.  Nodes are never moved or unlinked by `Add` or
  `Remove`, so such an address keeps denoting the same Go object.
* `Octree.root` is a `*Node` that is `nil` in the zero value `Octree{}`: an
  `Option`.  A method that dereferences a `nil` root has no result (`none`).
* `Clear` unlinks the whole old node graph, which outside references may still
  reach.  The field `dropped` of the tree state records those graphs.
* The mutual recursion `tryAdd` / `addToChildren` / `subdivide` has no
  structural measure; it is embedded with a fuel argument, `none` meaning
  that the fuel ran out.  `Octree.AddReturns` says that a call of `Add` has a
  given result for some amount of fuel; the theorems show that on a reachable
  tree such a result exists and is unique.
-/

/-! ## Vector3f -/

/-- Go `type Vector3f [3]float64`; the components `v[0]`, `v[1]`, `v[2]` are
`x`, `y`, `z`. -/
structure Vector3f where
  x : ℚ
  y : ℚ
  z : ℚ
deriving DecidableEq, Repr

namespace Vector3f

/-- Go `Vector3f.Minus`. -/
def Minus (v other : Vector3f) : Vector3f :=
  ⟨v.x - other.x, v.y - other.y, v.z - other.z⟩

/-- Go `Vector3f.Plus`. -/
def Plus (v other : Vector3f) : Vector3f :=
  ⟨v.x + other.x, v.y + other.y, v.z + other.z⟩

/-- Go `Vector3f.Scale`. -/
def Scale (v : Vector3f) (f : ℚ) : Vector3f :=
  ⟨v.x * f, v.y * f, v.z * f⟩

/-- Go `Vector3f.Min`: component-wise `math.Min`. -/
def Min (v other : Vector3f) : Vector3f :=
  ⟨min v.x other.x, min v.y other.y, min v.z other.z⟩

/-- Go `Vector3f.Max`: component-wise `math.Max`. -/
def Max (v other : Vector3f) : Vector3f :=
  ⟨max v.x other.x, max v.y other.y, max v.z other.z⟩

/-- Go `Vector3f.Lerp`: `(other[i]-v[i])*f + v[i]` on every axis. -/
def Lerp (v other : Vector3f) (f : ℚ) : Vector3f :=
  ⟨(other.x - v.x) * f + v.x, (other.y - v.y) * f + v.y, (other.z - v.z) * f + v.z⟩

end Vector3f

/-! ## Box -/

/-- Go `type Box struct { min, max Vector3f }`. -/
structure Box where
  min : Vector3f
  max : Vector3f
deriving DecidableEq, Repr

namespace Box

/-- Go `Box.Size`. -/
def Size (b : Box) : Vector3f :=
  b.max.Minus b.min

/-- Go `Box.ContainsPoint`. -/
def ContainsPoint (b : Box) (v : Vector3f) : Bool :=
  decide (b.min.x ≤ v.x) &&
    decide (b.max.x ≥ v.x) &&
    decide (b.min.y ≤ v.y) &&
    decide (b.max.y ≥ v.y) &&
    decide (b.min.z ≤ v.z) &&
    decide (b.max.z ≥ v.z)

/-- Go `Box.Contains`. -/
def Contains (b o : Box) : Bool :=
  decide (b.min.x ≤ o.min.x) &&
    decide (b.max.x ≥ o.max.x) &&
    decide (b.min.y ≤ o.min.y) &&
    decide (b.max.y ≥ o.max.y) &&
    decide (b.min.z ≤ o.min.z) &&
    decide (b.max.z ≥ o.max.z)

/-- Go `Box.IsContainedIn`. -/
def IsContainedIn (b o : Box) : Bool :=
  o.Contains b

/-- Go `Box.Intersects`. -/
def Intersects (b o : Box) : Bool :=
  !(decide (b.max.x < o.min.x) ||
    decide (o.max.x < b.min.x) ||
    decide (b.max.y < o.min.y) ||
    decide (o.max.y < b.min.y) ||
    decide (b.max.z < o.min.z) ||
    decide (o.max.z < b.min.z))

/-- Go `Box.makeSubBoxes`: the eight octants around the centre
`b.min.Lerp(&b.max, 0.5)`, as the array `[8]Box` in source order. -/
def makeSubBoxes (b : Box) : List Box :=
  let center := b.min.Lerp b.max (1 / 2)
  [ ⟨⟨b.min.x, b.min.y, b.min.z⟩, ⟨center.x, center.y, center.z⟩⟩,
    ⟨⟨center.x, b.min.y, b.min.z⟩, ⟨b.max.x, center.y, center.z⟩⟩,
    ⟨⟨b.min.x, center.y, b.min.z⟩, ⟨center.x, b.max.y, center.z⟩⟩,
    ⟨⟨center.x, center.y, b.min.z⟩, ⟨b.max.x, b.max.y, center.z⟩⟩,
    ⟨⟨b.min.x, b.min.y, center.z⟩, ⟨center.x, center.y, b.max.z⟩⟩,
    ⟨⟨center.x, b.min.y, center.z⟩, ⟨b.max.x, center.y, b.max.z⟩⟩,
    ⟨⟨b.min.x, center.y, center.z⟩, ⟨center.x, b.max.y, b.max.z⟩⟩,
    ⟨⟨center.x, center.y, center.z⟩, ⟨b.max.x, b.max.y, b.max.z⟩⟩ ]

end Box

/-! ## Node -/

/-- Go `type Node struct { box; point *Vector3f; elements []interface{};
hasChildren bool; children []*Node }`.  All five fields are kept, so that a
node that is neither a proper leaf nor a proper branch is representable. -/
inductive Node (α : Type) where
  | mk (box : Box) (point : Option Vector3f) (elements : List α) (hasChildren : Bool)
      (children : List (Node α)) : Node α

namespace Node

variable {α : Type}

/-- Field `box`. -/
def box : Node α → Box
  | mk b _ _ _ _ => b

/-- Field `point`. -/
def point : Node α → Option Vector3f
  | mk _ p _ _ _ => p

/-- Field `elements`. -/
def elements : Node α → List α
  | mk _ _ e _ _ => e

/-- Field `hasChildren`. -/
def hasChildren : Node α → Bool
  | mk _ _ _ h _ => h

/-- Field `children`. -/
def children : Node α → List (Node α)
  | mk _ _ _ _ c => c

/-- Go composite literal `&Node{box: b}`: every other field has its zero
value. -/
def fresh (b : Box) : Node α :=
  mk b none [] false []

/-- The loop `for _, child := range n.children { leaf := child.tryAdd(..);
if leaf != nil { return leaf } }; return nil` of `addToChildren`, over the
children from index `i` on, parameterised by the call `child.tryAdd(..)`.
A call returns the child as it has left it and the leaf it reports; the loop
returns the children as it has left them and the leaf, addressed from the
parent.  `none`: a call ran out of fuel. -/
def addLoop (call : Node α → Option (Node α × Option (List Nat))) :
    Nat → List (Node α) → Option (List (Node α) × Option (List Nat))
  | _, [] => some ([], none)
  | i, child :: rest =>
    match call child with
    | none => none
    | some (child', some leaf) => some (child' :: rest, some (i :: leaf))
    | some (child', none) =>
      match addLoop call (i + 1) rest with
      | none => none
      | some (rest', r) => some (child' :: rest', r)

mutual

/-- Go `Node.tryAdd`.  Returns the node as the call has left it and the
returned `*Node` (`none` for `nil`), addressed from this node: `[]` is the
node itself. -/
def tryAdd : Nat → Node α → List α → Vector3f → Option (Node α × Option (List Nat))
  | 0, _, _, _ => none
  | fuel + 1, n, elements, point =>
    if !n.box.ContainsPoint point then
      some (n, none)
    else if n.hasChildren then
      addToChildren fuel n elements point
    else
      match n.point with
      | some q =>
        if q = point then
          some (mk n.box n.point (n.elements ++ elements) n.hasChildren n.children, some [])
        else
          subdivide fuel n elements point
      | none =>
        some (mk n.box (some point) elements n.hasChildren n.children, some [])

/-- Go `Node.addToChildren`. -/
def addToChildren : Nat → Node α → List α → Vector3f → Option (Node α × Option (List Nat))
  | 0, _, _, _ => none
  | fuel + 1, n, elements, point =>
    match addLoop (fun child => tryAdd fuel child elements point) 0 n.children with
    | none => none
    | some (children', r) => some (mk n.box n.point n.elements n.hasChildren children', r)

/-- Go `Node.subdivide`. -/
def subdivide : Nat → Node α → List α → Vector3f → Option (Node α × Option (List Nat))
  | 0, _, _, _ => none
  | fuel + 1, n, addElements, atPoint =>
    -- n.hasChildren = true; append the eight fresh children
    let n1 : Node α := mk n.box n.point n.elements true
      (n.children ++ (n.box.makeSubBoxes.map fun b => fresh b))
    -- n.addToChildren(n.elements, n.point), its result dropped
    let moved : Option (Node α) :=
      match n1.point with
      | some q => (addToChildren fuel n1 n1.elements q).map Prod.fst
      | none => none
    match moved with
    | none => none
    | some n2 =>
      -- n.elements = nil; n.point = nil
      let n3 : Node α := mk n2.box none [] n2.hasChildren n2.children
      addToChildren fuel n3 addElements atPoint

end

mutual

/-- Go `Node.elementsAt`. -/
def elementsAt : Node α → Vector3f → List α
  | mk _ point elements hasChildren children, p =>
    if hasChildren then
      elementsAtLoop children p
    else
      match point with
      | some q => if p = q then elements else []
      | none => []

/-- The loop of `elementsAt` over the children: the first child whose box
contains the point answers. -/
def elementsAtLoop : List (Node α) → Vector3f → List α
  | [], _ => []
  | child :: rest, p =>
    if child.box.ContainsPoint p then elementsAt child p else elementsAtLoop rest p

end

mutual

/-- Go `Node.elementsIn`. -/
def elementsIn : Node α → Box → List α
  | mk _ point elements hasChildren children, box =>
    if hasChildren then
      elementsInLoop children box
    else
      match point with
      | some q => if box.ContainsPoint q then elements else []
      | none => []

/-- The loop of `elementsIn` over the children; `elements = append(elements,
..)` accumulates what the children return, in order. -/
def elementsInLoop : List (Node α) → Box → List α
  | [], _ => []
  | child :: rest, box =>
    (if child.box.IsContainedIn box then
        elementsIn child child.box
      else if child.box.Contains box || child.box.Intersects box then
        elementsIn child box
      else
        []) ++ elementsInLoop rest box

end

/-- The loop `for idx, val := range n.elements { if val == element { .. } }`
of `remove`: the index of the first entry equal to `element`. -/
def firstIndex [DecidableEq α] (element : α) : List α → Option Nat
  | [] => none
  | val :: rest =>
    if val = element then some 0 else (firstIndex element rest).map (· + 1)

mutual

/-- Go `Node.remove`.  Returns the node as the call has left it and the
boolean result. -/
def remove [DecidableEq α] : Node α → α → Node α × Bool
  | mk box point elements hasChildren children, element =>
    if hasChildren then
      let r := removeLoop children element
      (mk box point elements hasChildren r.1, r.2)
    else
      match firstIndex element elements with
      | some idx =>
        -- append(n.elements[:idx], n.elements[idx+1:]...)
        (mk box point (elements.take idx ++ elements.drop (idx + 1)) hasChildren children, true)
      | none => (mk box point elements hasChildren children, false)

/-- The loop of `remove` over the children, stopping at the first child that
reports a removal. -/
def removeLoop [DecidableEq α] : List (Node α) → α → List (Node α) × Bool
  | [], _ => ([], false)
  | child :: rest, element =>
    let r := remove child element
    if r.2 then
      (r.1 :: rest, true)
    else
      let rs := removeLoop rest element
      (r.1 :: rs.1, rs.2)

end

/-- The node a `*Node` obtained below `n` points to: `[]` is `n` itself,
`i :: path` continues in `n.children[i]`. -/
def nodeAt : Node α → List Nat → Option (Node α)
  | n, [] => some n
  | n, i :: path =>
    match n.children[i]? with
    | some child => nodeAt child path
    | none => none

/-- The call `node.remove(element)` on the node at address `path` below `n`,
seen from `n`: the node graph as the call has left it and the boolean result.
`none`: the address denotes no node. -/
def removeAt [DecidableEq α] : Node α → List Nat → α → Option (Node α × Bool)
  | n, [], element => some (n.remove element)
  | n, i :: path, element =>
    match n.children[i]? with
    | none => none
    | some child =>
      match removeAt child path element with
      | none => none
      | some (child', b) =>
        some (mk n.box n.point n.elements n.hasChildren (n.children.set i child'), b)

mutual

/-- The leaves below a node, depth-first in child order, following the
traversal of `elementsIn` and `remove`: a node with `hasChildren` set is
entered, any other node is a leaf. -/
def leaves : Node α → List (Node α)
  | mk box point elements hasChildren children =>
    if hasChildren then leavesLoop children else [mk box point elements hasChildren children]

/-- The leaves below a list of children, in order. -/
def leavesLoop : List (Node α) → List (Node α)
  | [] => []
  | child :: rest => leaves child ++ leavesLoop rest

end

/-- All stored values, depth-first in child order. -/
def allElements (n : Node α) : List α :=
  n.leaves.flatMap fun l => l.elements

/-- Some leaf below `n` stores the point `q`. -/
def Stores (n : Node α) (q : Vector3f) : Prop :=
  ∃ l ∈ n.leaves, l.point = some q

/-- The structural invariant of the node graphs the package builds: a leaf has
no children, its point (if any) lies in its box, and it has no values without
a point; a branch has no point and no values, its children sit on the eight
octants of its box in order, and a point stored below a child lies in the box
of no earlier child. -/
inductive WF : Node α → Prop where
  | leaf (box : Box) (point : Option Vector3f) (elements : List α)
      (hp : ∀ q, point = some q → box.ContainsPoint q = true)
      (he : point = none → elements = []) :
      WF (mk box point elements false [])
  | branch (box : Box) (children : List (Node α))
      (hb : children.map Node.box = box.makeSubBoxes)
      (hw : ∀ c ∈ children, WF c)
      (hc : children.Pairwise fun c d => ∀ q, d.Stores q → c.box.ContainsPoint q = false) :
      WF (mk box none [] true children)

/-- What `tryAdd(elements, point)` does to a well-formed node whose box
contains `point`: `Added elements point n n' path` relates the node before,
the node after and the address of the returned leaf. -/
inductive Added (elements : List α) (point : Vector3f) :
    Node α → Node α → List Nat → Prop where
  | store (box : Box) (h : box.ContainsPoint point = true) :
      Added elements point (mk box none [] false []) (mk box (some point) elements false []) []
  | append (box : Box) (es : List α) (h : box.ContainsPoint point = true) :
      Added elements point (mk box (some point) es false [])
        (mk box (some point) (es ++ elements) false []) []
  | descend (box : Box) (l1 l2 : List (Node α)) (c c' : Node α) (path : List Nat)
      (h : box.ContainsPoint point = true)
      (h1 : ∀ d ∈ l1, d.box.ContainsPoint point = false)
      (hc : c.box.ContainsPoint point = true)
      (hadd : Added elements point c c' path) :
      Added elements point (mk box none [] true (l1 ++ c :: l2))
        (mk box none [] true (l1 ++ c' :: l2)) (l1.length :: path)
  | split (box : Box) (q : Vector3f) (es : List α) (l1 l2 : List Box) (bi : Box)
      (n' : Node α) (path : List Nat)
      (h : box.ContainsPoint point = true)
      (hne : q ≠ point)
      (hs : box.makeSubBoxes = l1 ++ bi :: l2)
      (h1 : ∀ b ∈ l1, b.ContainsPoint q = false)
      (hi : bi.ContainsPoint q = true)
      (hadd : Added elements point
        (mk box none [] true
          ((l1.map fun b => fresh b) ++ mk bi (some q) es false [] :: l2.map fun b => fresh b))
        n' path) :
      Added elements point (mk box (some q) es false []) n' path

end Node

/-! ## Octree -/

/-- A `*Node` held by a caller: the node graph it belongs to (`root`: the
number of `Clear` calls that had replaced the root when the graph was
created) and the address of the node below the root of that graph. -/
structure NodeRef where
  root : Nat
  path : List Nat
deriving DecidableEq, Repr

/-- Go `type Octree struct { root *Node }`, together with the node graphs that
`Clear` has unlinked (oldest first), which retained `*Node` values still
reach. -/
structure Octree (α : Type) where
  root : Option (Node α)
  dropped : List (Node α)

/-- Go `CreateOctree`. -/
def CreateOctree {α : Type} (min max : Vector3f) : Octree α :=
  let mn := min.Min max
  let mx := min.Max max
  ⟨some (Node.fresh ⟨mn, mx⟩), []⟩

namespace Octree

variable {α : Type}

/-- Go `Octree.Clear`. -/
def Clear (o : Octree α) : Octree α × Bool :=
  match o.root with
  | some r => (⟨some (Node.fresh r.box), o.dropped ++ [r]⟩, true)
  | none => (o, false)

/-- Go `Octree.Add`.  `none`: no result (the fuel ran out, or the root is
`nil` and the call dereferences it). -/
def Add (fuel : Nat) (o : Octree α) (element : α) (point : Vector3f) :
    Option (Octree α × Option NodeRef) :=
  match o.root with
  | none => none
  | some r =>
    match r.tryAdd fuel [element] point with
    | none => none
    | some (r', leaf) => some (⟨some r', o.dropped⟩, leaf.map fun path => ⟨o.dropped.length, path⟩)

/-- Go `Octree.ElementsAt`.  `none`: the root is `nil`. -/
def ElementsAt (o : Octree α) (point : Vector3f) : Option (List α) :=
  o.root.map fun r => r.elementsAt point

/-- Go `Octree.ElementsIn`.  `none`: the root is `nil`. -/
def ElementsIn (o : Octree α) (box : Box) : Option (List α) :=
  o.root.map fun r => r.elementsIn box

/-- Go `Octree.Remove`.  `none`: the root is `nil`. -/
def Remove [DecidableEq α] (o : Octree α) (element : α) : Option (Octree α × Bool) :=
  o.root.map fun r => (⟨some (r.remove element).1, o.dropped⟩, (r.remove element).2)

/-- Go `Octree.RemoveUsing`; `node = none` is the `nil` pointer.  The node is
looked up in the graph it belongs to, the live one or an unlinked one.
`none`: the reference denotes no node. -/
def RemoveUsing [DecidableEq α] (o : Octree α) (element : α) (node : Option NodeRef) :
    Option (Octree α × Bool) :=
  match node with
  | none => some (o, false)
  | some ref =>
    if ref.root = o.dropped.length then
      match o.root with
      | none => none
      | some r =>
        match r.removeAt ref.path element with
        | none => none
        | some (r', b) => some (⟨some r', o.dropped⟩, b)
    else
      match o.dropped[ref.root]? with
      | none => none
      | some t =>
        match t.removeAt ref.path element with
        | none => none
        | some (t', b) => some (⟨o.root, o.dropped.set ref.root t'⟩, b)

/-- The trees a caller can obtain: `CreateOctree` followed by any calls of
`Add`, `Remove`, `RemoveUsing` and `Clear` that return. -/
inductive Reachable [DecidableEq α] : Octree α → Prop where
  | create (min max : Vector3f) : Reachable (CreateOctree min max)
  | add (o o' : Octree α) (fuel : Nat) (element : α) (point : Vector3f) (r : Option NodeRef)
      (h : Reachable o) (hadd : o.Add fuel element point = some (o', r)) : Reachable o'
  | remove (o o' : Octree α) (element : α) (b : Bool)
      (h : Reachable o) (hrem : o.Remove element = some (o', b)) : Reachable o'
  | removeUsing (o o' : Octree α) (element : α) (node : Option NodeRef) (b : Bool)
      (h : Reachable o) (hrem : o.RemoveUsing element node = some (o', b)) : Reachable o'
  | clear (o : Octree α) (h : Reachable o) : Reachable o.Clear.1

end Octree

/-! ## Vocabulary of the statements -/

/-- The stored point of the leaf `l` lies in `box` (closed bounds); a leaf
without a point has none in any box. -/
def Node.pointIn {α : Type} (box : Box) (l : Node α) : Bool :=
  match l.point with
  | some q => box.ContainsPoint q
  | none => false

namespace Octree

variable {α : Type}

/-- The root box of the tree contains the point (`false` without a root). -/
def rootContains (o : Octree α) (p : Vector3f) : Bool :=
  match o.root with
  | some r => r.box.ContainsPoint p
  | none => false

/-- The node a `*Node` denotes: a node of the live graph or of an unlinked
one. -/
def resolve (o : Octree α) (ref : NodeRef) : Option (Node α) :=
  if ref.root = o.dropped.length then
    match o.root with
    | some r => r.nodeAt ref.path
    | none => none
  else
    match o.dropped[ref.root]? with
    | some t => t.nodeAt ref.path
    | none => none

/-- The call `o.Add(element, point)` returns `node` and leaves the tree
`o'`. -/
def AddReturns (o : Octree α) (element : α) (point : Vector3f) (o' : Octree α)
    (node : Option NodeRef) : Prop :=
  ∃ fuel, o.Add fuel element point = some (o', node)

/-- A tree made by `CreateOctree` and a sequence of `Add` and `Remove` calls,
with the points at which an `Add` has succeeded and the values put in by a
successful `Add` and not yet taken out by a successful `Remove` (one copy per
call). -/
inductive History [DecidableEq α] : Octree α → List Vector3f → List α → Prop where
  | create (min max : Vector3f) : History (CreateOctree min max) [] []
  | addSome (o o' : Octree α) (points : List Vector3f) (bag : List α) (element : α)
      (point : Vector3f) (node : NodeRef)
      (h : History o points bag) (hadd : o.AddReturns element point o' (some node)) :
      History o' (point :: points) (element :: bag)
  | addNone (o o' : Octree α) (points : List Vector3f) (bag : List α) (element : α)
      (point : Vector3f)
      (h : History o points bag) (hadd : o.AddReturns element point o' none) :
      History o' points bag
  | removeTrue (o o' : Octree α) (points : List Vector3f) (bag : List α) (element : α)
      (h : History o points bag) (hrem : o.Remove element = some (o', true)) :
      History o' points (bag.erase element)
  | removeFalse (o o' : Octree α) (points : List Vector3f) (bag : List α) (element : α)
      (h : History o points bag) (hrem : o.Remove element = some (o', false)) :
      History o' points bag

end Octree

/-- The sum of the three side lengths of a box. -/
def Box.girth (b : Box) : ℚ :=
  (b.max.x - b.min.x) + (b.max.y - b.min.y) + (b.max.z - b.min.z)

/-- The sum of the coordinate distances of two points. -/
def Vector3f.gap (p q : Vector3f) : ℚ :=
  |p.x - q.x| + |p.y - q.y| + |p.z - q.z|

/-- The node `n'` has the box of `n`, stores the same points, and is
well-formed if `n` is: what a removal below `n` keeps. -/
def Node.SameFrame {α : Type} (n n' : Node α) : Prop :=
  n'.box = n.box ∧ (∀ q, n'.Stores q ↔ n.Stores q) ∧ (n.WF → n'.WF)

/-- Below the node at address `path` of `n` some leaf stores the point `p` and
holds the value `v`. -/
def Node.HoldsAt {α : Type} (n : Node α) (path : List Nat) (p : Vector3f) (v : α) : Prop :=
  ∃ t l, n.nodeAt path = some t ∧ l ∈ t.leaves ∧ l.point = some p ∧ v ∈ l.elements

/-! ## Example trees -/

/-- An example tree: the unit cube after `Add(1, (1, 1, 1))`. -/
def Octree.sampleCorner : Octree Nat :=
  ⟨some (Node.mk ⟨⟨0, 0, 0⟩, ⟨1, 1, 1⟩⟩ (some ⟨1, 1, 1⟩) [1] false []), []⟩

/-- An example tree: the unit cube after `Add(1, (1, 1, 1))` and
`Add(1, (0, 0, 0))`; the root is a branch, the first octant holds the second
value and the last octant the first. -/
def Octree.sampleSplit : Octree Nat :=
  ⟨some (Node.mk ⟨⟨0, 0, 0⟩, ⟨1, 1, 1⟩⟩ none [] true
    [ Node.mk ⟨⟨0, 0, 0⟩, ⟨1 / 2, 1 / 2, 1 / 2⟩⟩ (some ⟨0, 0, 0⟩) [1] false [],
      Node.mk ⟨⟨1 / 2, 0, 0⟩, ⟨1, 1 / 2, 1 / 2⟩⟩ none [] false [],
      Node.mk ⟨⟨0, 1 / 2, 0⟩, ⟨1 / 2, 1, 1 / 2⟩⟩ none [] false [],
      Node.mk ⟨⟨1 / 2, 1 / 2, 0⟩, ⟨1, 1, 1 / 2⟩⟩ none [] false [],
      Node.mk ⟨⟨0, 0, 1 / 2⟩, ⟨1 / 2, 1 / 2, 1⟩⟩ none [] false [],
      Node.mk ⟨⟨1 / 2, 0, 1 / 2⟩, ⟨1, 1 / 2, 1⟩⟩ none [] false [],
      Node.mk ⟨⟨0, 1 / 2, 1 / 2⟩, ⟨1 / 2, 1, 1⟩⟩ none [] false [],
      Node.mk ⟨⟨1 / 2, 1 / 2, 1 / 2⟩, ⟨1, 1, 1⟩⟩ (some ⟨1, 1, 1⟩) [1] false [] ]), []⟩

/-- An example tree: the unit cube after `Add(1, (1, 1, 1))` and
`Add(2, (0, 0, 0))`. -/
def Octree.sampleTwo : Octree Nat :=
  ⟨some (Node.mk ⟨⟨0, 0, 0⟩, ⟨1, 1, 1⟩⟩ none [] true
    [ Node.mk ⟨⟨0, 0, 0⟩, ⟨1 / 2, 1 / 2, 1 / 2⟩⟩ (some ⟨0, 0, 0⟩) [2] false [],
      Node.mk ⟨⟨1 / 2, 0, 0⟩, ⟨1, 1 / 2, 1 / 2⟩⟩ none [] false [],
      Node.mk ⟨⟨0, 1 / 2, 0⟩, ⟨1 / 2, 1, 1 / 2⟩⟩ none [] false [],
      Node.mk ⟨⟨1 / 2, 1 / 2, 0⟩, ⟨1, 1, 1 / 2⟩⟩ none [] false [],
      Node.mk ⟨⟨0, 0, 1 / 2⟩, ⟨1 / 2, 1 / 2, 1⟩⟩ none [] false [],
      Node.mk ⟨⟨1 / 2, 0, 1 / 2⟩, ⟨1, 1 / 2, 1⟩⟩ none [] false [],
      Node.mk ⟨⟨0, 1 / 2, 1 / 2⟩, ⟨1 / 2, 1, 1⟩⟩ none [] false [],
      Node.mk ⟨⟨1 / 2, 1 / 2, 1 / 2⟩, ⟨1, 1, 1⟩⟩ (some ⟨1, 1, 1⟩) [1] false [] ]), []⟩

/-- The box is not inverted: `min[i] <= max[i]` on all three axes. -/
def Box.Ordered (b : Box) : Prop :=
  b.min.x ≤ b.max.x ∧ b.min.y ≤ b.max.y ∧ b.min.z ≤ b.max.z

/-- The tree `o'` comes from the tree `o` by calls of `Add`, `Remove`,
`RemoveUsing` and `Clear` that return. -/
inductive Octree.Steps {α : Type} [DecidableEq α] (o : Octree α) : Octree α → Prop where
  | refl : Steps o o
  | add (o1 o2 : Octree α) (element : α) (point : Vector3f) (node : Option NodeRef)
      (h : Steps o o1) (hadd : o1.AddReturns element point o2 node) : Steps o o2
  | remove (o1 o2 : Octree α) (element : α) (b : Bool)
      (h : Steps o o1) (hrem : o1.Remove element = some (o2, b)) : Steps o o2
  | removeUsing (o1 o2 : Octree α) (element : α) (node : Option NodeRef) (b : Bool)
      (h : Steps o o1) (hrem : o1.RemoveUsing element node = some (o2, b)) : Steps o o2
  | clear (o1 : Octree α) (h : Steps o o1) : Steps o o1.Clear.1

/-- An example tree: the unit cube after `Add(1, (1, 1, 1))` twice. -/
def Octree.sampleTwice : Octree Nat :=
  ⟨some (Node.mk ⟨⟨0, 0, 0⟩, ⟨1, 1, 1⟩⟩ (some ⟨1, 1, 1⟩) [1, 1] false []), []⟩

/-- An example tree: the unit cube after `Add(1, (1, 1, 1))` and `Remove(1)`;
the root keeps its point and has no values. -/
def Octree.sampleEmptied : Octree Nat :=
  ⟨some (Node.mk ⟨⟨0, 0, 0⟩, ⟨1, 1, 1⟩⟩ (some ⟨1, 1, 1⟩) [] false []), []⟩

/-- The trees made by `CreateOctree`, `Add` calls, and `Remove` and
`RemoveUsing` calls that return `false`: nothing has been taken out. -/
inductive Octree.NothingRemoved {α : Type} [DecidableEq α] : Octree α → Prop where
  | create (min max : Vector3f) : NothingRemoved (CreateOctree min max)
  | add (o o' : Octree α) (element : α) (point : Vector3f) (node : Option NodeRef)
      (h : NothingRemoved o) (hadd : o.AddReturns element point o' node) : NothingRemoved o'
  | remove (o o' : Octree α) (element : α)
      (h : NothingRemoved o) (hrem : o.Remove element = some (o', false)) : NothingRemoved o'
  | removeUsing (o o' : Octree α) (element : α) (node : Option NodeRef)
      (h : NothingRemoved o) (hrem : o.RemoveUsing element node = some (o', false)) :
      NothingRemoved o'

/-- What makes the shape of a node: its box, its stored point, its
leaf/branch flag and the number of its children. -/
def Node.frame {α : Type} (c : Node α) : Box × Option Vector3f × Bool × Nat :=
  (c.box, c.point, c.hasChildren, c.children.length)

/-- The way of `tryAdd`: `Routed p n path` when a call of `tryAdd` for the
point `p` on the node `n` is passed down to the node at address `path`, every
node on the way being a branch whose box contains `p` and whose first child
with `p` in its box is the next node on the way. -/
inductive Node.Routed {α : Type} (p : Vector3f) : Node α → List Nat → Prop where
  | here (n : Node α) : Routed p n []
  | step (box : Box) (pt : Option Vector3f) (e : List α) (l1 l2 : List (Node α)) (c : Node α)
      (path : List Nat)
      (h : box.ContainsPoint p = true)
      (h1 : ∀ d ∈ l1, d.box.ContainsPoint p = false)
      (hc : c.box.ContainsPoint p = true)
      (hr : Routed p c path) :
      Routed p (Node.mk box pt e true (l1 ++ c :: l2)) (l1.length :: path)

/-- The midpoint `(min + max) / 2` of a box, axis by axis (the split point
in the words of the specification; `makeSubBoxes` computes its centre with
`Lerp`). -/
def Box.midpoint (b : Box) : Vector3f :=
  ⟨(b.min.x + b.max.x) / 2, (b.min.y + b.max.y) / 2, (b.min.z + b.max.z) / 2⟩

/-- The octant of a box split at its midpoint, in the words of the
specification: the high half on the axes flagged `true`, the low half on the
others. -/
def Box.octant (b : Box) (highX highY highZ : Bool) : Box :=
  ⟨⟨if highX then b.midpoint.x else b.min.x,
    if highY then b.midpoint.y else b.min.y,
    if highZ then b.midpoint.z else b.min.z⟩,
   ⟨if highX then b.max.x else b.midpoint.x,
    if highY then b.max.y else b.midpoint.y,
    if highZ then b.max.z else b.midpoint.z⟩⟩

/-- The cube `[0, (1/2)^k]^3`: the box of the node `k` levels below the root
of the unit cube along the first octants. -/
def Box.corner (k : Nat) : Box :=
  ⟨⟨0, 0, 0⟩, ⟨(1 / 2) ^ k, (1 / 2) ^ k, (1 / 2) ^ k⟩⟩

/-! # The package on `float64` coordinates

The exact embedding above takes coordinates as rational numbers.  The
definitions below embed the same source over the `float64` values that the Go
type `Vector3f` holds, with the arithmetic of IEEE 754 binary64 (round to
nearest, ties to even; each operation rounded on its own, as the Go compiler
does where it does not fuse a multiplication and an addition), to show what
the operations do where that arithmetic differs from exact arithmetic:
infinities, NaN, overflow, and the finite number of values.  `Remove`,
`RemoveUsing` and `Clear` do no arithmetic and are not repeated here. -/

/-! ## The arithmetic of `float64` -/

/-- Go `float64`: the three bit fields of an IEEE 754 binary64 value. -/
structure Float64 where
  sign : Bool
  exponent : Fin 2048
  mantissa : Fin 4503599627370496
deriving DecidableEq, Fintype

namespace Float64

/-- What a `float64` denotes: not a number, an infinity, or the finite number
`(-1)^neg * mag * 2^(-1074)`; every finite `float64` is a whole multiple of
`2^(-1074)`. -/
inductive Value where
  | nan
  | inf (neg : Bool)
  | fin (neg : Bool) (mag : Nat)
deriving DecidableEq

/-- Decoding of the bit fields: exponent 2047 is an infinity (mantissa 0) or
a NaN, exponent 0 a zero or subnormal number, any other exponent a normal
number with the implicit leading bit. -/
def value (x : Float64) : Value :=
  if x.exponent.val = 2047 then
    if x.mantissa.val = 0 then Value.inf x.sign else Value.nan
  else if x.exponent.val = 0 then
    Value.fin x.sign x.mantissa.val
  else
    Value.fin x.sign ((4503599627370496 + x.mantissa.val) * 2 ^ (x.exponent.val - 1))

/-- The number `(-1)^neg * mag`. -/
def signed (neg : Bool) (mag : Nat) : Int :=
  if neg then -(mag : Int) else (mag : Int)

/-- A quiet NaN; which NaN an operation returns is not observable by the
package. -/
def nan : Float64 := ⟨false, 2047, 2251799813685248⟩

/-- The infinity of a sign. -/
def infinity (neg : Bool) : Float64 := ⟨neg, 2047, 0⟩

/-- The position of the leading bit, found by halving the range: with the
steps `[4096, 2048, .., 2, 1]` this is `floor (log2 n)` for `0 < n < 2^8192`
(and `0` for `n = 0`). -/
def leadingBit : List Nat → Nat → Nat
  | [], _ => 0
  | step :: rest, n =>
    if 2 ^ step ≤ n then step + leadingBit rest (n / 2 ^ step) else leadingBit rest n

/-- The number `floor (log2 n)` for the magnitudes that occur (`n < 2^8192`). -/
def log2 (n : Nat) : Nat :=
  leadingBit [4096, 2048, 1024, 512, 256, 128, 64, 32, 16, 8, 4, 2, 1] n

/-- Rounding to nearest, ties to even: the `float64` nearest to
`(-1)^neg * num * 2^(-1074 - scale)`; an infinity when the rounded magnitude
reaches `2^1024`.  `drop` is the number of low bits of `num` that do not fit:
53 significant bits are kept, and nothing below `2^(-1074)`. -/
def round (neg : Bool) (num scale : Nat) : Float64 :=
  let drop := max scale (log2 num + 1 - 53)
  let kept := num / 2 ^ drop
  let rest := num % 2 ^ drop
  let up : Bool := decide (2 ^ drop < 2 * rest) ||
    (decide (2 * rest = 2 ^ drop) && decide (kept % 2 = 1))
  let k := (if up then kept + 1 else kept) * 2 ^ (drop - scale)
  if 2 ^ 2098 ≤ k then infinity neg
  else if k < 4503599627370496 then ⟨neg, 0, Fin.ofNat k⟩
  else ⟨neg, Fin.ofNat (log2 k - 52 + 1), Fin.ofNat (k / 2 ^ (log2 k - 52) - 4503599627370496)⟩

/-- The constant `0`. -/
def zero : Float64 := ⟨false, 0, 0⟩

/-- The constant `0.5`. -/
def half : Float64 := ⟨false, 1022, 0⟩

/-- The constant `1`. -/
def one : Float64 := ⟨false, 1023, 0⟩

/-- The number `2^1023`, the greatest power of two among the `float64`
values. -/
def huge : Float64 := ⟨false, 2046, 0⟩

/-- Go unary `-x`. -/
def neg (a : Float64) : Float64 := ⟨!a.sign, a.exponent, a.mantissa⟩

/-- Go `a + b` on `float64`. -/
def add (a b : Float64) : Float64 :=
  match a.value, b.value with
  | Value.nan, _ => nan
  | _, Value.nan => nan
  | Value.inf na, Value.inf nb => if na = nb then infinity na else nan
  | Value.inf na, Value.fin _ _ => infinity na
  | Value.fin _ _, Value.inf nb => infinity nb
  | Value.fin na ma, Value.fin nb mb =>
    let z := signed na ma + signed nb mb
    if z = 0 then ⟨na && nb, 0, 0⟩ else round (decide (z < 0)) z.natAbs 0

/-- Go `a - b` on `float64`. -/
def sub (a b : Float64) : Float64 := add a (neg b)

/-- Go `a * b` on `float64`. -/
def mul (a b : Float64) : Float64 :=
  match a.value, b.value with
  | Value.nan, _ => nan
  | _, Value.nan => nan
  | Value.inf na, Value.inf nb => infinity (xor na nb)
  | Value.inf na, Value.fin nb mb => if mb = 0 then nan else infinity (xor na nb)
  | Value.fin na ma, Value.inf nb => if ma = 0 then nan else infinity (xor na nb)
  | Value.fin na ma, Value.fin nb mb => round (xor na nb) (ma * mb) 1074

/-- Go `a <= b` on `float64`: false when either side is a NaN. -/
def le (a b : Float64) : Bool :=
  match a.value, b.value with
  | Value.nan, _ => false
  | _, Value.nan => false
  | Value.inf na, Value.inf nb => na || !nb
  | Value.inf na, Value.fin _ _ => na
  | Value.fin _ _, Value.inf nb => !nb
  | Value.fin na ma, Value.fin nb mb => decide (signed na ma ≤ signed nb mb)

/-- Go `a < b` on `float64`: false when either side is a NaN. -/
def lt (a b : Float64) : Bool :=
  match a.value, b.value with
  | Value.nan, _ => false
  | _, Value.nan => false
  | Value.inf na, Value.inf nb => na && !nb
  | Value.inf na, Value.fin _ _ => na
  | Value.fin _ _, Value.inf nb => !nb
  | Value.fin na ma, Value.fin nb mb => decide (signed na ma < signed nb mb)

/-- Go `a >= b` on `float64`. -/
def ge (a b : Float64) : Bool := le b a

/-- Go `a > b` on `float64`. -/
def gt (a b : Float64) : Bool := lt b a

/-- Go `a == b` on `float64`: a NaN equals nothing, the two zeros are
equal. -/
def eq (a b : Float64) : Bool :=
  match a.value, b.value with
  | Value.nan, _ => false
  | _, Value.nan => false
  | Value.inf na, Value.inf nb => na == nb
  | Value.inf _, Value.fin _ _ => false
  | Value.fin _ _, Value.inf _ => false
  | Value.fin na ma, Value.fin nb mb => decide (signed na ma = signed nb mb)

/-- Go `math.IsNaN`. -/
def IsNaN (a : Float64) : Bool :=
  match a.value with
  | Value.nan => true
  | _ => false

/-- Go `math.IsInf(a, sign)` for `sign = -1` (`neg = true`) and `sign = 1`. -/
def IsInf (a : Float64) (neg : Bool) : Bool :=
  match a.value with
  | Value.inf s => s == neg
  | _ => false

/-- Go `math.Min`: `-Inf` if either argument is, else a NaN if either
argument is, `-0` before `+0`, else the smaller. -/
def Min (x y : Float64) : Float64 :=
  if x.IsInf true || y.IsInf true then infinity true
  else if x.IsNaN || y.IsNaN then nan
  else if x.eq zero && x.eq y then (if x.sign then x else y)
  else if x.lt y then x
  else y

/-- Go `math.Max`: `+Inf` if either argument is, else a NaN if either
argument is, `+0` before `-0`, else the greater. -/
def Max (x y : Float64) : Float64 :=
  if x.IsInf false || y.IsInf false then infinity false
  else if x.IsNaN || y.IsNaN then nan
  else if x.eq zero && x.eq y then (if x.sign then y else x)
  else if x.gt y then x
  else y

end Float64
/-! ## The data model and the operations on `float64` -/

namespace Machine

/-- Go `type Vector3f [3]float64`, the components as `float64` values. -/
structure Vector3f where
  x : Float64
  y : Float64
  z : Float64
deriving DecidableEq, Fintype

namespace Vector3f

/-- Go `Vector3f.Min`: component-wise `math.Min`. -/
def Min (v other : Vector3f) : Vector3f :=
  ⟨Float64.Min v.x other.x, Float64.Min v.y other.y, Float64.Min v.z other.z⟩

/-- Go `Vector3f.Max`: component-wise `math.Max`. -/
def Max (v other : Vector3f) : Vector3f :=
  ⟨Float64.Max v.x other.x, Float64.Max v.y other.y, Float64.Max v.z other.z⟩

/-- Go `Vector3f.Lerp`: `(other[i]-v[i])*f + v[i]` on every axis, each
operation rounded on its own. -/
def Lerp (v other : Vector3f) (f : Float64) : Vector3f :=
  ⟨((other.x.sub v.x).mul f).add v.x, ((other.y.sub v.y).mul f).add v.y,
    ((other.z.sub v.z).mul f).add v.z⟩

/-- Go `*a == *b` on two `Vector3f` arrays: `==` on every component. -/
def eq (a b : Vector3f) : Bool :=
  a.x.eq b.x && a.y.eq b.y && a.z.eq b.z

end Vector3f

/-- Go `type Box struct { min, max Vector3f }`. -/
structure Box where
  min : Vector3f
  max : Vector3f
deriving DecidableEq

namespace Box

/-- Go `Box.ContainsPoint`. -/
def ContainsPoint (b : Box) (v : Vector3f) : Bool :=
  b.min.x.le v.x &&
    b.max.x.ge v.x &&
    b.min.y.le v.y &&
    b.max.y.ge v.y &&
    b.min.z.le v.z &&
    b.max.z.ge v.z

/-- Go `Box.Contains`. -/
def Contains (b o : Box) : Bool :=
  b.min.x.le o.min.x &&
    b.max.x.ge o.max.x &&
    b.min.y.le o.min.y &&
    b.max.y.ge o.max.y &&
    b.min.z.le o.min.z &&
    b.max.z.ge o.max.z

/-- Go `Box.IsContainedIn`. -/
def IsContainedIn (b o : Box) : Bool :=
  o.Contains b

/-- Go `Box.Intersects`. -/
def Intersects (b o : Box) : Bool :=
  !(b.max.x.lt o.min.x ||
    o.max.x.lt b.min.x ||
    b.max.y.lt o.min.y ||
    o.max.y.lt b.min.y ||
    b.max.z.lt o.min.z ||
    o.max.z.lt b.min.z)

/-- Go `Box.makeSubBoxes`, with the centre `b.min.Lerp(&b.max, 0.5)`. -/
def makeSubBoxes (b : Box) : List Box :=
  let center := b.min.Lerp b.max Float64.half
  [ ⟨⟨b.min.x, b.min.y, b.min.z⟩, ⟨center.x, center.y, center.z⟩⟩,
    ⟨⟨center.x, b.min.y, b.min.z⟩, ⟨b.max.x, center.y, center.z⟩⟩,
    ⟨⟨b.min.x, center.y, b.min.z⟩, ⟨center.x, b.max.y, center.z⟩⟩,
    ⟨⟨center.x, center.y, b.min.z⟩, ⟨b.max.x, b.max.y, center.z⟩⟩,
    ⟨⟨b.min.x, b.min.y, center.z⟩, ⟨center.x, center.y, b.max.z⟩⟩,
    ⟨⟨center.x, b.min.y, center.z⟩, ⟨b.max.x, center.y, b.max.z⟩⟩,
    ⟨⟨b.min.x, center.y, center.z⟩, ⟨center.x, b.max.y, b.max.z⟩⟩,
    ⟨⟨center.x, center.y, center.z⟩, ⟨b.max.x, b.max.y, b.max.z⟩⟩ ]

/-- The box is not inverted: `min[i] <= max[i]` on all three axes, in
`float64` comparisons. -/
def Ordered (b : Box) : Bool :=
  b.min.x.le b.max.x && b.min.y.le b.max.y && b.min.z.le b.max.z

end Box

/-- Go `type Node struct`, with `float64` boxes and points. -/
inductive Node (α : Type) where
  | mk (box : Box) (point : Option Vector3f) (elements : List α) (hasChildren : Bool)
      (children : List (Node α)) : Node α

namespace Node

variable {α : Type}

/-- Field `box`. -/
def box : Node α → Box
  | mk b _ _ _ _ => b

/-- Field `point`. -/
def point : Node α → Option Vector3f
  | mk _ p _ _ _ => p

/-- Field `elements`. -/
def elements : Node α → List α
  | mk _ _ e _ _ => e

/-- Field `hasChildren`. -/
def hasChildren : Node α → Bool
  | mk _ _ _ h _ => h

/-- Field `children`. -/
def children : Node α → List (Node α)
  | mk _ _ _ _ c => c

/-- Go composite literal `&Node{box: b}`. -/
def fresh (b : Box) : Node α :=
  mk b none [] false []

/-- The loop of `addToChildren` over the children from index `i` on,
parameterised by the call `child.tryAdd(..)`; see `Node.addLoop` of the exact
embedding. -/
def addLoop (call : Node α → Option (Node α × Option (List Nat))) :
    Nat → List (Node α) → Option (List (Node α) × Option (List Nat))
  | _, [] => some ([], none)
  | i, child :: rest =>
    match call child with
    | none => none
    | some (child', some leaf) => some (child' :: rest, some (i :: leaf))
    | some (child', none) =>
      match addLoop call (i + 1) rest with
      | none => none
      | some (rest', r) => some (child' :: rest', r)

mutual

/-- Go `Node.tryAdd`.  Returns the node as the call has left it and the
returned `*Node` (`none` for `nil`) as an address below this node; `none`:
the fuel ran out. -/
def tryAdd : Nat → Node α → List α → Vector3f → Option (Node α × Option (List Nat))
  | 0, _, _, _ => none
  | fuel + 1, n, elements, point =>
    if !n.box.ContainsPoint point then
      some (n, none)
    else if n.hasChildren then
      addToChildren fuel n elements point
    else
      match n.point with
      | some q =>
        if q.eq point then
          some (mk n.box n.point (n.elements ++ elements) n.hasChildren n.children, some [])
        else
          subdivide fuel n elements point
      | none =>
        some (mk n.box (some point) elements n.hasChildren n.children, some [])

/-- Go `Node.addToChildren`. -/
def addToChildren : Nat → Node α → List α → Vector3f → Option (Node α × Option (List Nat))
  | 0, _, _, _ => none
  | fuel + 1, n, elements, point =>
    match addLoop (fun child => tryAdd fuel child elements point) 0 n.children with
    | none => none
    | some (children', r) => some (mk n.box n.point n.elements n.hasChildren children', r)

/-- Go `Node.subdivide`. -/
def subdivide : Nat → Node α → List α → Vector3f → Option (Node α × Option (List Nat))
  | 0, _, _, _ => none
  | fuel + 1, n, addElements, atPoint =>
    -- n.hasChildren = true; append the eight fresh children
    let n1 : Node α := mk n.box n.point n.elements true
      (n.children ++ (n.box.makeSubBoxes.map fun b => fresh b))
    -- n.addToChildren(n.elements, n.point), its result dropped
    let moved : Option (Node α) :=
      match n1.point with
      | some q => (addToChildren fuel n1 n1.elements q).map Prod.fst
      | none => none
    match moved with
    | none => none
    | some n2 =>
      -- n.elements = nil; n.point = nil
      let n3 : Node α := mk n2.box none [] n2.hasChildren n2.children
      addToChildren fuel n3 addElements atPoint

end

mutual

/-- Go `Node.elementsAt`. -/
def elementsAt : Node α → Vector3f → List α
  | mk _ point elements hasChildren children, p =>
    if hasChildren then
      elementsAtLoop children p
    else
      match point with
      | some q => if p.eq q then elements else []
      | none => []

/-- The loop of `elementsAt` over the children. -/
def elementsAtLoop : List (Node α) → Vector3f → List α
  | [], _ => []
  | child :: rest, p =>
    if child.box.ContainsPoint p then elementsAt child p else elementsAtLoop rest p

end

mutual

/-- Go `Node.elementsIn`. -/
def elementsIn : Node α → Box → List α
  | mk _ point elements hasChildren children, box =>
    if hasChildren then
      elementsInLoop children box
    else
      match point with
      | some q => if box.ContainsPoint q then elements else []
      | none => []

/-- The loop of `elementsIn` over the children. -/
def elementsInLoop : List (Node α) → Box → List α
  | [], _ => []
  | child :: rest, box =>
    (if child.box.IsContainedIn box then
        elementsIn child child.box
      else if child.box.Contains box || child.box.Intersects box then
        elementsIn child box
      else
        []) ++ elementsInLoop rest box

end

/-- The node at an address below `n`: `[]` is `n` itself, `i :: path`
continues in `n.children[i]`. -/
def nodeAt : Node α → List Nat → Option (Node α)
  | n, [] => some n
  | n, i :: path =>
    match n.children[i]? with
    | some child => nodeAt child path
    | none => none

end Node

/-- Go `type Octree struct { root *Node }`. -/
structure Octree (α : Type) where
  root : Option (Node α)

/-- Go `CreateOctree`. -/
def CreateOctree {α : Type} (min max : Vector3f) : Octree α :=
  let mn := min.Min max
  let mx := min.Max max
  ⟨some (Node.fresh ⟨mn, mx⟩)⟩

namespace Octree

variable {α : Type}

/-- Go `Octree.Add`; the returned `*Node` as an address below the root.
`none`: no result (the fuel ran out, or the root is `nil`). -/
def Add (fuel : Nat) (o : Octree α) (element : α) (point : Vector3f) :
    Option (Octree α × Option (List Nat)) :=
  match o.root with
  | none => none
  | some r =>
    match r.tryAdd fuel [element] point with
    | none => none
    | some (r', leaf) => some (⟨some r'⟩, leaf)

/-- Go `Octree.ElementsAt`.  `none`: the root is `nil`. -/
def ElementsAt (o : Octree α) (point : Vector3f) : Option (List α) :=
  o.root.map fun r => r.elementsAt point

/-- Go `Octree.ElementsIn`.  `none`: the root is `nil`. -/
def ElementsIn (o : Octree α) (box : Box) : Option (List α) :=
  o.root.map fun r => r.elementsIn box

end Octree

end Machine
namespace Machine

namespace Node

variable {α : Type}

mutual

/-- The number of levels below a node: the length of the longest address
that denotes a node below it. -/
def depth : Node α → Nat
  | mk _ _ _ _ children => depthLoop children

/-- One more than the greatest depth among a list of children (`0` for no
children). -/
def depthLoop : List (Node α) → Nat
  | [] => 0
  | child :: rest => max (depth child + 1) (depthLoop rest)

end

end Node

namespace Vector3f

/-- The point `(0, 0, 0)`. -/
def zero : Vector3f := ⟨Float64.zero, Float64.zero, Float64.zero⟩

/-- The point `(1, 1, 1)`. -/
def ones : Vector3f := ⟨Float64.one, Float64.one, Float64.one⟩

end Vector3f

namespace Octree

end Octree

end Machine

/-! # Theorems -/

/-! ## Geometry of boxes -/

namespace Box

theorem containsPoint_iff (b : Box) (v : Vector3f) :
    b.ContainsPoint v = true ↔
      (b.min.x ≤ v.x ∧ v.x ≤ b.max.x) ∧ (b.min.y ≤ v.y ∧ v.y ≤ b.max.y) ∧
        (b.min.z ≤ v.z ∧ v.z ≤ b.max.z) := by
  simp only [ContainsPoint, Bool.and_eq_true, decide_eq_true_eq, ge_iff_le]
  tauto

theorem exists_subBox (b : Box) (p : Vector3f) (h : b.ContainsPoint p = true) :
    ∃ s ∈ b.makeSubBoxes, s.ContainsPoint p = true := by
  rw [containsPoint_iff] at h
  obtain ⟨⟨hx1, hx2⟩, ⟨hy1, hy2⟩, hz1, hz2⟩ := h
  have hlen : b.makeSubBoxes.length = 8 := rfl
  rcases le_total p.x ((b.max.x - b.min.x) * (1 / 2) + b.min.x) with hx | hx <;>
  rcases le_total p.y ((b.max.y - b.min.y) * (1 / 2) + b.min.y) with hy | hy <;>
  rcases le_total p.z ((b.max.z - b.min.z) * (1 / 2) + b.min.z) with hz | hz
  · exact ⟨b.makeSubBoxes.get ⟨0, by omega⟩, List.get_mem _ _ _,
      (containsPoint_iff _ _).2 ⟨⟨hx1, hx⟩, ⟨hy1, hy⟩, hz1, hz⟩⟩
  · exact ⟨b.makeSubBoxes.get ⟨4, by omega⟩, List.get_mem _ _ _,
      (containsPoint_iff _ _).2 ⟨⟨hx1, hx⟩, ⟨hy1, hy⟩, hz, hz2⟩⟩
  · exact ⟨b.makeSubBoxes.get ⟨2, by omega⟩, List.get_mem _ _ _,
      (containsPoint_iff _ _).2 ⟨⟨hx1, hx⟩, ⟨hy, hy2⟩, hz1, hz⟩⟩
  · exact ⟨b.makeSubBoxes.get ⟨6, by omega⟩, List.get_mem _ _ _,
      (containsPoint_iff _ _).2 ⟨⟨hx1, hx⟩, ⟨hy, hy2⟩, hz, hz2⟩⟩
  · exact ⟨b.makeSubBoxes.get ⟨1, by omega⟩, List.get_mem _ _ _,
      (containsPoint_iff _ _).2 ⟨⟨hx, hx2⟩, ⟨hy1, hy⟩, hz1, hz⟩⟩
  · exact ⟨b.makeSubBoxes.get ⟨5, by omega⟩, List.get_mem _ _ _,
      (containsPoint_iff _ _).2 ⟨⟨hx, hx2⟩, ⟨hy1, hy⟩, hz, hz2⟩⟩
  · exact ⟨b.makeSubBoxes.get ⟨3, by omega⟩, List.get_mem _ _ _,
      (containsPoint_iff _ _).2 ⟨⟨hx, hx2⟩, ⟨hy, hy2⟩, hz1, hz⟩⟩
  · exact ⟨b.makeSubBoxes.get ⟨7, by omega⟩, List.get_mem _ _ _,
      (containsPoint_iff _ _).2 ⟨⟨hx, hx2⟩, ⟨hy, hy2⟩, hz, hz2⟩⟩

theorem mem_makeSubBoxes (b s : Box) (hs : s ∈ b.makeSubBoxes) :
    ∃ lx ly lz : Bool,
      s = ⟨⟨if lx then b.min.x else (b.max.x - b.min.x) * (1 / 2) + b.min.x,
            if ly then b.min.y else (b.max.y - b.min.y) * (1 / 2) + b.min.y,
            if lz then b.min.z else (b.max.z - b.min.z) * (1 / 2) + b.min.z⟩,
           ⟨if lx then (b.max.x - b.min.x) * (1 / 2) + b.min.x else b.max.x,
            if ly then (b.max.y - b.min.y) * (1 / 2) + b.min.y else b.max.y,
            if lz then (b.max.z - b.min.z) * (1 / 2) + b.min.z else b.max.z⟩⟩ := by
  simp only [makeSubBoxes, Vector3f.Lerp, List.mem_cons, List.mem_singleton, List.not_mem_nil,
    or_false] at hs
  rcases hs with rfl | rfl | rfl | rfl | rfl | rfl | rfl | rfl
  · exact ⟨true, true, true, rfl⟩
  · exact ⟨false, true, true, rfl⟩
  · exact ⟨true, false, true, rfl⟩
  · exact ⟨false, false, true, rfl⟩
  · exact ⟨true, true, false, rfl⟩
  · exact ⟨false, true, false, rfl⟩
  · exact ⟨true, false, false, rfl⟩
  · exact ⟨false, false, false, rfl⟩

theorem subBox_subset (b s : Box) (p : Vector3f) (hs : s ∈ b.makeSubBoxes)
    (h : s.ContainsPoint p = true) : b.ContainsPoint p = true := by
  obtain ⟨lx, ly, lz, rfl⟩ := mem_makeSubBoxes b s hs
  rw [containsPoint_iff] at h ⊢
  obtain ⟨⟨hx1, hx2⟩, ⟨hy1, hy2⟩, hz1, hz2⟩ := h
  cases lx <;> cases ly <;> cases lz <;> simp only [if_true, if_false, Bool.false_eq_true] at * <;>
    refine ⟨⟨?_, ?_⟩, ⟨?_, ?_⟩, ?_, ?_⟩ <;> linarith

theorem girth_subBox (b s : Box) (hs : s ∈ b.makeSubBoxes) : s.girth = b.girth / 2 := by
  obtain ⟨lx, ly, lz, rfl⟩ := mem_makeSubBoxes b s hs
  cases lx <;> cases ly <;> cases lz <;> simp only [girth, if_true, if_false, Bool.false_eq_true] <;> ring

end Box

theorem Vector3f.gap_pos (p q : Vector3f) (h : p ≠ q) : 0 < p.gap q := by
  by_contra hn
  apply h
  have h1 := abs_nonneg (p.x - q.x)
  have h2 := abs_nonneg (p.y - q.y)
  have h3 := abs_nonneg (p.z - q.z)
  simp only [Vector3f.gap, not_lt] at hn
  have e1 : |p.x - q.x| = 0 := by linarith
  have e2 : |p.y - q.y| = 0 := by linarith
  have e3 : |p.z - q.z| = 0 := by linarith
  rw [abs_eq_zero, sub_eq_zero] at e1 e2 e3
  cases p; cases q; simp_all

theorem Box.gap_le_girth (b : Box) (p q : Vector3f) (hp : b.ContainsPoint p = true)
    (hq : b.ContainsPoint q = true) : p.gap q ≤ b.girth := by
  rw [Box.containsPoint_iff] at hp hq
  obtain ⟨⟨hx1, hx2⟩, ⟨hy1, hy2⟩, hz1, hz2⟩ := hp
  obtain ⟨⟨kx1, kx2⟩, ⟨ky1, ky2⟩, kz1, kz2⟩ := hq
  have e1 : |p.x - q.x| ≤ b.max.x - b.min.x := abs_le.2 ⟨by linarith, by linarith⟩
  have e2 : |p.y - q.y| ≤ b.max.y - b.min.y := abs_le.2 ⟨by linarith, by linarith⟩
  have e3 : |p.z - q.z| ≤ b.max.z - b.min.z := abs_le.2 ⟨by linarith, by linarith⟩
  simp only [Vector3f.gap, Box.girth]
  linarith

/-- The first element of a list with a property, with the part before it. -/
theorem List.exists_first_split {β : Type} (P : β → Bool) (l : List β)
    (h : ∃ x ∈ l, P x = true) :
    ∃ l1 x l2, l = l1 ++ x :: l2 ∧ (∀ y ∈ l1, P y = false) ∧ P x = true := by
  induction l with
  | nil => obtain ⟨x, hx, _⟩ := h; cases hx
  | cons a l ih =>
    by_cases ha : P a = true
    · exact ⟨[], a, l, rfl, by simp, ha⟩
    · have : ∃ x ∈ l, P x = true := by
        obtain ⟨x, hx, hpx⟩ := h
        rcases List.mem_cons.1 hx with rfl | hx
        · exact absurd hpx ha
        · exact ⟨x, hx, hpx⟩
      obtain ⟨l1, x, l2, rfl, h1, hx⟩ := ih this
      refine ⟨a :: l1, x, l2, rfl, ?_, hx⟩
      intro y hy
      rcases List.mem_cons.1 hy with rfl | hy
      · simpa using ha
      · exact h1 y hy

/-! ## Nodes: fields, induction, unfolding -/

namespace Node

variable {α : Type}

@[simp] theorem box_mk (b : Box) (p : Option Vector3f) (e : List α) (h : Bool)
    (c : List (Node α)) : (mk b p e h c).box = b := rfl

@[simp] theorem point_mk (b : Box) (p : Option Vector3f) (e : List α) (h : Bool)
    (c : List (Node α)) : (mk b p e h c).point = p := rfl

@[simp] theorem elements_mk (b : Box) (p : Option Vector3f) (e : List α) (h : Bool)
    (c : List (Node α)) : (mk b p e h c).elements = e := rfl

@[simp] theorem hasChildren_mk (b : Box) (p : Option Vector3f) (e : List α) (h : Bool)
    (c : List (Node α)) : (mk b p e h c).hasChildren = h := rfl

@[simp] theorem children_mk (b : Box) (p : Option Vector3f) (e : List α) (h : Bool)
    (c : List (Node α)) : (mk b p e h c).children = c := rfl

@[simp] theorem mk_eta (n : Node α) :
    mk n.box n.point n.elements n.hasChildren n.children = n := by
  cases n; rfl

/-- Induction over a node with the hypothesis for every child. -/
theorem induct {P : Node α → Prop}
    (step : ∀ b p e h cs, (∀ c ∈ cs, P c) → P (mk b p e h cs)) : ∀ n, P n := by
  intro n
  refine Node.rec (motive_1 := P) (motive_2 := fun cs => ∀ c ∈ cs, P c) ?_ ?_ ?_ n
  · intro b p e h cs ih
    exact step b p e h cs ih
  · intro c hc
    cases hc
  · intro c cs hc hcs d hd
    rcases List.mem_cons.1 hd with rfl | hd
    · exact hc
    · exact hcs d hd

theorem elementsAt_mk (b : Box) (pt : Option Vector3f) (e : List α) (h : Bool)
    (cs : List (Node α)) (p : Vector3f) :
    (mk b pt e h cs).elementsAt p =
      if h then elementsAtLoop cs p
      else match pt with
        | some q => if p = q then e else []
        | none => [] := by
  cases h <;> cases pt <;> simp [elementsAt]

@[simp] theorem elementsAtLoop_nil (p : Vector3f) :
    elementsAtLoop ([] : List (Node α)) p = [] := by
  rw [elementsAtLoop]

theorem elementsAtLoop_cons (c : Node α) (cs : List (Node α)) (p : Vector3f) :
    elementsAtLoop (c :: cs) p =
      if c.box.ContainsPoint p then elementsAt c p else elementsAtLoop cs p := by
  rw [elementsAtLoop]

theorem elementsIn_mk (b : Box) (pt : Option Vector3f) (e : List α) (h : Bool)
    (cs : List (Node α)) (box : Box) :
    (mk b pt e h cs).elementsIn box =
      if h then elementsInLoop cs box
      else match pt with
        | some q => if box.ContainsPoint q then e else []
        | none => [] := by
  cases h <;> cases pt <;> simp [elementsIn]

@[simp] theorem elementsInLoop_nil (box : Box) :
    elementsInLoop ([] : List (Node α)) box = [] := by
  rw [elementsInLoop]

theorem elementsInLoop_cons (c : Node α) (cs : List (Node α)) (box : Box) :
    elementsInLoop (c :: cs) box =
      (if c.box.IsContainedIn box then elementsIn c c.box
        else if c.box.Contains box || c.box.Intersects box then elementsIn c box
        else []) ++ elementsInLoop cs box := by
  rw [elementsInLoop]

theorem leaves_mk (b : Box) (pt : Option Vector3f) (e : List α) (h : Bool)
    (cs : List (Node α)) :
    (mk b pt e h cs).leaves = if h then leavesLoop cs else [mk b pt e h cs] := by
  rw [leaves]

@[simp] theorem leavesLoop_nil : leavesLoop ([] : List (Node α)) = [] := by
  rw [leavesLoop]

theorem leavesLoop_cons (c : Node α) (cs : List (Node α)) :
    leavesLoop (c :: cs) = leaves c ++ leavesLoop cs := by
  rw [leavesLoop]

theorem leavesLoop_eq (cs : List (Node α)) : leavesLoop cs = cs.flatMap leaves := by
  induction cs with
  | nil => simp
  | cons c cs ih => rw [leavesLoop_cons, ih]; simp

theorem remove_mk [DecidableEq α] (b : Box) (pt : Option Vector3f) (e : List α) (h : Bool)
    (cs : List (Node α)) (v : α) :
    (mk b pt e h cs).remove v =
      if h then (mk b pt e h (removeLoop cs v).1, (removeLoop cs v).2)
      else match firstIndex v e with
        | some idx => (mk b pt (e.take idx ++ e.drop (idx + 1)) h cs, true)
        | none => (mk b pt e h cs, false) := by
  cases h <;> simp [remove]

@[simp] theorem removeLoop_nil [DecidableEq α] (v : α) :
    removeLoop ([] : List (Node α)) v = ([], false) := by
  rw [removeLoop]

theorem removeLoop_cons [DecidableEq α] (c : Node α) (cs : List (Node α)) (v : α) :
    removeLoop (c :: cs) v =
      if (remove c v).2 then ((remove c v).1 :: cs, true)
      else ((remove c v).1 :: (removeLoop cs v).1, (removeLoop cs v).2) := by
  rw [removeLoop]

/-! ## The insertion loop -/

theorem addLoop_reject (call : Node α → Option (Node α × Option (List Nat)))
    (cs : List (Node α)) (i : Nat) (h : ∀ d ∈ cs, call d = some (d, none)) :
    addLoop call i cs = some (cs, none) := by
  induction cs generalizing i with
  | nil => rfl
  | cons c cs ih =>
    have hc := h c (List.mem_cons_self _ _)
    have hcs := ih (i + 1) fun d hd => h d (List.mem_cons_of_mem _ hd)
    simp only [addLoop, hc, hcs]

theorem addLoop_accept (call : Node α → Option (Node α × Option (List Nat)))
    (l1 l2 : List (Node α)) (c c' : Node α) (leaf : List Nat) (i : Nat)
    (h1 : ∀ d ∈ l1, call d = some (d, none)) (hc : call c = some (c', some leaf)) :
    addLoop call i (l1 ++ c :: l2) = some (l1 ++ c' :: l2, some ((i + l1.length) :: leaf)) := by
  induction l1 generalizing i with
  | nil => simp only [List.nil_append, addLoop, hc, List.length_nil, Nat.add_zero]
  | cons d l1 ih =>
    have hd := h1 d (List.mem_cons_self _ _)
    have hrest := ih (i + 1) fun e he => h1 e (List.mem_cons_of_mem _ he)
    have e : i + 1 + l1.length = i + (d :: l1).length := by
      simp only [List.length_cons]; omega
    rw [List.cons_append, addLoop, hd]
    simp only
    rw [hrest, e, List.cons_append]

theorem addLoop_mono (call1 call2 : Node α → Option (Node α × Option (List Nat)))
    (hm : ∀ c r, call1 c = some r → call2 c = some r)
    (cs : List (Node α)) (i : Nat) (r : List (Node α) × Option (List Nat))
    (h : addLoop call1 i cs = some r) : addLoop call2 i cs = some r := by
  induction cs generalizing i r with
  | nil => simpa [addLoop] using h
  | cons c cs ih =>
    simp only [addLoop] at h ⊢
    cases h1 : call1 c with
    | none => simp [h1] at h
    | some x =>
      obtain ⟨c', leaf⟩ := x
      rw [hm c _ h1]
      rw [h1] at h
      cases leaf with
      | some leaf => simpa using h
      | none =>
        simp only at h ⊢
        cases h2 : addLoop call1 (i + 1) cs with
        | none => simp [h2] at h
        | some y =>
          rw [ih (i + 1) y h2]
          rw [h2] at h
          exact h

/-! ## Fuel -/

theorem tryAdd_succ (fuel : Nat) (n : Node α) (es : List α) (p : Vector3f) :
    tryAdd (fuel + 1) n es p =
      if !n.box.ContainsPoint p then some (n, none)
      else if n.hasChildren then addToChildren fuel n es p
      else match n.point with
        | some q =>
          if q = p then
            some (mk n.box n.point (n.elements ++ es) n.hasChildren n.children, some [])
          else subdivide fuel n es p
        | none => some (mk n.box (some p) es n.hasChildren n.children, some []) := by
  rw [tryAdd]

theorem addToChildren_succ (fuel : Nat) (n : Node α) (es : List α) (p : Vector3f) :
    addToChildren (fuel + 1) n es p =
      match addLoop (fun child => tryAdd fuel child es p) 0 n.children with
      | none => none
      | some (children', r) => some (mk n.box n.point n.elements n.hasChildren children', r) := by
  rw [addToChildren]

theorem subdivide_succ (fuel : Nat) (n : Node α) (es : List α) (p : Vector3f) :
    subdivide (fuel + 1) n es p =
      match (match n.point with
        | some q => (addToChildren fuel
            (mk n.box n.point n.elements true (n.children ++ (n.box.makeSubBoxes.map fun b => fresh b)))
            n.elements q).map Prod.fst
        | none => none) with
      | none => none
      | some n2 => addToChildren fuel (mk n2.box none [] n2.hasChildren n2.children) es p := by
  rw [subdivide]
  simp only [point_mk, elements_mk]

theorem fuel_succ (fuel : Nat) :
    (∀ (n : Node α) es p r, tryAdd fuel n es p = some r → tryAdd (fuel + 1) n es p = some r) ∧
    (∀ (n : Node α) es p r,
      addToChildren fuel n es p = some r → addToChildren (fuel + 1) n es p = some r) ∧
    (∀ (n : Node α) es p r,
      subdivide fuel n es p = some r → subdivide (fuel + 1) n es p = some r) := by
  induction fuel with
  | zero =>
    refine ⟨?_, ?_, ?_⟩ <;> intro n es p r h
    · simp [tryAdd] at h
    · simp [addToChildren] at h
    · simp [subdivide] at h
  | succ fuel ih =>
    obtain ⟨ih1, ih2, ih3⟩ := ih
    refine ⟨?_, ?_, ?_⟩
    · intro n es p r h
      rw [tryAdd_succ] at h ⊢
      split_ifs at h ⊢ with h1 h2
      · exact h
      · exact ih2 _ _ _ _ h
      · cases hp : n.point with
        | none => simpa [hp] using h
        | some q =>
          simp only [hp] at h ⊢
          split_ifs at h ⊢ with h3
          · exact h
          · exact ih3 _ _ _ _ h
    · intro n es p r h
      rw [addToChildren_succ] at h ⊢
      cases h1 : addLoop (fun child => tryAdd fuel child es p) 0 n.children with
      | none => simp [h1] at h
      | some x =>
        rw [addLoop_mono _ (fun child => tryAdd (fuel + 1) child es p)
          (fun c r hc => ih1 c es p r hc) _ _ _ h1]
        rw [h1] at h
        exact h
    · intro n es p r h
      rw [subdivide_succ] at h ⊢
      cases hp : n.point with
      | none => simp [hp] at h
      | some q =>
        simp only [hp] at h ⊢
        cases h1 : addToChildren fuel
            (mk n.box (some q) n.elements true (n.children ++ (n.box.makeSubBoxes.map fun b => fresh b)))
            n.elements q with
        | none => simp [h1] at h
        | some x =>
          rw [ih2 _ _ _ _ h1]
          rw [h1] at h
          simp only [Option.map_some'] at h ⊢
          exact ih2 _ _ _ _ h

theorem tryAdd_mono (f1 f2 : Nat) (hle : f1 ≤ f2) (n : Node α) (es : List α) (p : Vector3f)
    (r : Node α × Option (List Nat)) (h : tryAdd f1 n es p = some r) :
    tryAdd f2 n es p = some r := by
  induction hle with
  | refl => exact h
  | step _ ih => exact (fuel_succ _).1 _ _ _ _ ih

end Node

namespace Node

variable {α : Type}

/-! ## Insertion: the relation `Added` describes `tryAdd` -/

theorem tryAdd_outside (fuel : Nat) (n : Node α) (es : List α) (p : Vector3f)
    (h : n.box.ContainsPoint p = false) : tryAdd (fuel + 1) n es p = some (n, none) := by
  rw [tryAdd_succ, h]
  rfl

theorem tryAdd_fresh (fuel : Nat) (b : Box) (es : List α) (p : Vector3f)
    (h : b.ContainsPoint p = true) :
    tryAdd (fuel + 1) (fresh b : Node α) es p = some (mk b (some p) es false [], some []) := by
  rw [tryAdd_succ]
  simp [fresh, h]

theorem tryAdd_branch (fuel : Nat) (b : Box) (pt : Option Vector3f) (e : List α)
    (cs : List (Node α)) (es : List α) (p : Vector3f) (h : b.ContainsPoint p = true) :
    tryAdd (fuel + 1) (mk b pt e true cs) es p = addToChildren fuel (mk b pt e true cs) es p := by
  rw [tryAdd_succ]
  simp [h]

/-- Enough fuel makes `tryAdd` return what `Added` describes. -/
theorem Added.run {es : List α} {p : Vector3f} {n n' : Node α} {path : List Nat}
    (h : Added es p n n' path) :
    ∃ f0, ∀ f, f0 ≤ f → tryAdd f n es p = some (n', some path) := by
  induction h with
  | store box h =>
    refine ⟨1, fun f hf => ?_⟩
    obtain ⟨g, rfl⟩ := Nat.exists_eq_add_of_le hf
    rw [Nat.add_comm, tryAdd_succ]
    simp [h]
  | append box es0 h =>
    refine ⟨1, fun f hf => ?_⟩
    obtain ⟨g, rfl⟩ := Nat.exists_eq_add_of_le hf
    rw [Nat.add_comm, tryAdd_succ]
    simp [h]
  | descend box l1 l2 c c' path h h1 hc _ ih =>
    obtain ⟨f0, hf0⟩ := ih
    refine ⟨f0 + 3, fun f hf => ?_⟩
    obtain ⟨g, rfl⟩ := Nat.exists_eq_add_of_le hf
    have e : f0 + 3 + g = (f0 + g + 1) + 1 + 1 := by omega
    rw [e, tryAdd_branch _ _ _ _ _ _ _ h, addToChildren_succ]
    simp only [children_mk]
    rw [addLoop_accept _ l1 l2 c c' path 0
      (fun d hd => tryAdd_outside _ d es p (h1 d hd)) (hf0 _ (by omega))]
    simp
  | split box q es0 l1 l2 bi n' path h hne hs h1 hi _ ih =>
    obtain ⟨f0, hf0⟩ := ih
    refine ⟨f0 + 4, fun f hf => ?_⟩
    obtain ⟨g, rfl⟩ := Nat.exists_eq_add_of_le hf
    have e : f0 + 4 + g = (f0 + g + 1) + 1 + 1 + 1 := by omega
    rw [e, tryAdd_succ]
    simp only [box_mk, h, Bool.not_true, Bool.false_eq_true, if_false, hasChildren_mk,
      point_mk, hne]
    rw [subdivide_succ]
    simp only [point_mk, box_mk, elements_mk, children_mk, List.nil_append]
    rw [addToChildren_succ]
    simp only [children_mk, hs, List.map_append, List.map_cons]
    rw [addLoop_accept _ (l1.map fun b => fresh b) (l2.map fun b => fresh b) (fresh bi)
      (mk bi (some q) es0 false []) [] 0 ?_ (tryAdd_fresh _ bi es0 q hi)]
    · simp only [box_mk, point_mk, elements_mk, hasChildren_mk, Option.map_some', children_mk]
      rw [← tryAdd_branch _ _ _ _ _ _ _ h]
      exact hf0 _ (by omega)
    · intro d hd
      obtain ⟨b, hb, rfl⟩ := List.mem_map.1 hd
      exact tryAdd_outside _ _ _ _ (h1 b hb)

/-- A leaf that stores a point receives a different point: the chain of
nested subdivisions ends, by induction on the number of halvings after which
the box is too small to contain both points. -/
theorem Added.exists_of_leaf (es : List α) (p : Vector3f) :
    ∀ (k : Nat) (b : Box) (q : Vector3f) (es0 : List α),
      b.girth < 2 ^ k * q.gap p → b.ContainsPoint q = true → b.ContainsPoint p = true →
      q ≠ p → ∃ n' path, Added es p (mk b (some q) es0 false []) n' path := by
  intro k
  induction k with
  | zero =>
    intro b q es0 hk hq hp _
    have := Box.gap_le_girth b q p hq hp
    simp only [pow_zero, one_mul] at hk
    exact absurd hk (not_lt.2 this)
  | succ k ih =>
    intro b q es0 hk hq hp hne
    obtain ⟨l1, bi, l2, hs, h1, hi⟩ :=
      List.exists_first_split (fun s : Box => s.ContainsPoint q) b.makeSubBoxes
        (Box.exists_subBox b q hq)
    have hmem : ∀ c ∈ (l1.map fun s => (fresh s : Node α)) ++
        mk bi (some q) es0 false [] :: l2.map fun s => fresh s,
        c.box ∈ b.makeSubBoxes ∧ (c = fresh c.box ∨ c = mk bi (some q) es0 false []) := by
      intro c hc
      rw [hs]
      simp only [List.mem_append, List.mem_map, List.mem_cons] at hc ⊢
      rcases hc with ⟨s, hs1, rfl⟩ | rfl | ⟨s, hs2, rfl⟩
      · exact ⟨Or.inl hs1, Or.inl rfl⟩
      · exact ⟨Or.inr (Or.inl rfl), Or.inr rfl⟩
      · exact ⟨Or.inr (Or.inr hs2), Or.inl rfl⟩
    have hex : ∃ c ∈ (l1.map fun s => (fresh s : Node α)) ++
        mk bi (some q) es0 false [] :: l2.map fun s => fresh s,
        (fun c : Node α => c.box.ContainsPoint p) c = true := by
      obtain ⟨s, hsm, hsp⟩ := Box.exists_subBox b p hp
      rw [hs] at hsm
      simp only [List.mem_append, List.mem_cons] at hsm
      rcases hsm with hsm | rfl | hsm
      · exact ⟨fresh s, List.mem_append_left _ (List.mem_map.2 ⟨s, hsm, rfl⟩), hsp⟩
      · exact ⟨mk s (some q) es0 false [], by simp, hsp⟩
      · exact ⟨fresh s, List.mem_append_right _
          (List.mem_cons_of_mem _ (List.mem_map.2 ⟨s, hsm, rfl⟩)), hsp⟩
    obtain ⟨m1, c, m2, hm, hm1, hcp⟩ := List.exists_first_split _ _ hex
    have hcmem := hmem c (by rw [hm]; simp)
    have hstep : ∃ c' path, Added es p c c' path := by
      rcases hcmem.2 with hfr | hlf
      · rw [hfr]
        exact ⟨_, _, Added.store c.box hcp⟩
      · rw [hlf] at hcp ⊢
        simp only [box_mk] at hcp
        refine ih bi q es0 ?_ hi hcp hne
        rw [Box.girth_subBox b bi (by rw [hs]; simp)]
        have hg := Vector3f.gap_pos q p hne
        rw [pow_succ] at hk
        linarith
    obtain ⟨c', path, hadd⟩ := hstep
    refine ⟨mk b none [] true (m1 ++ c' :: m2), m1.length :: path,
      Added.split b q es0 l1 l2 bi _ _ hp hne hs h1 hi ?_⟩
    rw [hm]
    exact Added.descend b m1 m2 c c' path hp hm1 hcp hadd

/-- On a well-formed node whose box contains the point, `tryAdd` has a
result described by `Added`. -/
theorem Added.exists_of_wf (es : List α) (p : Vector3f) (n : Node α) (hwf : WF n)
    (hp : n.box.ContainsPoint p = true) : ∃ n' path, Added es p n n' path := by
  induction hwf with
  | leaf box point elements hpt he =>
    simp only [box_mk] at hp
    cases point with
    | none =>
      rw [he rfl]
      exact ⟨_, _, Added.store box hp⟩
    | some q =>
      by_cases hq : q = p
      · subst hq
        exact ⟨_, _, Added.append box elements hp⟩
      · have hg := Vector3f.gap_pos q p hq
        obtain ⟨k, hk⟩ := pow_unbounded_of_one_lt (box.girth / q.gap p) (one_lt_two (α := ℚ))
        rw [div_lt_iff₀ hg] at hk
        exact Added.exists_of_leaf es p k box q elements hk (hpt q rfl) hp hq
  | branch box children hb hw hc ih =>
    simp only [box_mk] at hp
    have hex : ∃ c ∈ children, (fun c : Node α => c.box.ContainsPoint p) c = true := by
      obtain ⟨s, hsm, hsp⟩ := Box.exists_subBox box p hp
      rw [← hb] at hsm
      obtain ⟨c, hcm, rfl⟩ := List.mem_map.1 hsm
      exact ⟨c, hcm, hsp⟩
    obtain ⟨m1, c, m2, rfl, hm1, hcp⟩ := List.exists_first_split _ _ hex
    obtain ⟨c', path, hadd⟩ := ih c (by simp) hcp
    exact ⟨_, _, Added.descend box m1 m2 c c' path hp hm1 hcp hadd⟩

/-- What `tryAdd` returns on a well-formed node, whatever the fuel. -/
theorem tryAdd_spec (fuel : Nat) (n n' : Node α) (es : List α) (p : Vector3f)
    (r : Option (List Nat)) (hwf : WF n) (h : tryAdd fuel n es p = some (n', r)) :
    (n.box.ContainsPoint p = false ∧ n' = n ∧ r = none) ∨
      (n.box.ContainsPoint p = true ∧ ∃ path, r = some path ∧ Added es p n n' path) := by
  cases hp : n.box.ContainsPoint p with
  | false =>
    left
    cases fuel with
    | zero => simp [tryAdd] at h
    | succ fuel =>
      rw [tryAdd_outside _ _ _ _ hp] at h
      simp only [Option.some.injEq, Prod.mk.injEq] at h
      exact ⟨rfl, h.1.symm, h.2.symm⟩
  | true =>
    right
    obtain ⟨n2, path, hadd⟩ := Added.exists_of_wf es p n hwf hp
    obtain ⟨f0, hf0⟩ := hadd.run
    have h1 := tryAdd_mono fuel (max fuel f0) (le_max_left _ _) n es p _ h
    rw [hf0 _ (le_max_right _ _)] at h1
    simp only [Option.some.injEq, Prod.mk.injEq] at h1
    obtain ⟨rfl, rfl⟩ := h1
    exact ⟨rfl, path, rfl, hadd⟩

end Node

namespace Node

variable {α : Type}

/-! ## Leaves of well-formed nodes -/

theorem leaves_leaf (b : Box) (pt : Option Vector3f) (e : List α) (cs : List (Node α)) :
    (mk b pt e false cs).leaves = [mk b pt e false cs] := by
  rw [leaves_mk]; rfl

theorem leaves_branch (b : Box) (pt : Option Vector3f) (e : List α) (cs : List (Node α)) :
    (mk b pt e true cs).leaves = cs.flatMap leaves := by
  rw [leaves_mk, leavesLoop_eq]; rfl

theorem stores_leaf (b : Box) (pt : Option Vector3f) (e : List α) (cs : List (Node α))
    (q : Vector3f) : (mk b pt e false cs).Stores q ↔ pt = some q := by
  simp [Stores, leaves_leaf]

theorem stores_branch (b : Box) (pt : Option Vector3f) (e : List α) (cs : List (Node α))
    (q : Vector3f) : (mk b pt e true cs).Stores q ↔ ∃ c ∈ cs, c.Stores q := by
  simp only [Stores, leaves_branch, List.mem_flatMap]
  constructor
  · rintro ⟨l, ⟨c, hc, hl⟩, hq⟩
    exact ⟨c, hc, l, hl, hq⟩
  · rintro ⟨c, hc, l, hl, hq⟩
    exact ⟨l, ⟨c, hc, hl⟩, hq⟩

theorem WF.child_box {b : Box} {cs : List (Node α)} (hb : cs.map Node.box = b.makeSubBoxes)
    {c : Node α} (hc : c ∈ cs) : c.box ∈ b.makeSubBoxes := by
  rw [← hb]
  exact List.mem_map.2 ⟨c, hc, rfl⟩

/-- A point stored below a well-formed node lies in the box of that node. -/
theorem WF.stores_in_box {n : Node α} (hwf : WF n) (q : Vector3f) (hs : n.Stores q) :
    n.box.ContainsPoint q = true := by
  induction hwf with
  | leaf box point elements hp he =>
    rw [stores_leaf] at hs
    exact hp q hs
  | branch box children hb hw hc ih =>
    rw [stores_branch] at hs
    obtain ⟨c, hcm, hcs⟩ := hs
    exact Box.subBox_subset box c.box q (WF.child_box hb hcm) (ih c hcm hcs)

theorem WF.leaf_point {n : Node α} (hwf : WF n) {l : Node α} (hl : l ∈ n.leaves)
    {q : Vector3f} (hpt : l.point = some q) : n.box.ContainsPoint q = true :=
  hwf.stores_in_box q ⟨l, hl, hpt⟩

/-! ## Point queries on well-formed nodes -/

theorem elementsAtLoop_none (cs : List (Node α)) (q : Vector3f)
    (h : ∀ c ∈ cs, c.box.ContainsPoint q = false) : elementsAtLoop cs q = [] := by
  induction cs with
  | nil => simp
  | cons c cs ih =>
    rw [elementsAtLoop_cons, h c (List.mem_cons_self _ _)]
    simpa using ih fun d hd => h d (List.mem_cons_of_mem _ hd)

theorem elementsAtLoop_split (l1 l2 : List (Node α)) (c : Node α) (q : Vector3f)
    (h1 : ∀ d ∈ l1, d.box.ContainsPoint q = false) (hc : c.box.ContainsPoint q = true) :
    elementsAtLoop (l1 ++ c :: l2) q = elementsAt c q := by
  induction l1 with
  | nil => rw [List.nil_append, elementsAtLoop_cons, hc]; rfl
  | cons d l1 ih =>
    rw [List.cons_append, elementsAtLoop_cons, h1 d (List.mem_cons_self _ _)]
    simpa using ih fun e he => h1 e (List.mem_cons_of_mem _ he)

/-- The loop of `elementsAt` only looks at the boxes of the children before
the one that answers. -/
theorem elementsAtLoop_congr (cs cs' : List (Node α)) (q : Vector3f)
    (h : List.Forall₂ (fun c c' => c'.box = c.box ∧ elementsAt c' q = elementsAt c q) cs cs') :
    elementsAtLoop cs' q = elementsAtLoop cs q := by
  induction h with
  | nil => rfl
  | cons hc _ ih =>
    rw [elementsAtLoop_cons, elementsAtLoop_cons, hc.1, hc.2, ih]

/-- Outside the box of a well-formed node nothing is found. -/
theorem WF.elementsAt_outside {n : Node α} (hwf : WF n) (q : Vector3f)
    (h : n.box.ContainsPoint q = false) : n.elementsAt q = [] := by
  cases hwf with
  | leaf box point elements hp he =>
    rw [elementsAt_mk]
    cases point with
    | none => rfl
    | some q' =>
      have hne : q ≠ q' := by
        rintro rfl
        rw [box_mk, hp q rfl] at h
        cases h
      simp [hne]
  | branch box children hb hw hc =>
    rw [elementsAt_mk]
    simp only [if_true]
    apply elementsAtLoop_none
    intro c hcm
    cases hcq : c.box.ContainsPoint q with
    | false => rfl
    | true =>
      rw [box_mk, Box.subBox_subset box c.box q (WF.child_box hb hcm) hcq] at h
      cases h

/-- A point query on a well-formed node returns the value list of a leaf
that stores the point. -/
theorem WF.elementsAt_of_leaf {n : Node α} (hwf : WF n) {l : Node α} (hl : l ∈ n.leaves)
    {q : Vector3f} (hpt : l.point = some q) : n.elementsAt q = l.elements := by
  induction hwf with
  | leaf box point elements hp he =>
    rw [leaves_leaf, List.mem_singleton] at hl
    subst hl
    rw [point_mk] at hpt
    rw [elementsAt_mk, hpt]
    simp
  | branch box children hb hw hc ih =>
    rw [leaves_branch, List.mem_flatMap] at hl
    obtain ⟨c, hcm, hlc⟩ := hl
    obtain ⟨l1, l2, rfl⟩ := List.append_of_mem hcm
    rw [elementsAt_mk]
    simp only [if_true]
    rw [elementsAtLoop_split l1 l2 c q ?_ ((hw c hcm).stores_in_box q ⟨l, hlc, hpt⟩)]
    · exact ih c hcm hlc
    · intro d hd
      rw [List.pairwise_append] at hc
      exact hc.2.2 d hd c (List.mem_cons_self _ _) q ⟨l, hlc, hpt⟩

/-- A point query on a well-formed node that stores the point nowhere
returns nothing. -/
theorem WF.elementsAt_of_not_stores {n : Node α} (hwf : WF n) {q : Vector3f}
    (hq : ¬ n.Stores q) : n.elementsAt q = [] := by
  induction hwf with
  | leaf box point elements hp he =>
    rw [stores_leaf] at hq
    rw [elementsAt_mk]
    cases point with
    | none => rfl
    | some q' =>
      have hne : q ≠ q' := fun h => hq (by rw [h])
      simp [hne]
  | branch box children hb hw hc ih =>
    rw [stores_branch] at hq
    rw [elementsAt_mk]
    simp only [if_true]
    by_cases hex : ∃ c ∈ children, (fun c : Node α => c.box.ContainsPoint q) c = true
    · obtain ⟨l1, c, l2, rfl, h1, hcq⟩ := List.exists_first_split _ _ hex
      rw [elementsAtLoop_split l1 l2 c q h1 hcq]
      exact ih c (by simp) fun hs => hq ⟨c, by simp, hs⟩
    · apply elementsAtLoop_none
      intro c hcm
      cases hcq : c.box.ContainsPoint q with
      | false => rfl
      | true => exact absurd ⟨c, hcm, hcq⟩ hex

/-- Below a well-formed node at most one leaf stores a given point. -/
theorem WF.stores_unique {n : Node α} (hwf : WF n) (q : Vector3f) :
    (n.leaves.filter fun l => decide (l.point = some q)).length ≤ 1 := by
  induction hwf with
  | leaf box point elements hp he =>
    rw [leaves_leaf]
    exact le_trans (List.length_filter_le _ _) (by simp)
  | branch box children hb hw hc ih =>
    rw [leaves_branch]
    clear hb
    induction children with
    | nil => simp
    | cons c cs ihc =>
      rw [List.flatMap_cons, List.filter_append, List.length_append]
      rw [List.pairwise_cons] at hc
      have h1 := ih c (List.mem_cons_self _ _)
      have h2 := ihc (fun d hd => hw d (List.mem_cons_of_mem _ hd)) hc.2
        (fun d hd => ih d (List.mem_cons_of_mem _ hd))
      by_cases hcs : c.Stores q
      · have hz : (List.filter (fun l => decide (l.point = some q)) (cs.flatMap leaves)) = [] := by
          rw [List.filter_eq_nil_iff]
          intro l hl
          rw [List.mem_flatMap] at hl
          obtain ⟨d, hd, hld⟩ := hl
          simp only [decide_eq_true_eq]
          intro hpt
          have := hc.1 d hd q ⟨l, hld, hpt⟩
          rw [(hw c (List.mem_cons_self _ _)).stores_in_box q hcs] at this
          cases this
        rw [hz]
        simpa using h1
      · have hz : (List.filter (fun l => decide (l.point = some q)) c.leaves) = [] := by
          rw [List.filter_eq_nil_iff]
          intro l hl
          simp only [decide_eq_true_eq]
          exact fun hpt => hcs ⟨l, hl, hpt⟩
        rw [hz]
        simpa using h2

end Node

theorem Box.contains_point_of_contains (o c : Box) (q : Vector3f) (h : o.Contains c = true)
    (hq : c.ContainsPoint q = true) : o.ContainsPoint q = true := by
  rw [Box.containsPoint_iff] at hq ⊢
  simp only [Box.Contains, Bool.and_eq_true, decide_eq_true_eq, ge_iff_le] at h
  obtain ⟨⟨⟨⟨⟨h1, h2⟩, h3⟩, h4⟩, h5⟩, h6⟩ := h
  obtain ⟨⟨a1, a2⟩, ⟨a3, a4⟩, a5, a6⟩ := hq
  exact ⟨⟨by linarith, by linarith⟩, ⟨by linarith, by linarith⟩, by linarith, by linarith⟩

theorem Box.intersects_of_common_point (c box : Box) (q : Vector3f)
    (hc : c.ContainsPoint q = true) (hb : box.ContainsPoint q = true) :
    c.Intersects box = true := by
  rw [Box.containsPoint_iff] at hc hb
  obtain ⟨⟨a1, a2⟩, ⟨a3, a4⟩, a5, a6⟩ := hc
  obtain ⟨⟨b1, b2⟩, ⟨b3, b4⟩, b5, b6⟩ := hb
  simp only [Box.Intersects, Bool.not_eq_true', Bool.or_eq_false_iff, decide_eq_false_iff_not,
    not_lt]
  exact ⟨⟨⟨⟨⟨by linarith, by linarith⟩, by linarith⟩, by linarith⟩, by linarith⟩, by linarith⟩

namespace Node

variable {α : Type}

/-! ## Range queries on well-formed nodes -/

/-- A range query on a well-formed node returns the values of the leaves
whose stored point lies in the query box, in depth-first order. -/
theorem WF.elementsIn_eq {n : Node α} (hwf : WF n) :
    ∀ box : Box, n.elementsIn box = (n.leaves.filter (pointIn box)).flatMap Node.elements := by
  induction hwf with
  | leaf box point elements hp he =>
    intro qb
    rw [elementsIn_mk, leaves_leaf]
    cases point with
    | none => simp [pointIn]
    | some q =>
      cases hq : qb.ContainsPoint q <;> simp [pointIn, hq, List.filter_cons]
  | branch box children hb hw hc ih =>
    intro qb
    rw [elementsIn_mk, leaves_branch]
    simp only [if_true]
    clear hb hc
    induction children with
    | nil => simp
    | cons c cs ihc =>
      rw [elementsInLoop_cons, List.flatMap_cons, List.filter_append, List.flatMap_append,
        ihc (fun d hd => hw d (List.mem_cons_of_mem _ hd))
          (fun d hd => ih d (List.mem_cons_of_mem _ hd))]
      congr 1
      have hwc := hw c (List.mem_cons_self _ _)
      have ihc1 := ih c (List.mem_cons_self _ _)
      by_cases h1 : c.box.IsContainedIn qb = true
      · rw [if_pos h1, ihc1]
        congr 1
        apply List.filter_congr
        intro l hl
        cases hpt : l.point with
        | none => simp [pointIn, hpt]
        | some q =>
          have hin := hwc.leaf_point hl hpt
          simp only [pointIn, hpt, hin]
          exact (Box.contains_point_of_contains qb c.box q h1 hin).symm
      · rw [if_neg h1]
        by_cases h2 : (c.box.Contains qb || c.box.Intersects qb) = true
        · rw [if_pos h2, ihc1]
        · rw [if_neg h2]
          symm
          rw [List.flatMap_eq_nil_iff]
          intro l hl
          rw [List.mem_filter] at hl
          obtain ⟨hl, hpl⟩ := hl
          exfalso
          apply h2
          cases hpt : l.point with
          | none => simp [pointIn, hpt] at hpl
          | some q =>
            simp only [pointIn, hpt] at hpl
            rw [Box.intersects_of_common_point c.box qb q (hwc.leaf_point hl hpt) hpl]
            simp

theorem Added.box_eq {es : List α} {p : Vector3f} {n n' : Node α} {path : List Nat}
    (h : Added es p n n' path) : n'.box = n.box := by
  induction h with
  | store box h => rfl
  | append box es0 h => rfl
  | descend box l1 l2 c c' path h h1 hc _ ih => rfl
  | split box q es0 l1 l2 bi n' path h hne hs h1 hi _ ih => simpa using ih

theorem Added.stores {es : List α} {p : Vector3f} {n n' : Node α} {path : List Nat}
    (h : Added es p n n' path) (q : Vector3f) : n'.Stores q ↔ n.Stores q ∨ q = p := by
  induction h with
  | store box h =>
    simp only [stores_leaf, Option.some.injEq, reduceCtorEq, false_or]
    exact eq_comm
  | append box es0 h =>
    simp only [stores_leaf, Option.some.injEq]
    constructor
    · intro h; exact Or.inl h
    · rintro (h | h)
      · exact h
      · exact h.symm
  | descend box l1 l2 c c' path h h1 hc _ ih =>
    simp only [stores_branch, List.mem_append, List.mem_cons]
    constructor
    · rintro ⟨d, hd | rfl | hd, hs⟩
      · exact Or.inl ⟨d, Or.inl hd, hs⟩
      · rcases ih.1 hs with hs | hs
        · exact Or.inl ⟨c, Or.inr (Or.inl rfl), hs⟩
        · exact Or.inr hs
      · exact Or.inl ⟨d, Or.inr (Or.inr hd), hs⟩
    · rintro (⟨d, hd | rfl | hd, hs⟩ | hq)
      · exact ⟨d, Or.inl hd, hs⟩
      · exact ⟨c', Or.inr (Or.inl rfl), ih.2 (Or.inl hs)⟩
      · exact ⟨d, Or.inr (Or.inr hd), hs⟩
      · exact ⟨c', Or.inr (Or.inl rfl), ih.2 (Or.inr hq)⟩
  | split box q0 es0 l1 l2 bi n' path h hne hs h1 hi _ ih =>
    rw [ih, stores_leaf, stores_branch]
    have : (∃ c ∈ (l1.map fun b => (fresh b : Node α)) ++
        mk bi (some q0) es0 false [] :: l2.map fun b => fresh b, c.Stores q) ↔ some q0 = some q := by
      constructor
      · rintro ⟨c, hc, hcs⟩
        simp only [List.mem_append, List.mem_map, List.mem_cons] at hc
        rcases hc with ⟨b, _, rfl⟩ | rfl | ⟨b, _, rfl⟩
        · simp [fresh, stores_leaf] at hcs
        · simpa [stores_leaf] using hcs
        · simp [fresh, stores_leaf] at hcs
      · intro hq
        exact ⟨mk bi (some q0) es0 false [], by simp, by rw [stores_leaf]; exact hq⟩
    rw [this]

/-- Insertion keeps a node well-formed. -/
theorem Added.wf {es : List α} {p : Vector3f} {n n' : Node α} {path : List Nat}
    (h : Added es p n n' path) (hwf : WF n) : WF n' := by
  induction h with
  | store box h =>
    exact WF.leaf box (some p) es (fun q hq => by cases hq; exact h) (fun hn => by cases hn)
  | append box es0 h =>
    exact WF.leaf box (some p) (es0 ++ es) (fun q hq => by cases hq; exact h)
      (fun hn => by cases hn)
  | descend box l1 l2 c c' path h h1 hc hadd ih =>
    cases hwf with
    | branch _ _ hb hw hpw =>
      refine WF.branch box _ ?_ ?_ ?_
      · rw [← hb]
        simp [hadd.box_eq]
      · intro d hd
        simp only [List.mem_append, List.mem_cons] at hd
        rcases hd with hd | rfl | hd
        · exact hw d (by simp [hd])
        · exact ih (hw c (by simp))
        · exact hw d (by simp [hd])
      · rw [List.pairwise_append, List.pairwise_cons] at hpw ⊢
        obtain ⟨hp1, ⟨hp2, hp3⟩, hp4⟩ := hpw
        refine ⟨hp1, ⟨?_, hp3⟩, ?_⟩
        · intro d hd q hq
          rw [hadd.box_eq]
          exact hp2 d hd q hq
        · intro d hd e he q hq
          rcases List.mem_cons.1 he with rfl | he
          · rcases (hadd.stores q).1 hq with hq | rfl
            · exact hp4 d hd c (List.mem_cons_self _ _) q hq
            · exact h1 d hd
          · exact hp4 d hd e (List.mem_cons_of_mem _ he) q hq
  | split box q0 es0 l1 l2 bi n' path h hne hs h1 hi hadd ih =>
    apply ih
    refine WF.branch box _ ?_ ?_ ?_
    · rw [hs]
      simp [fresh, Function.comp_def]
    · intro d hd
      simp only [List.mem_append, List.mem_map, List.mem_cons] at hd
      rcases hd with ⟨b, _, rfl⟩ | rfl | ⟨b, _, rfl⟩
      · exact WF.leaf b none [] (fun q hq => by cases hq) (fun _ => rfl)
      · exact WF.leaf bi (some q0) es0 (fun q hq => by cases hq; exact hi) (fun hn => by cases hn)
      · exact WF.leaf b none [] (fun q hq => by cases hq) (fun _ => rfl)
    · rw [List.pairwise_append, List.pairwise_cons]
      refine ⟨?_, ⟨?_, ?_⟩, ?_⟩
      · rw [List.pairwise_map]
        exact List.pairwise_of_forall fun x y q hq => by simp [fresh, stores_leaf] at hq
      · intro d hd q hq
        obtain ⟨b, _, rfl⟩ := List.mem_map.1 hd
        simp [fresh, stores_leaf] at hq
      · rw [List.pairwise_map]
        exact List.pairwise_of_forall fun x y q hq => by simp [fresh, stores_leaf] at hq
      · intro d hd e he q hq
        obtain ⟨b, hb, rfl⟩ := List.mem_map.1 hd
        rcases List.mem_cons.1 he with rfl | he
        · rw [stores_leaf] at hq
          cases hq
          exact h1 b hb
        · obtain ⟨b2, _, rfl⟩ := List.mem_map.1 he
          simp [fresh, stores_leaf] at hq

/-- Insertion at `p` appends the new values to what a point query at `p`
returns and changes the answer at no other point. -/
theorem Added.elementsAt {es : List α} {p : Vector3f} {n n' : Node α} {path : List Nat}
    (h : Added es p n n' path) (q : Vector3f) :
    n'.elementsAt q = if q = p then n.elementsAt p ++ es else n.elementsAt q := by
  induction h with
  | store box h =>
    simp only [elementsAt_mk, Bool.false_eq_true, if_false, List.nil_append]
  | append box es0 h =>
    simp only [elementsAt_mk, Bool.false_eq_true, if_false, if_true]
    split_ifs <;> rfl
  | descend box l1 l2 c c' path h h1 hc hadd ih =>
    simp only [elementsAt_mk, if_true]
    by_cases hq : q = p
    · subst hq
      rw [if_pos rfl, elementsAtLoop_split l1 l2 c' q (by simpa using h1)
        (by rw [hadd.box_eq]; exact hc), elementsAtLoop_split l1 l2 c q h1 hc, ih, if_pos rfl]
    · rw [if_neg hq]
      apply elementsAtLoop_congr
      apply List.rel_append (List.forall₂_same.2 fun _ _ => ⟨rfl, rfl⟩)
      refine List.Forall₂.cons ⟨hadd.box_eq, ?_⟩ (List.forall₂_same.2 fun _ _ => ⟨rfl, rfl⟩)
      rw [ih, if_neg hq]
  | split box q0 es0 l1 l2 bi n' path h hne hs h1 hi hadd ih =>
    rw [ih]
    have hq0 : (mk box none [] true ((l1.map fun b => (fresh b : Node α)) ++
        mk bi (some q0) es0 false [] :: l2.map fun b => fresh b)).elementsAt q0 = es0 := by
      rw [elementsAt_mk]
      simp only [if_true]
      rw [elementsAtLoop_split (l1.map fun b => fresh b) (l2.map fun b => fresh b)
        (mk bi (some q0) es0 false []) q0 ?_ hi]
      · simp [elementsAt_mk]
      · intro d hd
        obtain ⟨b, hb, rfl⟩ := List.mem_map.1 hd
        exact h1 b hb
    have hother : ∀ q', q' ≠ q0 → (mk box none [] true ((l1.map fun b => (fresh b : Node α)) ++
        mk bi (some q0) es0 false [] :: l2.map fun b => fresh b)).elementsAt q' = [] := by
      intro q' hq'
      rw [elementsAt_mk]
      simp only [if_true]
      have hall : ∀ cs : List (Node α),
          (∀ c ∈ cs, c.elementsAt q' = []) → elementsAtLoop cs q' = [] := by
        intro cs
        induction cs with
        | nil => intro _; simp
        | cons c cs ihc =>
          intro hcs
          rw [elementsAtLoop_cons]
          split_ifs
          · exact hcs c (List.mem_cons_self _ _)
          · exact ihc fun d hd => hcs d (List.mem_cons_of_mem _ hd)
      apply hall
      intro c hcm
      simp only [List.mem_append, List.mem_map, List.mem_cons] at hcm
      rcases hcm with ⟨b, _, rfl⟩ | rfl | ⟨b, _, rfl⟩
      · simp [fresh, elementsAt_mk]
      · simp [elementsAt_mk, hq']
      · simp [fresh, elementsAt_mk]
    by_cases hq : q = p
    · subst hq
      rw [if_pos rfl, if_pos rfl, hother q (Ne.symm hne), elementsAt_mk]
      simp [Ne.symm hne]
    · rw [if_neg hq, if_neg hq]
      by_cases hq2 : q = q0
      · subst hq2
        rw [hq0, elementsAt_mk]
        simp
      · rw [hother q hq2, elementsAt_mk]
        simp [hq2]

end Node

namespace Node

variable {α : Type}

/-! ## The returned leaf and the stored values after an insertion -/

@[simp] theorem nodeAt_nil (n : Node α) : n.nodeAt [] = some n := by
  rw [nodeAt]

theorem nodeAt_cons (n : Node α) (i : Nat) (path : List Nat) :
    n.nodeAt (i :: path) =
      match n.children[i]? with
      | some child => child.nodeAt path
      | none => none := by
  rw [nodeAt]

theorem nodeAt_split (b : Box) (pt : Option Vector3f) (e : List α) (h : Bool)
    (l1 l2 : List (Node α)) (c : Node α) (path : List Nat) :
    (mk b pt e h (l1 ++ c :: l2)).nodeAt (l1.length :: path) = c.nodeAt path := by
  rw [nodeAt_cons]
  simp only [children_mk]
  rw [List.getElem?_append_right (le_refl _)]
  simp

/-- The address returned by an insertion denotes a leaf that stores the
point and holds what a point query there returns. -/
theorem Added.leaf {es : List α} {p : Vector3f} {n n' : Node α} {path : List Nat}
    (h : Added es p n n' path) :
    ∃ l, n'.nodeAt path = some l ∧ l ∈ n'.leaves ∧ l.hasChildren = false ∧ l.children = [] ∧
      l.point = some p ∧ l.elements = n'.elementsAt p := by
  induction h with
  | store box h =>
    exact ⟨_, nodeAt_nil _, by simp [leaves_leaf], rfl, rfl, rfl, by simp [elementsAt_mk]⟩
  | append box es0 h =>
    exact ⟨_, nodeAt_nil _, by simp [leaves_leaf], rfl, rfl, rfl, by simp [elementsAt_mk]⟩
  | descend box l1 l2 c c' path h h1 hc hadd ih =>
    obtain ⟨l, hl, hmem, hh, hcs, hpt, hel⟩ := ih
    refine ⟨l, ?_, ?_, hh, hcs, hpt, ?_⟩
    · rw [nodeAt_split]; exact hl
    · rw [leaves_branch, List.mem_flatMap]
      exact ⟨c', by simp, hmem⟩
    · rw [elementsAt_mk]
      simp only [if_true]
      rw [elementsAtLoop_split l1 l2 c' p h1 (by rw [hadd.box_eq]; exact hc)]
      exact hel
  | split box q0 es0 l1 l2 bi n' path h hne hs h1 hi hadd ih => exact ih

theorem allElements_leaf (b : Box) (pt : Option Vector3f) (e : List α) (cs : List (Node α)) :
    (mk b pt e false cs).allElements = e := by
  simp [allElements, leaves_leaf]

theorem allElements_branch (b : Box) (pt : Option Vector3f) (e : List α) (cs : List (Node α)) :
    (mk b pt e true cs).allElements = cs.flatMap allElements := by
  simp only [allElements, leaves_branch, List.flatMap_assoc]
  rfl

/-- Insertion adds the new values to the stored values and keeps the rest. -/
theorem Added.allElements {es : List α} {p : Vector3f} {n n' : Node α} {path : List Nat}
    (h : Added es p n n' path) : n'.allElements.Perm (n.allElements ++ es) := by
  induction h with
  | store box h => simp [allElements_leaf]
  | append box es0 h => simp [allElements_leaf]
  | descend box l1 l2 c c' path h h1 hc hadd ih =>
    simp only [allElements_branch, List.flatMap_append, List.flatMap_cons, List.append_assoc]
    refine List.Perm.append_left _ ?_
    refine (List.Perm.append_right _ ih).trans ?_
    simp only [List.append_assoc]
    exact List.Perm.append_left _ List.perm_append_comm
  | split box q0 es0 l1 l2 bi n' path h hne hs h1 hi hadd ih =>
    refine ih.trans ?_
    rw [allElements_leaf, allElements_branch]
    have hz : ∀ l : List Box, (l.map fun b => (fresh b : Node α)).flatMap Node.allElements = [] := by
      intro l
      rw [List.flatMap_eq_nil_iff]
      intro c hcm
      obtain ⟨b, _, rfl⟩ := List.mem_map.1 hcm
      exact allElements_leaf _ _ _ _
    simp [hz, allElements_leaf]

/-! ## Removal -/

theorem firstIndex_spec [DecidableEq α] (v : α) (e : List α) :
    match firstIndex v e with
    | none => v ∉ e
    | some idx => v ∈ e ∧ e.take idx ++ e.drop (idx + 1) = e.erase v := by
  induction e with
  | nil => simp [firstIndex]
  | cons a e ih =>
    rw [firstIndex]
    by_cases ha : a = v
    · subst ha
      simp
    · rw [if_neg ha]
      cases hf : firstIndex v e with
      | none =>
        rw [hf] at ih
        simp only [Option.map_none', List.mem_cons, not_or]
        exact ⟨fun h => ha h.symm, ih⟩
      | some idx =>
        rw [hf] at ih
        simp only [Option.map_some', List.mem_cons, List.take_succ_cons, List.drop_succ_cons,
          List.cons_append]
        refine ⟨Or.inr ih.1, ?_⟩
        rw [ih.2, List.erase_cons_tail]
        simpa using ha

/-- Removal reports whether the value is stored and deletes its first
occurrence in the depth-first listing of the stored values. -/
theorem remove_allElements [DecidableEq α] (v : α) :
    ∀ n : Node α, (n.remove v).2 = decide (v ∈ n.allElements) ∧
      (n.remove v).1.allElements = n.allElements.erase v := by
  apply Node.induct
  intro b pt e h cs ih
  rw [remove_mk]
  cases h with
  | false =>
    simp only [Bool.false_eq_true, if_false, allElements_leaf]
    have hf := firstIndex_spec v e
    cases hi : firstIndex v e with
    | none =>
      rw [hi] at hf
      simp only at hf
      simp [allElements_leaf, hf, List.erase_of_not_mem hf]
    | some idx =>
      rw [hi] at hf
      simp only at hf
      simp [allElements_leaf, hf.1, hf.2]
  | true =>
    simp only [if_true, allElements_branch]
    clear b pt e
    induction cs with
    | nil => simp
    | cons c cs ihc =>
      have h1 := ih c (List.mem_cons_self _ _)
      have h2 := ihc fun d hd => ih d (List.mem_cons_of_mem _ hd)
      rw [removeLoop_cons, List.flatMap_cons, List.erase_append]
      by_cases hv : v ∈ c.allElements
      · rw [h1.1, decide_eq_true hv]
        simp [hv, h1.2]
      · rw [h1.1, decide_eq_false hv]
        simp only [Bool.false_eq_true, if_false, List.flatMap_cons, h1.2, h2.2, hv,
          List.mem_append, false_or, h2.1]
        rw [List.erase_of_not_mem hv]
        simp

/-- A removal that reports failure leaves the node as it was. -/
theorem remove_false [DecidableEq α] (v : α) :
    ∀ n : Node α, (n.remove v).2 = false → (n.remove v).1 = n := by
  apply Node.induct
  intro b pt e h cs ih
  rw [remove_mk]
  cases h with
  | false =>
    simp only [Bool.false_eq_true, if_false]
    cases hi : firstIndex v e with
    | none => simp
    | some idx => simp
  | true =>
    simp only [if_true]
    intro hf
    congr 1
    clear b pt e
    induction cs with
    | nil => simp
    | cons c cs ihc =>
      rw [removeLoop_cons] at hf ⊢
      cases hc : (remove c v).2 with
      | true => simp [hc] at hf
      | false =>
        rw [hc] at hf
        simp only [Bool.false_eq_true, if_false] at hf ⊢
        rw [ih c (List.mem_cons_self _ _) hc,
          ihc (fun d hd => ih d (List.mem_cons_of_mem _ hd)) hf]

end Node

namespace Node

variable {α : Type}

/-! ## Removal keeps the frame of the tree -/

theorem SameFrame.refl (n : Node α) : SameFrame n n :=
  ⟨rfl, fun _ => Iff.rfl, fun h => h⟩

theorem removeLoop_forall₂ [DecidableEq α] (v : α) (P : Node α → Node α → Prop)
    (cs : List (Node α)) (h1 : ∀ c ∈ cs, P c c) (h2 : ∀ c ∈ cs, P c (c.remove v).1) :
    List.Forall₂ P cs (removeLoop cs v).1 := by
  induction cs with
  | nil => simp
  | cons c cs ih =>
    rw [removeLoop_cons]
    split_ifs
    · exact List.Forall₂.cons (h2 c (List.mem_cons_self _ _))
        (List.forall₂_same.2 fun d hd => h1 d (List.mem_cons_of_mem _ hd))
    · exact List.Forall₂.cons (h2 c (List.mem_cons_self _ _))
        (ih (fun d hd => h1 d (List.mem_cons_of_mem _ hd))
          (fun d hd => h2 d (List.mem_cons_of_mem _ hd)))

theorem forall₂_set (P : Node α → Node α → Prop) (cs : List (Node α)) (i : Nat)
    (c c' : Node α) (hi : cs[i]? = some c) (h1 : ∀ d ∈ cs, P d d) (h2 : P c c') :
    List.Forall₂ P cs (cs.set i c') := by
  induction cs generalizing i with
  | nil => simp
  | cons d cs ih =>
    cases i with
    | zero =>
      simp only [List.getElem?_cons_zero, Option.some.injEq] at hi
      subst hi
      exact List.Forall₂.cons h2
        (List.forall₂_same.2 fun e he => h1 e (List.mem_cons_of_mem _ he))
    | succ i =>
      simp only [List.getElem?_cons_succ] at hi
      exact List.Forall₂.cons (h1 d (List.mem_cons_self _ _))
        (ih i hi fun e he => h1 e (List.mem_cons_of_mem _ he))

theorem SameFrame.stores_children {cs cs' : List (Node α)}
    (h : List.Forall₂ SameFrame cs cs') (q : Vector3f) :
    (∃ c ∈ cs', c.Stores q) ↔ ∃ c ∈ cs, c.Stores q := by
  induction h with
  | nil => simp
  | cons hc _ ih =>
    simp only [List.mem_cons, exists_eq_or_imp, ih, hc.2.1 q]

/-- Replacing the children of a branch by children with the same frame
keeps the frame of the branch. -/
theorem SameFrame.branch (b : Box) (pt : Option Vector3f) (e : List α) (h : Bool)
    {cs cs' : List (Node α)} (hf : List.Forall₂ SameFrame cs cs') :
    SameFrame (mk b pt e h cs) (mk b pt e h cs') := by
  refine ⟨rfl, ?_, ?_⟩
  · intro q
    cases h with
    | false => simp [stores_leaf]
    | true =>
      rw [stores_branch, stores_branch]
      exact SameFrame.stores_children hf q
  · intro hwf
    cases hwf with
    | leaf _ _ _ hp he =>
      cases hf
      exact WF.leaf b pt e hp he
    | branch _ _ hb hw hpw =>
      refine WF.branch b cs' ?_ ?_ ?_
      · rw [← hb]
        clear hb hw hpw
        induction hf with
        | nil => rfl
        | cons hc _ ih => simp [hc.1, ih]
      · clear hb hpw
        induction hf with
        | nil => intro c hc; cases hc
        | cons hc _ ih =>
          intro c hcm
          rcases List.mem_cons.1 hcm with rfl | hcm
          · exact hc.2.2 (hw _ (List.mem_cons_self _ _))
          · exact ih (fun d hd => hw d (List.mem_cons_of_mem _ hd)) c hcm
      · clear hb hw
        induction hf with
        | nil => exact List.Pairwise.nil
        | @cons c c' l l' hc hl ih =>
          rw [List.pairwise_cons] at hpw ⊢
          refine ⟨?_, ih hpw.2⟩
          intro d' hd' q hq
          obtain ⟨d, hd, hdq⟩ := (SameFrame.stores_children hl q).1 ⟨d', hd', hq⟩
          rw [hc.1]
          exact hpw.1 d hd q hdq

/-- The value removal keeps the frame. -/
theorem remove_sameFrame [DecidableEq α] (v : α) : ∀ n : Node α, SameFrame n (n.remove v).1 := by
  apply Node.induct
  intro b pt e h cs ih
  rw [remove_mk]
  cases h with
  | true =>
    simp only [if_true]
    exact SameFrame.branch b pt e true
      (removeLoop_forall₂ v SameFrame cs (fun c _ => SameFrame.refl c) ih)
  | false =>
    simp only [Bool.false_eq_true, if_false]
    cases hi : firstIndex v e with
    | none => exact SameFrame.refl _
    | some idx =>
      refine ⟨rfl, fun q => by simp [stores_leaf], ?_⟩
      intro hwf
      cases hwf with
      | leaf _ _ _ hp he =>
        refine WF.leaf b pt _ hp ?_
        intro hn
        rw [he hn]
        simp

/-- The value removal at an address keeps the frame. -/
theorem removeAt_sameFrame [DecidableEq α] (v : α) (path : List Nat) :
    ∀ (n n' : Node α) (r : Bool), n.removeAt path v = some (n', r) → SameFrame n n' := by
  induction path with
  | nil =>
    intro n n' r h
    rw [removeAt] at h
    simp only [Option.some.injEq] at h
    have := remove_sameFrame v n
    rwa [h] at this
  | cons i path ih =>
    intro n n' r h
    rw [removeAt] at h
    cases hc : n.children[i]? with
    | none => simp [hc] at h
    | some c =>
      rw [hc] at h
      simp only at h
      cases hr : c.removeAt path v with
      | none => simp [hr] at h
      | some x =>
        obtain ⟨c', b⟩ := x
        rw [hr] at h
        simp only [Option.some.injEq, Prod.mk.injEq] at h
        obtain ⟨rfl, rfl⟩ := h
        have := SameFrame.branch n.box n.point n.elements n.hasChildren
          (forall₂_set SameFrame n.children i c c' hc (fun d _ => SameFrame.refl d)
            (ih c c' b hr))
        rwa [mk_eta] at this

theorem WF.fresh (b : Box) : (Node.fresh b : Node α).WF :=
  WF.leaf b none [] (fun q hq => by cases hq) (fun _ => rfl)

end Node

/-! ## Reachable trees are well-formed -/

namespace Octree

variable {α : Type}

theorem Reachable.root_wf [DecidableEq α] {o : Octree α} (h : Reachable o) :
    ∃ r, o.root = some r ∧ r.WF := by
  induction h with
  | create min max => exact ⟨_, rfl, Node.WF.fresh _⟩
  | add o o' fuel element point r _ hadd ih =>
    obtain ⟨n, hn, hwf⟩ := ih
    rw [Add, hn] at hadd
    simp only at hadd
    cases ht : n.tryAdd fuel [element] point with
    | none => simp [ht] at hadd
    | some x =>
      obtain ⟨n', leaf⟩ := x
      rw [ht] at hadd
      simp only [Option.some.injEq, Prod.mk.injEq] at hadd
      obtain ⟨rfl, _⟩ := hadd
      refine ⟨n', rfl, ?_⟩
      rcases Node.tryAdd_spec fuel n n' [element] point leaf hwf ht with
        ⟨_, rfl, _⟩ | ⟨_, path, _, hadded⟩
      · exact hwf
      · exact hadded.wf hwf
  | remove o o' element b _ hrem ih =>
    obtain ⟨n, hn, hwf⟩ := ih
    rw [Remove, hn] at hrem
    simp only [Option.map_some', Option.some.injEq, Prod.mk.injEq] at hrem
    obtain ⟨rfl, _⟩ := hrem
    exact ⟨_, rfl, (Node.remove_sameFrame element n).2.2 hwf⟩
  | removeUsing o o' element node b _ hrem ih =>
    obtain ⟨n, hn, hwf⟩ := ih
    cases node with
    | none =>
      simp only [RemoveUsing, Option.some.injEq, Prod.mk.injEq] at hrem
      obtain ⟨rfl, _⟩ := hrem
      exact ⟨n, hn, hwf⟩
    | some ref =>
      simp only [RemoveUsing] at hrem
      split_ifs at hrem with hlive
      · rw [hn] at hrem
        simp only at hrem
        cases hr : n.removeAt ref.path element with
        | none => simp [hr] at hrem
        | some x =>
          obtain ⟨n', b'⟩ := x
          rw [hr] at hrem
          simp only [Option.some.injEq, Prod.mk.injEq] at hrem
          obtain ⟨rfl, _⟩ := hrem
          exact ⟨n', rfl, (Node.removeAt_sameFrame element ref.path n n' b' hr).2.2 hwf⟩
      · cases hd : o.dropped[ref.root]? with
        | none => simp [hd] at hrem
        | some t =>
          rw [hd] at hrem
          simp only at hrem
          cases hr : t.removeAt ref.path element with
          | none => simp [hr] at hrem
          | some x =>
            obtain ⟨t', b'⟩ := x
            rw [hr] at hrem
            simp only [Option.some.injEq, Prod.mk.injEq] at hrem
            obtain ⟨rfl, _⟩ := hrem
            exact ⟨n, hn, hwf⟩
  | clear o _ ih =>
    obtain ⟨n, hn, hwf⟩ := ih
    rw [Clear, hn]
    exact ⟨_, rfl, Node.WF.fresh _⟩

end Octree

/-! ## The operations of the tree -/

namespace Octree

variable {α : Type}

theorem rootContains_eq {o : Octree α} {r : Node α} (hr : o.root = some r) (p : Vector3f) :
    o.rootContains p = r.box.ContainsPoint p := by
  rw [rootContains, hr]

theorem elementsAt_root {o : Octree α} {r : Node α} (hr : o.root = some r) (p : Vector3f) :
    o.ElementsAt p = some (r.elementsAt p) := by
  rw [ElementsAt, hr]; rfl

theorem elementsIn_root {o : Octree α} {r : Node α} (hr : o.root = some r) (b : Box) :
    o.ElementsIn b = some (r.elementsIn b) := by
  rw [ElementsIn, hr]; rfl

/-- Every result of `Add` outside the root box: nothing changes. -/
theorem addReturns_outside {o o' : Octree α} {r : Node α} {v : α} {p : Vector3f}
    {node : Option NodeRef} (hr : o.root = some r) (hp : r.box.ContainsPoint p = false)
    (h : o.AddReturns v p o' node) : o' = o ∧ node = none := by
  obtain ⟨fuel, h⟩ := h
  rw [Add, hr] at h
  simp only at h
  cases fuel with
  | zero => simp [Node.tryAdd] at h
  | succ fuel =>
    rw [Node.tryAdd_outside _ _ _ _ hp] at h
    simp only [Option.map_none', Option.some.injEq, Prod.mk.injEq] at h
    obtain ⟨rfl, rfl⟩ := h
    refine ⟨?_, rfl⟩
    cases o
    simp only at hr
    rw [hr]

/-- Every result of `Add` inside the root box of a well-formed tree is the
one described by `Added`. -/
theorem addReturns_inside {o o' : Octree α} {r : Node α} {v : α} {p : Vector3f}
    {node : Option NodeRef} (hr : o.root = some r) (hwf : r.WF)
    (hp : r.box.ContainsPoint p = true) (h : o.AddReturns v p o' node) :
    ∃ r' path, o' = ⟨some r', o.dropped⟩ ∧ node = some ⟨o.dropped.length, path⟩ ∧
      Node.Added [v] p r r' path := by
  obtain ⟨fuel, h⟩ := h
  rw [Add, hr] at h
  simp only at h
  cases ht : r.tryAdd fuel [v] p with
  | none => simp [ht] at h
  | some x =>
    obtain ⟨r', leaf⟩ := x
    rw [ht] at h
    simp only [Option.some.injEq, Prod.mk.injEq] at h
    obtain ⟨rfl, rfl⟩ := h
    rcases Node.tryAdd_spec fuel r r' [v] p leaf hwf ht with ⟨hn, _, _⟩ | ⟨_, path, rfl, hadded⟩
    · rw [hp] at hn; cases hn
    · exact ⟨r', path, rfl, rfl, hadded⟩

/-- Inside the root box of a well-formed tree `Add` has a result. -/
theorem addReturns_exists {o : Octree α} {r : Node α} (v : α) {p : Vector3f}
    (hr : o.root = some r) (hwf : r.WF) (hp : r.box.ContainsPoint p = true) :
    ∃ r' path, o.AddReturns v p ⟨some r', o.dropped⟩ (some ⟨o.dropped.length, path⟩) ∧
      Node.Added [v] p r r' path := by
  obtain ⟨r', path, hadded⟩ := Node.Added.exists_of_wf [v] p r hwf hp
  obtain ⟨f0, hf0⟩ := hadded.run
  refine ⟨r', path, ⟨f0, ?_⟩, hadded⟩
  rw [Add, hr]
  simp only
  rw [hf0 f0 (le_refl _)]
  rfl

/-- Inside the root box of a well-formed tree `Add` returns a leaf of the
live graph that stores the point, and every result of the call is that one. -/
theorem add_inside_core {o : Octree α} {r : Node α} (v : α) {p : Vector3f}
    (hr : o.root = some r) (hwf : r.WF) (hp : r.box.ContainsPoint p = true) :
    ∃ r' path l, o.AddReturns v p ⟨some r', o.dropped⟩ (some ⟨o.dropped.length, path⟩) ∧
      (∀ o2 node2, o.AddReturns v p o2 node2 →
        o2 = ⟨some r', o.dropped⟩ ∧ node2 = some ⟨o.dropped.length, path⟩) ∧
      Node.Added [v] p r r' path ∧ r'.WF ∧ r'.box = r.box ∧
      (⟨some r', o.dropped⟩ : Octree α).resolve ⟨o.dropped.length, path⟩ = some l ∧
      l.hasChildren = false ∧ l.point = some p ∧ l.elements = r.elementsAt p ++ [v] ∧
      ∀ q, r'.elementsAt q = if q = p then r.elementsAt p ++ [v] else r.elementsAt q := by
  obtain ⟨r', path, hret, hadded⟩ := addReturns_exists v hr hwf hp
  obtain ⟨l, hl, _, hh, _, hpt, hel⟩ := hadded.leaf
  refine ⟨r', path, l, hret, ?_, hadded, hadded.wf hwf, hadded.box_eq, ?_, hh, hpt, ?_,
    hadded.elementsAt⟩
  · intro o2 node2 h2
    obtain ⟨r2, path2, rfl, rfl, hadded2⟩ := addReturns_inside hr hwf hp h2
    obtain ⟨f1, hf1⟩ := hadded.run
    obtain ⟨f2, hf2⟩ := hadded2.run
    have e1 := hf1 (max f1 f2) (le_max_left _ _)
    have e2 := hf2 (max f1 f2) (le_max_right _ _)
    rw [e1] at e2
    simp only [Option.some.injEq, Prod.mk.injEq] at e2
    obtain ⟨rfl, rfl⟩ := e2
    exact ⟨rfl, rfl⟩
  · simp only [resolve, if_true]
    exact hl
  · rw [hel, hadded.elementsAt, if_pos rfl]

end Octree

/-! ## The claims -/

/-- C3.  For every tree with a root (in particular every reachable tree,
whether its root is a leaf or a branch), every value `v` and every point `p`
that the root box does not contain, `Add(v, p)` returns `nil` and leaves the
tree exactly as it was: the call has a result, and every result is `nil` with
the same tree. -/
theorem Octree.add_outside_returns_nil {α : Type} (o : Octree α) (r : Node α) (v : α)
    (p : Vector3f) (hr : o.root = some r) (hp : r.box.ContainsPoint p = false) :
    o.AddReturns v p o none ∧
      ∀ o' node, o.AddReturns v p o' node → o' = o ∧ node = none := by
  refine ⟨⟨1, ?_⟩, fun o' node h => Octree.addReturns_outside hr hp h⟩
  rw [Octree.Add, hr]
  simp only
  rw [Node.tryAdd_outside _ _ _ _ hp]
  simp only [Option.map_none', Option.some.injEq, Prod.mk.injEq, and_true]
  cases o
  simp only at hr
  rw [hr]

theorem Octree.add_outside_returns_nil_witness :
    (CreateOctree ⟨0, 0, 0⟩ ⟨1, 1, 1⟩ : Octree Nat).root =
        some (Node.fresh ⟨⟨0, 0, 0⟩, ⟨1, 1, 1⟩⟩) ∧
      (⟨⟨0, 0, 0⟩, ⟨1, 1, 1⟩⟩ : Box).ContainsPoint ⟨2, 0, 0⟩ = false ∧
      ((CreateOctree ⟨0, 0, 0⟩ ⟨1, 1, 1⟩ : Octree Nat).AddReturns 99 ⟨2, 0, 0⟩
          (CreateOctree ⟨0, 0, 0⟩ ⟨1, 1, 1⟩) none ∧
        ∀ o' node, (CreateOctree ⟨0, 0, 0⟩ ⟨1, 1, 1⟩ : Octree Nat).AddReturns 99 ⟨2, 0, 0⟩ o' node →
          o' = CreateOctree ⟨0, 0, 0⟩ ⟨1, 1, 1⟩ ∧ node = none) :=
  have hr : (CreateOctree ⟨0, 0, 0⟩ ⟨1, 1, 1⟩ : Octree Nat).root =
      some (Node.fresh ⟨⟨0, 0, 0⟩, ⟨1, 1, 1⟩⟩) := by
    simp [CreateOctree, Vector3f.Min, Vector3f.Max]
  have hp : (⟨⟨0, 0, 0⟩, ⟨1, 1, 1⟩⟩ : Box).ContainsPoint ⟨2, 0, 0⟩ = false := by
    simp [Box.ContainsPoint]
  ⟨hr, hp, Octree.add_outside_returns_nil _ _ 99 ⟨2, 0, 0⟩ hr hp⟩

/-- C1.  On a reachable tree, for a point `p` inside the root box, `Add(v, p)`
has a result, every result is the same, and it is a node (never `nil`): a
leaf of the live graph whose stored point is `p`.  Afterwards `ElementsAt(p)`
is the list `es` it returned just before the call with `v` appended at the
end.  A second `Add(v2, p)` then gives `es ++ [v, v2]`, which on a fresh tree
(`es = []`) is `[v, v2]`. -/
theorem Octree.add_inside_returns_leaf {α : Type} [DecidableEq α] (o : Octree α) (v : α)
    (p : Vector3f) (h : Octree.Reachable o) (hp : o.rootContains p = true) :
    ∃ o' node l es, o.AddReturns v p o' (some node) ∧
      (∀ o2 node2, o.AddReturns v p o2 node2 → o2 = o' ∧ node2 = some node) ∧
      o'.resolve node = some l ∧ node.root = o'.dropped.length ∧
      l.hasChildren = false ∧ l.children = [] ∧ l.point = some p ∧
      o.ElementsAt p = some es ∧ o'.ElementsAt p = some (es ++ [v]) ∧
      l.elements = es ++ [v] ∧
      (∀ v2, ∃ o'' node', o'.AddReturns v2 p o'' (some node') ∧
        o''.ElementsAt p = some (es ++ [v, v2])) ∧
      ((∃ min max, o = CreateOctree min max) → es = []) := by
  obtain ⟨r, hr, hwf⟩ := h.root_wf
  rw [Octree.rootContains_eq hr] at hp
  obtain ⟨r', path, l, hret, huniq, hadded, hwf', hbox, hres, hh, hpt, hel, hat⟩ :=
    Octree.add_inside_core v hr hwf hp
  refine ⟨_, _, l, r.elementsAt p, hret, huniq, hres, rfl, hh, ?_, hpt,
    Octree.elementsAt_root hr p, ?_, hel, ?_, ?_⟩
  · obtain ⟨l2, hl2, _, _, hcs, _, _⟩ := hadded.leaf
    simp only [Octree.resolve, if_true] at hres
    rw [hl2] at hres
    cases hres
    exact hcs
  · rw [Octree.elementsAt_root (o := ⟨some r', o.dropped⟩) rfl, hat, if_pos rfl]
  · intro v2
    have hp' : r'.box.ContainsPoint p = true := by rw [hbox]; exact hp
    obtain ⟨r2, path2, l2, hret2, _, _, _, _, _, _, _, _, hat2⟩ :=
      Octree.add_inside_core (o := ⟨some r', o.dropped⟩) v2 rfl hwf' hp'
    refine ⟨_, _, hret2, ?_⟩
    rw [Octree.elementsAt_root (o := ⟨some r2, o.dropped⟩) rfl, hat2, if_pos rfl, hat, if_pos rfl]
    simp
  · rintro ⟨min, max, rfl⟩
    simp only [CreateOctree, Option.some.injEq] at hr
    rw [← hr]
    simp [Node.fresh, Node.elementsAt_mk]

theorem Octree.add_inside_returns_leaf_witness :
    Octree.Reachable (CreateOctree ⟨0, 0, 0⟩ ⟨1, 1, 1⟩ : Octree Nat) ∧
      (CreateOctree ⟨0, 0, 0⟩ ⟨1, 1, 1⟩ : Octree Nat).rootContains ⟨1 / 10, 1 / 10, 1 / 10⟩ = true ∧
      ∃ o' node l es,
        (CreateOctree ⟨0, 0, 0⟩ ⟨1, 1, 1⟩ : Octree Nat).AddReturns 11 ⟨1 / 10, 1 / 10, 1 / 10⟩ o'
          (some node) ∧
        (∀ o2 node2,
          (CreateOctree ⟨0, 0, 0⟩ ⟨1, 1, 1⟩ : Octree Nat).AddReturns 11 ⟨1 / 10, 1 / 10, 1 / 10⟩ o2
            node2 → o2 = o' ∧ node2 = some node) ∧
        o'.resolve node = some l ∧ node.root = o'.dropped.length ∧
        l.hasChildren = false ∧ l.children = [] ∧ l.point = some ⟨1 / 10, 1 / 10, 1 / 10⟩ ∧
        (CreateOctree ⟨0, 0, 0⟩ ⟨1, 1, 1⟩ : Octree Nat).ElementsAt ⟨1 / 10, 1 / 10, 1 / 10⟩ =
          some es ∧
        o'.ElementsAt ⟨1 / 10, 1 / 10, 1 / 10⟩ = some (es ++ [11]) ∧
        l.elements = es ++ [11] ∧
        (∀ v2, ∃ o'' node', o'.AddReturns v2 ⟨1 / 10, 1 / 10, 1 / 10⟩ o'' (some node') ∧
          o''.ElementsAt ⟨1 / 10, 1 / 10, 1 / 10⟩ = some (es ++ [11, v2])) ∧
        ((∃ min max, (CreateOctree ⟨0, 0, 0⟩ ⟨1, 1, 1⟩ : Octree Nat) = CreateOctree min max) →
          es = []) :=
  ⟨Octree.Reachable.create _ _,
    by simp [Octree.rootContains, CreateOctree, Node.fresh, Box.ContainsPoint, Vector3f.Min,
      Vector3f.Max]; norm_num,
    Octree.add_inside_returns_leaf _ 11 ⟨1 / 10, 1 / 10, 1 / 10⟩ (Octree.Reachable.create _ _)
      (by simp [Octree.rootContains, CreateOctree, Node.fresh, Box.ContainsPoint, Vector3f.Min,
        Vector3f.Max]; norm_num)⟩

namespace Node

variable {α : Type}

theorem WF.child {n c : Node α} (hwf : WF n) (hc : c ∈ n.children) :
    WF c ∧ n.hasChildren = true := by
  cases hwf with
  | leaf box point elements hp he => cases hc
  | branch box children hb hw hpw => exact ⟨hw c hc, rfl⟩

/-- Every node below a well-formed node is well-formed, and its leaves are
leaves of the whole. -/
theorem WF.nodeAt {n : Node α} (hwf : WF n) (path : List Nat) :
    ∀ c, n.nodeAt path = some c → WF c ∧ ∀ l ∈ c.leaves, l ∈ n.leaves := by
  induction path generalizing n with
  | nil =>
    intro c hc
    simp only [nodeAt_nil, Option.some.injEq] at hc
    subst hc
    exact ⟨hwf, fun l hl => hl⟩
  | cons i path ih =>
    intro c hc
    rw [nodeAt_cons] at hc
    cases hch : n.children[i]? with
    | none => simp [hch] at hc
    | some child =>
      rw [hch] at hc
      simp only at hc
      have hmem : child ∈ n.children := List.getElem?_mem hch
      obtain ⟨hwc, hh⟩ := hwf.child hmem
      obtain ⟨h1, h2⟩ := ih hwc c hc
      refine ⟨h1, fun l hl => ?_⟩
      have := h2 l hl
      cases n with
      | mk b pt e h cs =>
        simp only [hasChildren_mk] at hh
        subst hh
        rw [leaves_branch, List.mem_flatMap]
        exact ⟨child, hmem, this⟩

/-- The shortcut of `elementsIn` for a child that the query box contains
entirely: querying the child with its own box gives what querying it with the
query box gives. -/
theorem WF.elementsIn_shortcut {c : Node α} (hwf : WF c) (box : Box)
    (h : c.box.IsContainedIn box = true) : c.elementsIn c.box = c.elementsIn box := by
  rw [hwf.elementsIn_eq, hwf.elementsIn_eq]
  congr 1
  apply List.filter_congr
  intro l hl
  cases hpt : l.point with
  | none => simp [pointIn, hpt]
  | some q =>
    have hin := hwf.leaf_point hl hpt
    simp only [pointIn, hpt, hin]
    exact (Box.contains_point_of_contains box c.box q h hin).symm

end Node

/-- C2.  On a reachable tree, for every query box, `ElementsIn(box)` is the
concatenation, over the leaves depth-first in child order, of the value lists
of exactly the leaves whose stored point lies in the closed box; and for every
node of the tree whose box the query box contains entirely, querying the node
with its own box (the shortcut) gives what querying it with the query box
gives. -/
theorem Octree.elementsIn_eq_leaves_in_box {α : Type} [DecidableEq α] (o : Octree α)
    (box : Box) (h : Octree.Reachable o) :
    ∃ r, o.root = some r ∧
      o.ElementsIn box = some ((r.leaves.filter (Node.pointIn box)).flatMap Node.elements) ∧
      ∀ path c, r.nodeAt path = some c → c.box.IsContainedIn box = true →
        c.elementsIn c.box = c.elementsIn box := by
  obtain ⟨r, hr, hwf⟩ := h.root_wf
  refine ⟨r, hr, ?_, ?_⟩
  · rw [Octree.elementsIn_root hr, hwf.elementsIn_eq]
  · intro path c hc hin
    exact (hwf.nodeAt path c hc).1.elementsIn_shortcut box hin

/-- C4.  On a tree with a root (in particular on every reachable tree), for
every value `v`, `Remove(v)` returns `true` exactly when `v` occurs in the
value list of some leaf; and when it returns `true` the depth-first listing of
all stored values afterwards is the listing before with its first occurrence
of `v` deleted: the listing before is `l1 ++ v :: l2` with `v` not in `l1`, and
the listing after is `l1 ++ l2`. -/
theorem Octree.remove_first_occurrence {α : Type} [DecidableEq α] (o : Octree α) (r : Node α)
    (v : α) (hr : o.root = some r) :
    ∃ o' b r', o.Remove v = some (o', b) ∧ o'.root = some r' ∧
      (b = true ↔ ∃ l ∈ r.leaves, v ∈ l.elements) ∧
      (b = true → ∃ l1 l2, v ∉ l1 ∧ r.allElements = l1 ++ v :: l2 ∧
        r'.allElements = l1 ++ l2) := by
  refine ⟨_, _, (r.remove v).1, by rw [Octree.Remove, hr]; rfl, rfl, ?_, ?_⟩
  · rw [(Node.remove_allElements v r).1]
    simp only [decide_eq_true_eq, Node.allElements, List.mem_flatMap]
  · intro hb
    rw [(Node.remove_allElements v r).1, decide_eq_true_eq] at hb
    obtain ⟨l1, l2, h1, h2, h3⟩ := List.exists_erase_eq hb
    exact ⟨l1, l2, h1, h2, by rw [(Node.remove_allElements v r).2, h3]⟩

theorem Octree.remove_first_occurrence_witness :
    (⟨some (Node.mk ⟨⟨0, 0, 0⟩, ⟨1, 1, 1⟩⟩ (some ⟨0, 0, 0⟩) [11, 12, 11] false []), []⟩ :
        Octree Nat).root =
        some (Node.mk ⟨⟨0, 0, 0⟩, ⟨1, 1, 1⟩⟩ (some ⟨0, 0, 0⟩) [11, 12, 11] false []) ∧
      ∃ o' b r',
        (⟨some (Node.mk ⟨⟨0, 0, 0⟩, ⟨1, 1, 1⟩⟩ (some ⟨0, 0, 0⟩) [11, 12, 11] false []), []⟩ :
          Octree Nat).Remove 12 = some (o', b) ∧ o'.root = some r' ∧
        (b = true ↔
          ∃ l ∈ (Node.mk ⟨⟨0, 0, 0⟩, ⟨1, 1, 1⟩⟩ (some ⟨0, 0, 0⟩) [11, 12, 11] false [] :
            Node Nat).leaves, 12 ∈ l.elements) ∧
        (b = true → ∃ l1 l2, 12 ∉ l1 ∧
          (Node.mk ⟨⟨0, 0, 0⟩, ⟨1, 1, 1⟩⟩ (some ⟨0, 0, 0⟩) [11, 12, 11] false [] :
            Node Nat).allElements = l1 ++ 12 :: l2 ∧
          r'.allElements = l1 ++ l2) :=
  ⟨rfl, Octree.remove_first_occurrence _ _ 12 rfl⟩

namespace Octree

variable {α : Type}

/-! ## Trees with their history of insertions and removals -/

theorem History.reachable [DecidableEq α] {o : Octree α} {points : List Vector3f}
    {bag : List α} (h : History o points bag) : Reachable o := by
  induction h with
  | create min max => exact Reachable.create min max
  | addSome o o' points bag element point node _ hadd ih =>
    obtain ⟨fuel, hf⟩ := hadd
    exact Reachable.add o o' fuel element point _ ih hf
  | addNone o o' points bag element point _ hadd ih =>
    obtain ⟨fuel, hf⟩ := hadd
    exact Reachable.add o o' fuel element point _ ih hf
  | removeTrue o o' points bag element _ hrem ih =>
    exact Reachable.remove o o' element true ih hrem
  | removeFalse o o' points bag element _ hrem ih =>
    exact Reachable.remove o o' element false ih hrem

/-- What `Add` does to the root of a reachable tree. -/
theorem addReturns_root [DecidableEq α] {o o' : Octree α} {v : α} {p : Vector3f}
    {node : Option NodeRef} (h : Reachable o) (hadd : o.AddReturns v p o' node) :
    ∃ r r', o.root = some r ∧ o'.root = some r' ∧ r.WF ∧ o'.dropped = o.dropped ∧
      ((r' = r ∧ node = none ∧ r.box.ContainsPoint p = false) ∨
        ∃ path, node = some ⟨o.dropped.length, path⟩ ∧ r.box.ContainsPoint p = true ∧
          Node.Added [v] p r r' path) := by
  obtain ⟨r, hr, hwf⟩ := h.root_wf
  cases hp : r.box.ContainsPoint p with
  | false =>
    obtain ⟨rfl, rfl⟩ := addReturns_outside hr hp hadd
    exact ⟨r, r, hr, hr, hwf, rfl, Or.inl ⟨rfl, rfl, hp⟩⟩
  | true =>
    obtain ⟨r', path, rfl, rfl, hadded⟩ := addReturns_inside hr hwf hp hadd
    exact ⟨r, r', hr, rfl, hwf, rfl, Or.inr ⟨path, rfl, hp, hadded⟩⟩

/-- A stored point is a point at which an `Add` has succeeded. -/
theorem History.stored_points [DecidableEq α] {o : Octree α} {points : List Vector3f}
    {bag : List α} (h : History o points bag) :
    ∀ r, o.root = some r → ∀ q, r.Stores q → q ∈ points := by
  induction h with
  | create min max =>
    intro r hr q hq
    simp only [CreateOctree, Option.some.injEq] at hr
    subst hr
    simp [Node.fresh, Node.stores_leaf] at hq
  | addSome o o' points bag element point node hist hadd ih =>
    intro r' hr' q hq
    obtain ⟨r, r2, hr, hr2, _, _, hcase⟩ := addReturns_root hist.reachable hadd
    rw [hr2] at hr'
    cases hr'
    rcases hcase with ⟨_, hn, _⟩ | ⟨path, _, _, hadded⟩
    · cases hn
    · rcases (hadded.stores q).1 hq with hs | rfl
      · exact List.mem_cons_of_mem _ (ih r hr q hs)
      · exact List.mem_cons_self _ _
  | addNone o o' points bag element point hist hadd ih =>
    intro r' hr' q hq
    obtain ⟨r, r2, hr, hr2, _, _, hcase⟩ := addReturns_root hist.reachable hadd
    rw [hr2] at hr'
    cases hr'
    rcases hcase with ⟨rfl, _, _⟩ | ⟨path, hn, _, _⟩
    · exact ih _ hr q hq
    · cases hn
  | removeTrue o o' points bag element hist hrem ih =>
    intro r' hr' q hq
    obtain ⟨r, hr, _⟩ := hist.reachable.root_wf
    rw [Remove, hr] at hrem
    simp only [Option.map_some', Option.some.injEq, Prod.mk.injEq] at hrem
    obtain ⟨rfl, _⟩ := hrem
    cases hr'
    exact ih r hr q (((Node.remove_sameFrame element r).2.1 q).1 hq)
  | removeFalse o o' points bag element hist hrem ih =>
    intro r' hr' q hq
    obtain ⟨r, hr, _⟩ := hist.reachable.root_wf
    rw [Remove, hr] at hrem
    simp only [Option.map_some', Option.some.injEq, Prod.mk.injEq] at hrem
    obtain ⟨rfl, _⟩ := hrem
    cases hr'
    exact ih r hr q (((Node.remove_sameFrame element r).2.1 q).1 hq)

end Octree

/-- C5.  In every reachable tree at most one leaf stores any given point `p`,
and `ElementsAt(p)` returns the value list of a leaf that stores `p` if there
is one and the empty list otherwise; in particular it is empty for every `p`
outside the root box and, in a tree made by `CreateOctree`, `Add` and `Remove`
calls, for every `p` at which no `Add` has succeeded. -/
theorem Octree.elementsAt_unique_leaf {α : Type} [DecidableEq α] (o : Octree α)
    (h : Octree.Reachable o) :
    ∃ r, o.root = some r ∧ ∀ p,
      (r.leaves.filter fun l => decide (l.point = some p)).length ≤ 1 ∧
      (∀ l ∈ r.leaves, l.point = some p → o.ElementsAt p = some l.elements) ∧
      ((∀ l ∈ r.leaves, l.point ≠ some p) → o.ElementsAt p = some []) ∧
      (o.rootContains p = false → o.ElementsAt p = some []) ∧
      (∀ points bag, Octree.History o points bag → p ∉ points → o.ElementsAt p = some []) := by
  obtain ⟨r, hr, hwf⟩ := h.root_wf
  refine ⟨r, hr, fun p => ⟨hwf.stores_unique p, ?_, ?_, ?_, ?_⟩⟩
  · intro l hl hpt
    rw [Octree.elementsAt_root hr, hwf.elementsAt_of_leaf hl hpt]
  · intro hno
    rw [Octree.elementsAt_root hr, hwf.elementsAt_of_not_stores]
    rintro ⟨l, hl, hpt⟩
    exact hno l hl hpt
  · intro hout
    rw [Octree.rootContains_eq hr] at hout
    rw [Octree.elementsAt_root hr, hwf.elementsAt_outside p hout]
  · intro points bag hist hp
    rw [Octree.elementsAt_root hr, hwf.elementsAt_of_not_stores]
    exact fun hs => hp (hist.stored_points r hr p hs)

/-- C8.  On a reachable tree, for every point `p` (inside or outside the root
box), `ElementsIn` applied to the degenerate box with `min = max = p` returns
the same list as `ElementsAt(p)`. -/
theorem Octree.elementsIn_point_box_eq_elementsAt {α : Type} [DecidableEq α] (o : Octree α)
    (p : Vector3f) (h : Octree.Reachable o) : o.ElementsIn ⟨p, p⟩ = o.ElementsAt p := by
  obtain ⟨r, hr, hwf⟩ := h.root_wf
  rw [Octree.elementsIn_root hr, Octree.elementsAt_root hr, hwf.elementsIn_eq]
  congr 1
  have hpred : ∀ l : Node α, Node.pointIn ⟨p, p⟩ l = decide (l.point = some p) := by
    intro l
    cases hpt : l.point with
    | none => simp [Node.pointIn, hpt]
    | some q =>
      simp only [Node.pointIn, hpt, Option.some.injEq]
      rw [Bool.eq_iff_iff, Box.containsPoint_iff, decide_eq_true_eq]
      constructor
      · rintro ⟨⟨h1, h2⟩, ⟨h3, h4⟩, h5, h6⟩
        cases q; cases p
        simp only [Vector3f.mk.injEq] at *
        exact ⟨le_antisymm h2 h1, le_antisymm h4 h3, le_antisymm h6 h5⟩
      · rintro rfl
        exact ⟨⟨le_refl _, le_refl _⟩, ⟨le_refl _, le_refl _⟩, le_refl _, le_refl _⟩
  have hf : r.leaves.filter (Node.pointIn ⟨p, p⟩) =
      r.leaves.filter fun l => decide (l.point = some p) :=
    List.filter_congr fun l _ => hpred l
  rw [hf]
  have hlen := hwf.stores_unique p
  cases hfl : r.leaves.filter (fun l => decide (l.point = some p)) with
  | nil =>
    rw [hwf.elementsAt_of_not_stores]
    · rfl
    · rintro ⟨l, hl, hpt⟩
      have : l ∈ r.leaves.filter (fun l => decide (l.point = some p)) :=
        List.mem_filter.2 ⟨hl, by simpa using hpt⟩
      rw [hfl] at this
      cases this
  | cons l ls =>
    rw [hfl] at hlen
    have hls : ls = [] := by
      cases ls with
      | nil => rfl
      | cons a as => simp at hlen
    subst hls
    have hmem : l ∈ r.leaves.filter (fun l => decide (l.point = some p)) := by
      rw [hfl]; exact List.mem_singleton_self l
    rw [List.mem_filter] at hmem
    rw [hwf.elementsAt_of_leaf hmem.1 (by simpa using hmem.2)]
    simp

/-! ## An example tree -/

namespace Node

variable {α : Type}

/-! ## A retained node keeps the value it was returned for -/

theorem forall₂_mem_left {P : Node α → Node α → Prop} {cs cs' : List (Node α)}
    (h : List.Forall₂ P cs cs') {c : Node α} (hc : c ∈ cs) : ∃ c' ∈ cs', P c c' := by
  induction h with
  | nil => cases hc
  | cons hp _ ih =>
    rcases List.mem_cons.1 hc with rfl | hc
    · exact ⟨_, List.mem_cons_self _ _, hp⟩
    · obtain ⟨c', hc', hpc⟩ := ih hc
      exact ⟨c', List.mem_cons_of_mem _ hc', hpc⟩

theorem forall₂_getElem? {P : Node α → Node α → Prop} {cs cs' : List (Node α)}
    (h : List.Forall₂ P cs cs') (i : Nat) {c : Node α} (hc : cs[i]? = some c) :
    ∃ c', cs'[i]? = some c' ∧ P c c' := by
  induction h generalizing i with
  | nil => simp at hc
  | cons hp _ ih =>
    cases i with
    | zero =>
      simp only [List.getElem?_cons_zero, Option.some.injEq] at hc
      subst hc
      exact ⟨_, by simp, hp⟩
    | succ i =>
      simp only [List.getElem?_cons_succ] at hc ⊢
      exact ih i hc

/-- Replacing the children by children that keep the value keeps it. -/
theorem HoldsAt.congr (p : Vector3f) (v : α) (b : Box) (pt : Option Vector3f) (e : List α)
    (h : Bool) {cs cs' : List (Node α)}
    (hf : List.Forall₂ (fun c c' => ∀ path, HoldsAt c path p v → HoldsAt c' path p v) cs cs')
    (path : List Nat) (hh : HoldsAt (mk b pt e h cs) path p v) :
    HoldsAt (mk b pt e h cs') path p v := by
  obtain ⟨t, l, ht, hl, hpt, hv⟩ := hh
  cases path with
  | nil =>
    simp only [nodeAt_nil, Option.some.injEq] at ht
    subst ht
    cases h with
    | false =>
      rw [leaves_leaf, List.mem_singleton] at hl
      subst hl
      exact ⟨_, mk b pt e false cs', nodeAt_nil _, by simp [leaves_leaf], hpt, hv⟩
    | true =>
      rw [leaves_branch, List.mem_flatMap] at hl
      obtain ⟨c, hc, hlc⟩ := hl
      obtain ⟨c', hc', hP⟩ := forall₂_mem_left hf hc
      obtain ⟨t', l', ht', hl', hpt', hv'⟩ := hP [] ⟨c, l, nodeAt_nil _, hlc, hpt, hv⟩
      simp only [nodeAt_nil, Option.some.injEq] at ht'
      subst ht'
      refine ⟨_, l', nodeAt_nil _, ?_, hpt', hv'⟩
      rw [leaves_branch, List.mem_flatMap]
      exact ⟨_, hc', hl'⟩
  | cons i rest =>
    rw [nodeAt_cons] at ht
    simp only [children_mk] at ht
    cases hc : cs[i]? with
    | none => simp [hc] at ht
    | some c =>
      rw [hc] at ht
      simp only at ht
      obtain ⟨c', hc', hP⟩ := forall₂_getElem? hf i hc
      obtain ⟨t', l', ht', hl', hpt', hv'⟩ := hP rest ⟨t, l, ht, hl, hpt, hv⟩
      refine ⟨t', l', ?_, hl', hpt', hv'⟩
      rw [nodeAt_cons]
      simp only [children_mk, hc']
      exact ht'

end Node

namespace Node

variable {α : Type}

/-! ## What a removal changes in the answers to point queries -/

theorem removeLoop_split [DecidableEq α] (v : α) (l1 l2 : List (Node α)) (c : Node α)
    (h1 : ∀ d ∈ l1, (d.remove v).2 = false) (hc : (c.remove v).2 = true) :
    removeLoop (l1 ++ c :: l2) v = (l1 ++ (c.remove v).1 :: l2, true) := by
  induction l1 with
  | nil => rw [List.nil_append, removeLoop_cons, if_pos hc]; rfl
  | cons d l1 ih =>
    have hd := h1 d (List.mem_cons_self _ _)
    rw [List.cons_append, removeLoop_cons, hd, ih fun e he => h1 e (List.mem_cons_of_mem _ he),
      remove_false v d hd]
    rfl

theorem getElem?_split {cs : List (Node α)} {i : Nat} {c : Node α} (h : cs[i]? = some c) :
    ∃ l1 l2, cs = l1 ++ c :: l2 ∧ l1.length = i := by
  induction cs generalizing i with
  | nil => simp at h
  | cons d cs ih =>
    cases i with
    | zero =>
      simp only [List.getElem?_cons_zero, Option.some.injEq] at h
      subst h
      exact ⟨[], cs, rfl, rfl⟩
    | succ i =>
      simp only [List.getElem?_cons_succ] at h
      obtain ⟨l1, l2, rfl, hl⟩ := ih h
      exact ⟨d :: l1, l2, rfl, by simp [hl]⟩

theorem set_split (l1 l2 : List (Node α)) (c c' : Node α) :
    (l1 ++ c :: l2).set l1.length c' = l1 ++ c' :: l2 := by
  induction l1 with
  | nil => rfl
  | cons d l1 ih => simp only [List.cons_append, List.length_cons, List.set_cons_succ, ih]

end Node

namespace Octree

variable {α : Type}

end Octree

/-! ## More example trees -/

theorem Octree.sampleCorner_add :
    (CreateOctree ⟨0, 0, 0⟩ ⟨1, 1, 1⟩ : Octree Nat).AddReturns 1 ⟨1, 1, 1⟩
      Octree.sampleCorner (some ⟨0, []⟩) := by
  refine ⟨1, ?_⟩
  norm_num [Octree.Add, CreateOctree, Node.tryAdd, Node.fresh, Box.ContainsPoint, Vector3f.Min,
    Vector3f.Max, Octree.sampleCorner]

set_option maxRecDepth 4000 in
theorem Octree.sampleSplit_add :
    Octree.sampleCorner.AddReturns 1 ⟨0, 0, 0⟩ Octree.sampleSplit (some ⟨0, [0]⟩) := by
  refine ⟨4, ?_⟩
  norm_num [Octree.Add, Octree.sampleCorner, Octree.sampleSplit, Node.tryAdd, Node.subdivide,
    Node.addToChildren, Node.addLoop, Node.fresh, Box.ContainsPoint, Box.makeSubBoxes,
    Vector3f.Lerp]

theorem Octree.Reachable.of_addReturns {α : Type} [DecidableEq α] {o o' : Octree α} {v : α}
    {p : Vector3f} {node : Option NodeRef} (h : Octree.Reachable o)
    (hadd : o.AddReturns v p o' node) : Octree.Reachable o' := by
  obtain ⟨fuel, hf⟩ := hadd
  exact Octree.Reachable.add o o' fuel v p node h hf

theorem Octree.sampleSplit_reachable : Octree.Reachable Octree.sampleSplit :=
  ((Octree.Reachable.create _ _).of_addReturns Octree.sampleCorner_add).of_addReturns
    Octree.sampleSplit_add

set_option maxRecDepth 4000 in
theorem Octree.sampleTwo_add :
    Octree.sampleCorner.AddReturns 2 ⟨0, 0, 0⟩ Octree.sampleTwo (some ⟨0, [0]⟩) := by
  refine ⟨4, ?_⟩
  norm_num [Octree.Add, Octree.sampleCorner, Octree.sampleTwo, Node.tryAdd, Node.subdivide,
    Node.addToChildren, Node.addLoop, Node.fresh, Box.ContainsPoint, Box.makeSubBoxes,
    Vector3f.Lerp]

theorem Octree.elementsIn_eq_leaves_in_box_witness :
    Octree.Reachable Octree.sampleSplit ∧
      ∃ r, Octree.sampleSplit.root = some r ∧
        Octree.sampleSplit.ElementsIn ⟨⟨-1, -1, -1⟩, ⟨3 / 4, 3 / 4, 3 / 4⟩⟩ =
          some ((r.leaves.filter (Node.pointIn ⟨⟨-1, -1, -1⟩, ⟨3 / 4, 3 / 4, 3 / 4⟩⟩)).flatMap
            Node.elements) ∧
        ∀ path c, r.nodeAt path = some c →
          c.box.IsContainedIn ⟨⟨-1, -1, -1⟩, ⟨3 / 4, 3 / 4, 3 / 4⟩⟩ = true →
          c.elementsIn c.box = c.elementsIn ⟨⟨-1, -1, -1⟩, ⟨3 / 4, 3 / 4, 3 / 4⟩⟩ :=
  ⟨Octree.sampleSplit_reachable,
    Octree.elementsIn_eq_leaves_in_box _ ⟨⟨-1, -1, -1⟩, ⟨3 / 4, 3 / 4, 3 / 4⟩⟩
      Octree.sampleSplit_reachable⟩

theorem Octree.elementsAt_unique_leaf_witness :
    Octree.Reachable Octree.sampleSplit ∧
      ∃ r, Octree.sampleSplit.root = some r ∧ ∀ p,
        (r.leaves.filter fun l => decide (l.point = some p)).length ≤ 1 ∧
        (∀ l ∈ r.leaves, l.point = some p →
          Octree.sampleSplit.ElementsAt p = some l.elements) ∧
        ((∀ l ∈ r.leaves, l.point ≠ some p) → Octree.sampleSplit.ElementsAt p = some []) ∧
        (Octree.sampleSplit.rootContains p = false →
          Octree.sampleSplit.ElementsAt p = some []) ∧
        (∀ points bag, Octree.History Octree.sampleSplit points bag → p ∉ points →
          Octree.sampleSplit.ElementsAt p = some []) :=
  ⟨Octree.sampleSplit_reachable, Octree.elementsAt_unique_leaf _ Octree.sampleSplit_reachable⟩

theorem Octree.elementsIn_point_box_eq_elementsAt_witness :
    Octree.Reachable Octree.sampleSplit ∧
      Octree.sampleSplit.ElementsIn ⟨⟨1, 1, 1⟩, ⟨1, 1, 1⟩⟩ =
        Octree.sampleSplit.ElementsAt ⟨1, 1, 1⟩ :=
  ⟨Octree.sampleSplit_reachable,
    Octree.elementsIn_point_box_eq_elementsAt Octree.sampleSplit ⟨1, 1, 1⟩
      Octree.sampleSplit_reachable⟩

theorem Box.contains_iff (a b : Box) :
    a.Contains b = true ↔
      (a.min.x ≤ b.min.x ∧ b.max.x ≤ a.max.x) ∧ (a.min.y ≤ b.min.y ∧ b.max.y ≤ a.max.y) ∧
        (a.min.z ≤ b.min.z ∧ b.max.z ≤ a.max.z) := by
  simp only [Box.Contains, Bool.and_eq_true, decide_eq_true_eq, ge_iff_le]
  tauto

theorem Box.intersects_iff (a b : Box) :
    a.Intersects b = true ↔
      (b.min.x ≤ a.max.x ∧ a.min.x ≤ b.max.x) ∧ (b.min.y ≤ a.max.y ∧ a.min.y ≤ b.max.y) ∧
        (b.min.z ≤ a.max.z ∧ a.min.z ≤ b.max.z) := by
  simp only [Box.Intersects, Bool.not_eq_true', Bool.or_eq_false_iff, decide_eq_false_iff_not,
    not_lt]
  tauto

theorem Box.Ordered.min_mem {b : Box} (h : b.Ordered) : b.ContainsPoint b.min = true :=
  (Box.containsPoint_iff _ _).2
    ⟨⟨le_refl _, h.1⟩, ⟨le_refl _, h.2.1⟩, le_refl _, h.2.2⟩

theorem Box.Ordered.max_mem {b : Box} (h : b.Ordered) : b.ContainsPoint b.max = true :=
  (Box.containsPoint_iff _ _).2
    ⟨⟨h.1, le_refl _⟩, ⟨h.2.1, le_refl _⟩, h.2.2, le_refl _⟩

/-- C14.  For every box `a` and every box `b` with `min[i] <= max[i]` on every
axis, `a.Contains(b)` is true if and only if every point that `b` contains is
contained in `a` (closed regions, shared boundaries included); and
`a.IsContainedIn(b)` equals `b.Contains(a)`. -/
theorem Box.contains_iff_points (a b : Box) (hb : b.Ordered) :
    (a.Contains b = true ↔ ∀ p, b.ContainsPoint p = true → a.ContainsPoint p = true) ∧
      a.IsContainedIn b = b.Contains a := by
  refine ⟨⟨fun h p hp => Box.contains_point_of_contains a b p h hp, fun h => ?_⟩, rfl⟩
  have h1 := (Box.containsPoint_iff _ _).1 (h b.min hb.min_mem)
  have h2 := (Box.containsPoint_iff _ _).1 (h b.max hb.max_mem)
  rw [Box.contains_iff]
  exact ⟨⟨h1.1.1, h2.1.2⟩, ⟨h1.2.1.1, h2.2.1.2⟩, h1.2.2.1, h2.2.2.2⟩

theorem Box.contains_iff_points_witness :
    (⟨⟨1, 1, 1⟩, ⟨2, 2, 2⟩⟩ : Box).Ordered ∧
      (((⟨⟨0, 0, 0⟩, ⟨2, 2, 2⟩⟩ : Box).Contains ⟨⟨1, 1, 1⟩, ⟨2, 2, 2⟩⟩ = true ↔
          ∀ p, (⟨⟨1, 1, 1⟩, ⟨2, 2, 2⟩⟩ : Box).ContainsPoint p = true →
            (⟨⟨0, 0, 0⟩, ⟨2, 2, 2⟩⟩ : Box).ContainsPoint p = true) ∧
        (⟨⟨0, 0, 0⟩, ⟨2, 2, 2⟩⟩ : Box).IsContainedIn ⟨⟨1, 1, 1⟩, ⟨2, 2, 2⟩⟩ =
          (⟨⟨1, 1, 1⟩, ⟨2, 2, 2⟩⟩ : Box).Contains ⟨⟨0, 0, 0⟩, ⟨2, 2, 2⟩⟩) :=
  have hb : (⟨⟨1, 1, 1⟩, ⟨2, 2, 2⟩⟩ : Box).Ordered := by
    simp only [Box.Ordered]; norm_num
  ⟨hb, Box.contains_iff_points ⟨⟨0, 0, 0⟩, ⟨2, 2, 2⟩⟩ ⟨⟨1, 1, 1⟩, ⟨2, 2, 2⟩⟩ hb⟩

/-- C15.  For boxes `a` and `b` with `min[i] <= max[i]` on every axis,
`a.Intersects(b)` is true if and only if some point is contained in both;
`a.Intersects(b) = b.Intersects(a)`; and boxes that meet only in a corner
(`a.max = b.min`) or only in a face (`b` starts where `a` ends on the x axis
and has the same y and z ranges) intersect. -/
theorem Box.intersects_iff_common_point (a b : Box) (ha : a.Ordered) (hb : b.Ordered) :
    (a.Intersects b = true ↔ ∃ p, a.ContainsPoint p = true ∧ b.ContainsPoint p = true) ∧
      a.Intersects b = b.Intersects a ∧
      (a.max = b.min → a.Intersects b = true) ∧
      (a.max.x = b.min.x → a.min.y = b.min.y → a.max.y = b.max.y → a.min.z = b.min.z →
        a.max.z = b.max.z → a.Intersects b = true) := by
  obtain ⟨ax, ay, az⟩ := ha
  obtain ⟨bx, by', bz⟩ := hb
  refine ⟨⟨fun h => ?_, fun ⟨p, hpa, hpb⟩ => Box.intersects_of_common_point a b p hpa hpb⟩,
    ?_, ?_, ?_⟩
  · rw [Box.intersects_iff] at h
    obtain ⟨⟨h1, h2⟩, ⟨h3, h4⟩, h5, h6⟩ := h
    refine ⟨⟨Max.max a.min.x b.min.x, Max.max a.min.y b.min.y, Max.max a.min.z b.min.z⟩, ?_, ?_⟩
    · rw [Box.containsPoint_iff]
      exact ⟨⟨le_max_left _ _, max_le ax h1⟩, ⟨le_max_left _ _, max_le ay h3⟩,
        le_max_left _ _, max_le az h5⟩
    · rw [Box.containsPoint_iff]
      exact ⟨⟨le_max_right _ _, max_le h2 bx⟩, ⟨le_max_right _ _, max_le h4 by'⟩,
        le_max_right _ _, max_le h6 bz⟩
  · rw [Bool.eq_iff_iff, Box.intersects_iff, Box.intersects_iff]
    tauto
  · intro h
    have hb2 : b.ContainsPoint a.max = true := by
      rw [h]
      exact Box.Ordered.min_mem ⟨bx, by', bz⟩
    exact Box.intersects_of_common_point a b a.max (Box.Ordered.max_mem ⟨ax, ay, az⟩) hb2
  · intro h1 h2 h3 h4 h5
    rw [Box.intersects_iff]
    exact ⟨⟨h1 ▸ le_refl _, by linarith⟩, ⟨by linarith, by linarith⟩, by linarith, by linarith⟩

theorem Box.intersects_iff_common_point_witness :
    (⟨⟨0, 0, 0⟩, ⟨1, 1, 1⟩⟩ : Box).Ordered ∧ (⟨⟨1, 0, 0⟩, ⟨2, 1, 1⟩⟩ : Box).Ordered ∧
      (((⟨⟨0, 0, 0⟩, ⟨1, 1, 1⟩⟩ : Box).Intersects ⟨⟨1, 0, 0⟩, ⟨2, 1, 1⟩⟩ = true ↔
          ∃ p, (⟨⟨0, 0, 0⟩, ⟨1, 1, 1⟩⟩ : Box).ContainsPoint p = true ∧
            (⟨⟨1, 0, 0⟩, ⟨2, 1, 1⟩⟩ : Box).ContainsPoint p = true) ∧
        (⟨⟨0, 0, 0⟩, ⟨1, 1, 1⟩⟩ : Box).Intersects ⟨⟨1, 0, 0⟩, ⟨2, 1, 1⟩⟩ =
          (⟨⟨1, 0, 0⟩, ⟨2, 1, 1⟩⟩ : Box).Intersects ⟨⟨0, 0, 0⟩, ⟨1, 1, 1⟩⟩ ∧
        ((⟨⟨0, 0, 0⟩, ⟨1, 1, 1⟩⟩ : Box).max = (⟨⟨1, 0, 0⟩, ⟨2, 1, 1⟩⟩ : Box).min →
          (⟨⟨0, 0, 0⟩, ⟨1, 1, 1⟩⟩ : Box).Intersects ⟨⟨1, 0, 0⟩, ⟨2, 1, 1⟩⟩ = true) ∧
        ((⟨⟨0, 0, 0⟩, ⟨1, 1, 1⟩⟩ : Box).max.x = (⟨⟨1, 0, 0⟩, ⟨2, 1, 1⟩⟩ : Box).min.x →
          (⟨⟨0, 0, 0⟩, ⟨1, 1, 1⟩⟩ : Box).min.y = (⟨⟨1, 0, 0⟩, ⟨2, 1, 1⟩⟩ : Box).min.y →
          (⟨⟨0, 0, 0⟩, ⟨1, 1, 1⟩⟩ : Box).max.y = (⟨⟨1, 0, 0⟩, ⟨2, 1, 1⟩⟩ : Box).max.y →
          (⟨⟨0, 0, 0⟩, ⟨1, 1, 1⟩⟩ : Box).min.z = (⟨⟨1, 0, 0⟩, ⟨2, 1, 1⟩⟩ : Box).min.z →
          (⟨⟨0, 0, 0⟩, ⟨1, 1, 1⟩⟩ : Box).max.z = (⟨⟨1, 0, 0⟩, ⟨2, 1, 1⟩⟩ : Box).max.z →
          (⟨⟨0, 0, 0⟩, ⟨1, 1, 1⟩⟩ : Box).Intersects ⟨⟨1, 0, 0⟩, ⟨2, 1, 1⟩⟩ = true)) :=
  have ha : (⟨⟨0, 0, 0⟩, ⟨1, 1, 1⟩⟩ : Box).Ordered := by
    simp only [Box.Ordered]; norm_num
  have hb : (⟨⟨1, 0, 0⟩, ⟨2, 1, 1⟩⟩ : Box).Ordered := by
    simp only [Box.Ordered]; norm_num
  ⟨ha, hb, Box.intersects_iff_common_point _ _ ha hb⟩

namespace Octree

variable {α : Type}

/-! ## Sequences of calls -/

/-- What `Remove` does to the root. -/
theorem remove_root [DecidableEq α] {o o' : Octree α} {v : α} {b : Bool} {r : Node α}
    (hr : o.root = some r) (h : o.Remove v = some (o', b)) :
    o' = ⟨some (r.remove v).1, o.dropped⟩ ∧ b = (r.remove v).2 := by
  rw [Remove, hr] at h
  simp only [Option.map_some', Option.some.injEq, Prod.mk.injEq] at h
  exact ⟨h.1.symm, h.2.symm⟩

/-- What `RemoveUsing` does to the root: nothing, or a removal at some
address. -/
theorem removeUsing_root [DecidableEq α] {o o' : Octree α} {v : α} {b : Bool} {r : Node α}
    {node : Option NodeRef} (hr : o.root = some r) (h : o.RemoveUsing v node = some (o', b)) :
    o'.dropped.length = o.dropped.length ∧
      (o'.root = some r ∨ ∃ path r', r.removeAt path v = some (r', b) ∧ o'.root = some r') := by
  cases node with
  | none =>
    simp only [RemoveUsing, Option.some.injEq, Prod.mk.injEq] at h
    rw [← h.1]
    exact ⟨rfl, Or.inl hr⟩
  | some ref =>
    simp only [RemoveUsing] at h
    split_ifs at h with hlive
    · rw [hr] at h
      simp only at h
      cases hrem : r.removeAt ref.path v with
      | none => simp [hrem] at h
      | some x =>
        obtain ⟨r', b'⟩ := x
        rw [hrem] at h
        simp only [Option.some.injEq, Prod.mk.injEq] at h
        obtain ⟨rfl, rfl⟩ := h
        exact ⟨rfl, Or.inr ⟨ref.path, r', hrem, rfl⟩⟩
    · cases hd : o.dropped[ref.root]? with
      | none => simp [hd] at h
      | some t =>
        rw [hd] at h
        simp only at h
        cases hrem : t.removeAt ref.path v with
        | none => simp [hrem] at h
        | some x =>
          obtain ⟨t', b'⟩ := x
          rw [hrem] at h
          simp only [Option.some.injEq, Prod.mk.injEq] at h
          rw [← h.1]
          exact ⟨by simp, Or.inl hr⟩

/-- A sequence of calls keeps a reachable tree reachable and never changes
the box of the root. -/
theorem Steps.root_box [DecidableEq α] {o o' : Octree α} (h : Steps o o')
    (hreach : Reachable o) {r : Node α} (hr : o.root = some r) :
    Reachable o' ∧ ∃ r', o'.root = some r' ∧ r'.box = r.box := by
  induction h with
  | refl => exact ⟨hreach, r, hr, rfl⟩
  | add o1 o2 v p node _ hadd ih =>
    obtain ⟨hr1, r1, hroot1, hbox1⟩ := ih
    refine ⟨hr1.of_addReturns hadd, ?_⟩
    obtain ⟨ra, rb, hra, hrb, _, _, hcase⟩ := addReturns_root hr1 hadd
    rw [hroot1] at hra
    cases hra
    rcases hcase with ⟨rfl, _, _⟩ | ⟨path, _, _, hadded⟩
    · exact ⟨_, hrb, hbox1⟩
    · exact ⟨_, hrb, by rw [hadded.box_eq, hbox1]⟩
  | remove o1 o2 v b _ hrem ih =>
    obtain ⟨hr1, r1, hroot1, hbox1⟩ := ih
    refine ⟨Reachable.remove o1 o2 v b hr1 hrem, ?_⟩
    obtain ⟨rfl, _⟩ := remove_root hroot1 hrem
    exact ⟨_, rfl, by rw [(Node.remove_sameFrame v r1).1, hbox1]⟩
  | removeUsing o1 o2 v node b _ hrem ih =>
    obtain ⟨hr1, r1, hroot1, hbox1⟩ := ih
    refine ⟨Reachable.removeUsing o1 o2 v node b hr1 hrem, ?_⟩
    rcases (removeUsing_root hroot1 hrem).2 with h2 | ⟨path, r', hrem', h2⟩
    · exact ⟨_, h2, hbox1⟩
    · exact ⟨_, h2, by rw [(Node.removeAt_sameFrame v path r1 r' b hrem').1, hbox1]⟩
  | clear o1 _ ih =>
    obtain ⟨hr1, r1, hroot1, hbox1⟩ := ih
    refine ⟨Reachable.clear o1 hr1, ?_⟩
    rw [Clear, hroot1]
    exact ⟨_, rfl, hbox1⟩

/-- The node graphs that `Clear` has unlinked stay well-formed. -/
theorem Reachable.dropped_wf [DecidableEq α] {o : Octree α} (h : Reachable o) :
    ∀ t ∈ o.dropped, t.WF := by
  induction h with
  | create min max => intro t ht; cases ht
  | add o o' fuel element point r hreach hadd ih =>
    obtain ⟨_, _, _, _, _, hd, _⟩ := addReturns_root hreach ⟨fuel, hadd⟩
    rw [hd]
    exact ih
  | remove o o' element b hreach hrem ih =>
    obtain ⟨r, hr, _⟩ := hreach.root_wf
    obtain ⟨rfl, _⟩ := remove_root hr hrem
    exact ih
  | removeUsing o o' element node b hreach hrem ih =>
    cases node with
    | none =>
      simp only [RemoveUsing, Option.some.injEq, Prod.mk.injEq] at hrem
      rw [← hrem.1]
      exact ih
    | some ref =>
      simp only [RemoveUsing] at hrem
      split_ifs at hrem with hlive
      · cases hroot : o.root with
        | none => simp [hroot] at hrem
        | some r =>
          rw [hroot] at hrem
          simp only at hrem
          cases hr : r.removeAt ref.path element with
          | none => simp [hr] at hrem
          | some x =>
            rw [hr] at hrem
            simp only [Option.some.injEq, Prod.mk.injEq] at hrem
            rw [← hrem.1]
            exact ih
      · cases hd : o.dropped[ref.root]? with
        | none => simp [hd] at hrem
        | some t =>
          rw [hd] at hrem
          simp only at hrem
          cases hr : t.removeAt ref.path element with
          | none => simp [hr] at hrem
          | some x =>
            obtain ⟨t', b'⟩ := x
            rw [hr] at hrem
            simp only [Option.some.injEq, Prod.mk.injEq] at hrem
            rw [← hrem.1]
            intro u hu
            rcases List.mem_or_eq_of_mem_set hu with hu | rfl
            · exact ih u hu
            · exact (Node.removeAt_sameFrame element ref.path t u b' hr).2.2
                (ih t (List.getElem?_mem hd))
  | clear o hreach ih =>
    obtain ⟨r, hr, hwf⟩ := hreach.root_wf
    rw [Clear, hr]
    intro t ht
    rcases List.mem_append.1 ht with ht | ht
    · exact ih t ht
    · rw [List.mem_singleton] at ht
      rw [ht]
      exact hwf

/-- Every node that a `*Node` can denote in a reachable tree is well-formed. -/
theorem Reachable.resolve_wf [DecidableEq α] {o : Octree α} (h : Reachable o)
    {ref : NodeRef} {c : Node α} (hc : o.resolve ref = some c) : c.WF := by
  rw [resolve] at hc
  split_ifs at hc with hlive
  · obtain ⟨r, hr, hwf⟩ := h.root_wf
    rw [hr] at hc
    exact (hwf.nodeAt ref.path c hc).1
  · cases hd : o.dropped[ref.root]? with
    | none => simp [hd] at hc
    | some t =>
      rw [hd] at hc
      exact ((h.dropped_wf t (List.getElem?_mem hd)).nodeAt ref.path c hc).1

end Octree

theorem Box.Ordered.subBox {b s : Box} (h : b.Ordered) (hs : s ∈ b.makeSubBoxes) :
    s.Ordered := by
  obtain ⟨lx, ly, lz, rfl⟩ := Box.mem_makeSubBoxes b s hs
  obtain ⟨hx, hy, hz⟩ := h
  cases lx <;> cases ly <;> cases lz <;>
    simp only [Box.Ordered, if_true, if_false, Bool.false_eq_true] <;>
    refine ⟨?_, ?_, ?_⟩ <;> linarith

namespace Node

variable {α : Type}

/-! ## The two states of a node -/

theorem makeSubBoxes_length (b : Box) : b.makeSubBoxes.length = 8 := rfl

/-- A well-formed node is a leaf without children or a branch with eight
children and nothing of its own. -/
theorem WF.state {n : Node α} (hwf : WF n) :
    (n.hasChildren = false ∧ n.children = []) ∨
      (n.hasChildren = true ∧ n.children.length = 8 ∧ n.point = none ∧ n.elements = [] ∧
        n.children.map Node.box = n.box.makeSubBoxes) := by
  cases hwf with
  | leaf box point elements hp he => exact Or.inl ⟨rfl, rfl⟩
  | branch box children hb hw hpw =>
    refine Or.inr ⟨rfl, ?_, rfl, rfl, hb⟩
    have := congrArg List.length hb
    simpa [makeSubBoxes_length] using this

theorem nodeAt_append (n : Node α) (p1 p2 : List Nat) :
    n.nodeAt (p1 ++ p2) = (n.nodeAt p1).bind fun a => a.nodeAt p2 := by
  induction p1 generalizing n with
  | nil => simp
  | cons i p1 ih =>
    rw [List.cons_append, nodeAt_cons, nodeAt_cons]
    cases n.children[i]? with
    | none => rfl
    | some c => exact ih c

end Node

/-- C17.  In every reachable tree every node that a `*Node` can denote (a
node of the live graph or of a graph unlinked by `Clear`) is in exactly one of
two states: a leaf (`hasChildren` false, no children) or a branch
(`hasChildren` true, exactly eight children, no stored point and no values);
never both, never neither. -/
theorem Octree.node_leaf_or_branch {α : Type} [DecidableEq α] (o : Octree α)
    (h : Octree.Reachable o) :
    (∃ r, o.resolve ⟨o.dropped.length, []⟩ = some r) ∧
      ∀ ref c, o.resolve ref = some c →
        ((c.hasChildren = false ∧ c.children = []) ∨
          (c.hasChildren = true ∧ c.children.length = 8 ∧ c.point = none ∧ c.elements = [])) ∧
        ¬ ((c.hasChildren = false ∧ c.children = []) ∧
          (c.hasChildren = true ∧ c.children.length = 8 ∧ c.point = none ∧ c.elements = [])) := by
  refine ⟨?_, fun ref c hc => ⟨?_, ?_⟩⟩
  · obtain ⟨r, hr, _⟩ := h.root_wf
    exact ⟨r, by simp [Octree.resolve, hr]⟩
  · rcases (h.resolve_wf hc).state with hl | ⟨h1, h2, h3, h4, _⟩
    · exact Or.inl hl
    · exact Or.inr ⟨h1, h2, h3, h4⟩
  · rintro ⟨⟨h1, _⟩, h2, _⟩
    rw [h1] at h2
    cases h2

theorem Octree.node_leaf_or_branch_witness :
    Octree.Reachable Octree.sampleSplit ∧
      ((∃ r, Octree.sampleSplit.resolve ⟨Octree.sampleSplit.dropped.length, []⟩ = some r) ∧
        ∀ ref c, Octree.sampleSplit.resolve ref = some c →
          ((c.hasChildren = false ∧ c.children = []) ∨
            (c.hasChildren = true ∧ c.children.length = 8 ∧ c.point = none ∧
              c.elements = [])) ∧
          ¬ ((c.hasChildren = false ∧ c.children = []) ∧
            (c.hasChildren = true ∧ c.children.length = 8 ∧ c.point = none ∧
              c.elements = []))) :=
  ⟨Octree.sampleSplit_reachable, Octree.node_leaf_or_branch _ Octree.sampleSplit_reachable⟩

/-- C18.  In every reachable tree, for every branch the box of its `i`-th child
is the `i`-th box that `makeSubBoxes` returns on the box of the branch, and
every leaf that stores a point stores a point contained in its own box and in
the box of every ancestor. -/
theorem Octree.children_on_octants {α : Type} [DecidableEq α] (o : Octree α)
    (h : Octree.Reachable o) :
    ∃ r, o.root = some r ∧ ∀ path c, r.nodeAt path = some c →
      (c.hasChildren = true →
        c.children.length = 8 ∧
        ∀ (i : Nat) (child : Node α), c.children[i]? = some child →
          c.box.makeSubBoxes[i]? = some child.box) ∧
      (∀ q, c.hasChildren = false → c.point = some q →
        c.box.ContainsPoint q = true ∧
        ∀ path1 path2 a, path = path1 ++ path2 → r.nodeAt path1 = some a →
          a.box.ContainsPoint q = true) := by
  obtain ⟨r, hr, hwf⟩ := h.root_wf
  refine ⟨r, hr, fun path c hc => ⟨fun hh => ?_, fun q hh hq => ?_⟩⟩
  · rcases (hwf.nodeAt path c hc).1.state with ⟨h1, _⟩ | ⟨_, h2, _, _, h5⟩
    · rw [h1] at hh; cases hh
    · refine ⟨h2, fun i child hi => ?_⟩
      rw [← h5, List.getElem?_map, hi]
      rfl
  · have hleaf : c ∈ c.leaves := by
      cases c with
      | mk b pt e hc' cs =>
        simp only [Node.hasChildren_mk] at hh
        subst hh
        simp [Node.leaves_leaf]
    refine ⟨(hwf.nodeAt path c hc).1.leaf_point hleaf hq, ?_⟩
    intro path1 path2 a hp ha
    subst hp
    rw [Node.nodeAt_append, ha] at hc
    simp only [Option.some_bind] at hc
    obtain ⟨hwa, hsub⟩ := hwf.nodeAt path1 a ha
    exact hwa.leaf_point ((hwa.nodeAt path2 c hc).2 c hleaf) hq

theorem Octree.children_on_octants_witness :
    Octree.Reachable Octree.sampleSplit ∧
      ∃ r, Octree.sampleSplit.root = some r ∧ ∀ path c, r.nodeAt path = some c →
        (c.hasChildren = true →
          c.children.length = 8 ∧
          ∀ (i : Nat) (child : Node Nat), c.children[i]? = some child →
            c.box.makeSubBoxes[i]? = some child.box) ∧
        (∀ q, c.hasChildren = false → c.point = some q →
          c.box.ContainsPoint q = true ∧
          ∀ path1 path2 a, path = path1 ++ path2 → r.nodeAt path1 = some a →
            a.box.ContainsPoint q = true) :=
  ⟨Octree.sampleSplit_reachable, Octree.children_on_octants _ Octree.sampleSplit_reachable⟩

theorem Octree.sampleSplit_steps :
    Octree.Steps (CreateOctree ⟨1, 1, 1⟩ ⟨0, 0, 0⟩ : Octree Nat) Octree.sampleSplit := by
  have e : (CreateOctree ⟨1, 1, 1⟩ ⟨0, 0, 0⟩ : Octree Nat) = CreateOctree ⟨0, 0, 0⟩ ⟨1, 1, 1⟩ := by
    norm_num [CreateOctree, Vector3f.Min, Vector3f.Max]
  rw [e]
  exact Octree.Steps.add _ _ 1 ⟨0, 0, 0⟩ _
    (Octree.Steps.add _ _ 1 ⟨1, 1, 1⟩ _ Octree.Steps.refl Octree.sampleCorner_add)
    Octree.sampleSplit_add

/-- C12.  For a tree that comes from `CreateOctree(a, b)` by any calls,
`Clear` returns `true` and leaves an empty leaf as root over the box the tree
was created with, which is the box of the root before the call: afterwards
`ElementsAt(p)` is empty for every point, `ElementsIn(box)` is empty for every
box, and `Add` returns a node for exactly the points of that box (outside it
every result is `nil`). -/
theorem Octree.clear_resets {α : Type} [DecidableEq α] (a b : Vector3f) (o : Octree α)
    (h : Octree.Steps (CreateOctree a b) o) :
    o.Clear.2 = true ∧
      (∃ r, o.root = some r ∧ r.box = ⟨a.Min b, a.Max b⟩) ∧
      o.Clear.1.root = some (Node.mk ⟨a.Min b, a.Max b⟩ none [] false []) ∧
      (∀ p, o.Clear.1.ElementsAt p = some []) ∧
      (∀ box, o.Clear.1.ElementsIn box = some []) ∧
      ∀ (v : α) (p : Vector3f),
        ((⟨a.Min b, a.Max b⟩ : Box).ContainsPoint p = true →
          ∃ o' node, o.Clear.1.AddReturns v p o' (some node)) ∧
        ((⟨a.Min b, a.Max b⟩ : Box).ContainsPoint p = false →
          o.Clear.1.AddReturns v p o.Clear.1 none ∧
          ∀ o' node, o.Clear.1.AddReturns v p o' node → node = none) := by
  obtain ⟨hreach, r, hr, hbox⟩ := h.root_box (Octree.Reachable.create a b) rfl
  simp only [CreateOctree, Node.fresh, Node.box_mk] at hbox
  have hroot : o.Clear.1.root = some (Node.mk ⟨a.Min b, a.Max b⟩ none [] false []) := by
    rw [Octree.Clear, hr]
    simp only [Node.fresh, hbox]
  refine ⟨by rw [Octree.Clear, hr], ⟨r, hr, hbox⟩, hroot, ?_, ?_, ?_⟩
  · intro p
    rw [Octree.elementsAt_root hroot, Node.elementsAt_mk]
    rfl
  · intro box
    rw [Octree.elementsIn_root hroot, Node.elementsIn_mk]
    rfl
  · intro v p
    refine ⟨fun hp => ?_, fun hp => ?_⟩
    · obtain ⟨r', path, hret, _⟩ :=
        Octree.addReturns_exists v hroot (Node.WF.fresh _) (by simpa using hp)
      exact ⟨_, _, hret⟩
    · have hout : (Node.mk ⟨a.Min b, a.Max b⟩ none [] false [] : Node α).box.ContainsPoint p =
          false := by simpa using hp
      refine ⟨⟨1, ?_⟩, fun o' node hadd =>
        (Octree.addReturns_outside hroot hout hadd).2⟩
      rw [Octree.Add, hroot]
      simp only
      rw [Node.tryAdd_outside _ _ _ _ hout]
      simp only [Option.map_none', Option.some.injEq, Prod.mk.injEq, and_true]
      rw [← hroot]

theorem Octree.clear_resets_witness :
    Octree.Steps (CreateOctree ⟨1, 1, 1⟩ ⟨0, 0, 0⟩ : Octree Nat) Octree.sampleSplit ∧
      (Octree.sampleSplit.Clear.2 = true ∧
        (∃ r, Octree.sampleSplit.root = some r ∧
          r.box = ⟨(⟨1, 1, 1⟩ : Vector3f).Min ⟨0, 0, 0⟩, (⟨1, 1, 1⟩ : Vector3f).Max ⟨0, 0, 0⟩⟩) ∧
        Octree.sampleSplit.Clear.1.root =
          some (Node.mk ⟨(⟨1, 1, 1⟩ : Vector3f).Min ⟨0, 0, 0⟩,
            (⟨1, 1, 1⟩ : Vector3f).Max ⟨0, 0, 0⟩⟩ none [] false []) ∧
        (∀ p, Octree.sampleSplit.Clear.1.ElementsAt p = some []) ∧
        (∀ box, Octree.sampleSplit.Clear.1.ElementsIn box = some []) ∧
        ∀ (v : Nat) (p : Vector3f),
          ((⟨(⟨1, 1, 1⟩ : Vector3f).Min ⟨0, 0, 0⟩,
              (⟨1, 1, 1⟩ : Vector3f).Max ⟨0, 0, 0⟩⟩ : Box).ContainsPoint p = true →
            ∃ o' node, Octree.sampleSplit.Clear.1.AddReturns v p o' (some node)) ∧
          ((⟨(⟨1, 1, 1⟩ : Vector3f).Min ⟨0, 0, 0⟩,
              (⟨1, 1, 1⟩ : Vector3f).Max ⟨0, 0, 0⟩⟩ : Box).ContainsPoint p = false →
            Octree.sampleSplit.Clear.1.AddReturns v p Octree.sampleSplit.Clear.1 none ∧
            ∀ o' node, Octree.sampleSplit.Clear.1.AddReturns v p o' node → node = none)) :=
  ⟨Octree.sampleSplit_steps,
    Octree.clear_resets ⟨1, 1, 1⟩ ⟨0, 0, 0⟩ Octree.sampleSplit Octree.sampleSplit_steps⟩

theorem Octree.sampleTwice_add :
    Octree.sampleCorner.AddReturns 1 ⟨1, 1, 1⟩ Octree.sampleTwice (some ⟨0, []⟩) := by
  refine ⟨1, ?_⟩
  norm_num [Octree.Add, Octree.sampleCorner, Octree.sampleTwice, Node.tryAdd,
    Box.ContainsPoint]

theorem Octree.sampleTwice_remove :
    Octree.sampleTwice.Remove 1 = some (Octree.sampleCorner, true) := by
  norm_num [Octree.Remove, Octree.sampleTwice, Octree.sampleCorner, Node.remove,
    Node.firstIndex]

theorem Octree.sampleCorner_remove :
    Octree.sampleCorner.Remove 1 = some (Octree.sampleEmptied, true) := by
  norm_num [Octree.Remove, Octree.sampleEmptied, Octree.sampleCorner, Node.remove,
    Node.firstIndex]

/-- C11, as the code has it.  On a tree with a root, `Remove(v)` takes out
one copy of `v` per call: the first call returns `true` exactly when `v` is
stored, an immediately following second call returns `true` exactly when `v`
was stored at least twice; so after a first call that returns `true` the
second returns `false` exactly when `v` was stored once. -/
theorem Octree.remove_twice {α : Type} [DecidableEq α] (o : Octree α) (r : Node α) (v : α)
    (hr : o.root = some r) :
    ∃ o1 b1 o2 b2, o.Remove v = some (o1, b1) ∧ o1.Remove v = some (o2, b2) ∧
      (b1 = true ↔ 1 ≤ r.allElements.count v) ∧
      (b2 = true ↔ 2 ≤ r.allElements.count v) ∧
      (b1 = true → (b2 = false ↔ r.allElements.count v = 1)) := by
  have h1 := Node.remove_allElements v r
  have h2 := Node.remove_allElements v (r.remove v).1
  have hb1 : (r.remove v).2 = true ↔ 1 ≤ r.allElements.count v := by
    rw [h1.1, decide_eq_true_eq, ← List.count_pos_iff]
    exact Iff.rfl
  have hb2 : ((r.remove v).1.remove v).2 = true ↔ 2 ≤ r.allElements.count v := by
    rw [h2.1, decide_eq_true_eq, h1.2, ← List.count_pos_iff, List.count_erase_self]
    omega
  refine ⟨⟨some (r.remove v).1, o.dropped⟩, (r.remove v).2,
    ⟨some ((r.remove v).1.remove v).1, o.dropped⟩, ((r.remove v).1.remove v).2,
    by rw [Octree.Remove, hr]; rfl, rfl, hb1, hb2, ?_⟩
  intro hb
  rw [← Bool.not_eq_true, hb2]
  have := hb1.1 hb
  omega

theorem Octree.remove_twice_witness :
    Octree.sampleCorner.root =
        some (Node.mk ⟨⟨0, 0, 0⟩, ⟨1, 1, 1⟩⟩ (some ⟨1, 1, 1⟩) [1] false []) ∧
      ∃ o1 b1 o2 b2, Octree.sampleCorner.Remove 1 = some (o1, b1) ∧
        o1.Remove 1 = some (o2, b2) ∧
        (b1 = true ↔ 1 ≤ (Node.mk ⟨⟨0, 0, 0⟩, ⟨1, 1, 1⟩⟩ (some ⟨1, 1, 1⟩) [1] false [] :
          Node Nat).allElements.count 1) ∧
        (b2 = true ↔ 2 ≤ (Node.mk ⟨⟨0, 0, 0⟩, ⟨1, 1, 1⟩⟩ (some ⟨1, 1, 1⟩) [1] false [] :
          Node Nat).allElements.count 1) ∧
        (b1 = true → (b2 = false ↔
          (Node.mk ⟨⟨0, 0, 0⟩, ⟨1, 1, 1⟩⟩ (some ⟨1, 1, 1⟩) [1] false [] :
            Node Nat).allElements.count 1 = 1)) :=
  ⟨rfl, Octree.remove_twice Octree.sampleCorner _ 1 rfl⟩

/-- C11 fails as stated.  On the unit cube after `Add(1, (1, 1, 1))` twice,
`Remove(1)` returns `true` and the immediately following `Remove(1)` returns
`true` again. -/
theorem Octree.remove_twice_counterexample :
    (CreateOctree ⟨0, 0, 0⟩ ⟨1, 1, 1⟩ : Octree Nat).AddReturns 1 ⟨1, 1, 1⟩
        Octree.sampleCorner (some ⟨0, []⟩) ∧
      Octree.sampleCorner.AddReturns 1 ⟨1, 1, 1⟩ Octree.sampleTwice (some ⟨0, []⟩) ∧
      Octree.sampleTwice.Remove 1 = some (Octree.sampleCorner, true) ∧
      Octree.sampleCorner.Remove 1 = some (Octree.sampleEmptied, true) ∧
      ¬ ∀ o1 o2 b2, Octree.sampleTwice.Remove 1 = some (o1, true) →
        o1.Remove 1 = some (o2, b2) → b2 = false := by
  refine ⟨Octree.sampleCorner_add, Octree.sampleTwice_add, Octree.sampleTwice_remove,
    Octree.sampleCorner_remove, fun H => ?_⟩
  have := H _ _ _ Octree.sampleTwice_remove Octree.sampleCorner_remove
  cases this

namespace Node

variable {α : Type}

/-! ## Leaves with a point and no values -/

theorem set_getElem?_self {cs : List (Node α)} {i : Nat} {c : Node α} (h : cs[i]? = some c) :
    cs.set i c = cs := by
  obtain ⟨l1, l2, rfl, rfl⟩ := getElem?_split h
  exact set_split l1 l2 c c

/-- A removal at an address that reports failure leaves the node as it
was. -/
theorem removeAt_false [DecidableEq α] (v : α) (path : List Nat) :
    ∀ (n n' : Node α), n.removeAt path v = some (n', false) → n' = n := by
  induction path with
  | nil =>
    intro n n' h
    rw [removeAt] at h
    simp only [Option.some.injEq] at h
    have h2 : (n.remove v).2 = false := by rw [h]
    have h1 := remove_false v n h2
    rw [h] at h1
    exact h1
  | cons i path ih =>
    intro n n' h
    rw [removeAt] at h
    cases hc : n.children[i]? with
    | none => simp [hc] at h
    | some c =>
      rw [hc] at h
      simp only at h
      cases hr : c.removeAt path v with
      | none => simp [hr] at h
      | some x =>
        obtain ⟨c', b⟩ := x
        rw [hr] at h
        simp only [Option.some.injEq, Prod.mk.injEq] at h
        obtain ⟨rfl, rfl⟩ := h
        rw [ih c c' hr, set_getElem?_self hc, mk_eta]

/-- Inserting at least one value keeps every leaf with a point non-empty. -/
theorem Added.nonempty {es : List α} {p : Vector3f} {n n' : Node α} {path : List Nat}
    (h : Added es p n n' path) (hes : es ≠ [])
    (hn : ∀ l ∈ n.leaves, l.point ≠ none → l.elements ≠ []) :
    ∀ l ∈ n'.leaves, l.point ≠ none → l.elements ≠ [] := by
  induction h with
  | store box h =>
    intro l hl _
    rw [leaves_leaf, List.mem_singleton] at hl
    subst hl
    exact hes
  | append box es0 h =>
    intro l hl _
    rw [leaves_leaf, List.mem_singleton] at hl
    subst hl
    simp only [elements_mk, ne_eq, List.append_eq_nil, not_and]
    exact fun _ => hes
  | descend box l1 l2 c c' path h h1 hc hadd ih =>
    intro l hl hpt
    rw [leaves_branch, List.mem_flatMap] at hl
    obtain ⟨d, hd, hld⟩ := hl
    have hsub : ∀ e ∈ l1 ++ c :: l2, ∀ x ∈ e.leaves, x.point ≠ none → x.elements ≠ [] := by
      intro e he x hx
      apply hn
      rw [leaves_branch, List.mem_flatMap]
      exact ⟨e, he, hx⟩
    simp only [List.mem_append, List.mem_cons] at hd
    rcases hd with hd | rfl | hd
    · exact hsub d (by simp [hd]) l hld hpt
    · exact ih (hsub c (by simp)) l hld hpt
    · exact hsub d (by simp [hd]) l hld hpt
  | split box q es0 l1 l2 bi n' path h hne hs h1 hi hadd ih =>
    apply ih
    intro l hl hpt
    rw [leaves_branch, List.mem_flatMap] at hl
    obtain ⟨d, hd, hld⟩ := hl
    simp only [List.mem_append, List.mem_map, List.mem_cons] at hd
    rcases hd with ⟨b, _, rfl⟩ | rfl | ⟨b, _, rfl⟩
    · simp only [fresh, leaves_leaf, List.mem_singleton] at hld
      subst hld
      exact absurd rfl hpt
    · rw [leaves_leaf, List.mem_singleton] at hld
      subst hld
      exact hn (mk box (some q) es0 false []) (by simp [leaves_leaf]) (by simp)
    · simp only [fresh, leaves_leaf, List.mem_singleton] at hld
      subst hld
      exact absurd rfl hpt

end Node

theorem Octree.NothingRemoved.to_reachable {α : Type} [DecidableEq α] {o : Octree α}
    (h : Octree.NothingRemoved o) : Octree.Reachable o := by
  induction h with
  | create min max => exact Octree.Reachable.create min max
  | add o o' element point node _ hadd ih => exact ih.of_addReturns hadd
  | remove o o' element _ hrem ih => exact Octree.Reachable.remove o o' element false ih hrem
  | removeUsing o o' element node _ hrem ih =>
    exact Octree.Reachable.removeUsing o o' element node false ih hrem

/-- C20, as the code has it.  In every tree made by `CreateOctree`, `Add`
calls, and `Remove` and `RemoveUsing` calls that take nothing out, every leaf
that holds a stored point holds at least one value.  (A removal that takes
the last value of a leaf leaves the point of the leaf in place.) -/
theorem Octree.leaf_with_point_has_value {α : Type} [DecidableEq α] (o : Octree α)
    (h : Octree.NothingRemoved o) :
    ∃ r, o.root = some r ∧ ∀ l ∈ r.leaves, l.point ≠ none → l.elements ≠ [] := by
  induction h with
  | create min max =>
    refine ⟨_, rfl, ?_⟩
    intro l hl hpt
    simp only [Node.fresh, Node.leaves_leaf, List.mem_singleton] at hl
    subst hl
    exact absurd rfl hpt
  | add o o' element point node hprev hadd ih =>
    obtain ⟨r, hr, hfull⟩ := ih
    obtain ⟨ra, rb, hra, hrb, _, _, hcase⟩ := Octree.addReturns_root hprev.to_reachable hadd
    rw [hr] at hra
    cases hra
    refine ⟨rb, hrb, ?_⟩
    rcases hcase with ⟨rfl, _, _⟩ | ⟨path, _, _, hadded⟩
    · exact hfull
    · exact hadded.nonempty (by simp) hfull
  | remove o o' element hprev hrem ih =>
    obtain ⟨r, hr, hfull⟩ := ih
    obtain ⟨rfl, hb⟩ := Octree.remove_root hr hrem
    refine ⟨_, rfl, ?_⟩
    rw [Node.remove_false element r hb.symm]
    exact hfull
  | removeUsing o o' element node hprev hrem ih =>
    obtain ⟨r, hr, hfull⟩ := ih
    rcases (Octree.removeUsing_root hr hrem).2 with h2 | ⟨path, r', hrem', h2⟩
    · exact ⟨r, h2, hfull⟩
    · rw [Node.removeAt_false element path r r' hrem'] at h2
      exact ⟨r, h2, hfull⟩

theorem Octree.leaf_with_point_has_value_witness :
    Octree.NothingRemoved Octree.sampleSplit ∧
      ∃ r, Octree.sampleSplit.root = some r ∧
        ∀ l ∈ r.leaves, l.point ≠ none → l.elements ≠ [] :=
  have h : Octree.NothingRemoved Octree.sampleSplit :=
    Octree.NothingRemoved.add _ _ 1 ⟨0, 0, 0⟩ _
      (Octree.NothingRemoved.add _ _ 1 ⟨1, 1, 1⟩ _ (Octree.NothingRemoved.create _ _)
        Octree.sampleCorner_add)
      Octree.sampleSplit_add
  ⟨h, Octree.leaf_with_point_has_value Octree.sampleSplit h⟩

/-- C20 fails as stated.  On the unit cube, `Add(1, (1, 1, 1))` followed by
`Remove(1)` leaves a reachable tree whose root is a leaf that still stores the
point `(1, 1, 1)` and holds no value. -/
theorem Octree.leaf_with_point_has_value_counterexample :
    (CreateOctree ⟨0, 0, 0⟩ ⟨1, 1, 1⟩ : Octree Nat).AddReturns 1 ⟨1, 1, 1⟩
        Octree.sampleCorner (some ⟨0, []⟩) ∧
      Octree.sampleCorner.Remove 1 = some (Octree.sampleEmptied, true) ∧
      Octree.Reachable Octree.sampleEmptied ∧
      ¬ ∀ r, Octree.sampleEmptied.root = some r →
        ∀ l ∈ r.leaves, l.point ≠ none → l.elements ≠ [] := by
  refine ⟨Octree.sampleCorner_add, Octree.sampleCorner_remove,
    Octree.Reachable.remove _ _ 1 true
      ((Octree.Reachable.create _ _).of_addReturns Octree.sampleCorner_add)
      Octree.sampleCorner_remove, fun H => ?_⟩
  have := H _ rfl (Node.mk ⟨⟨0, 0, 0⟩, ⟨1, 1, 1⟩⟩ (some ⟨1, 1, 1⟩) [] false [])
    (by simp [Node.leaves_leaf]) (by simp)
  exact this rfl

namespace Node

variable {α : Type}

/-! ## A removal changes one value list and nothing else -/

theorem nodeAt_mk_cons (b : Box) (pt : Option Vector3f) (e : List α) (h : Bool)
    (cs : List (Node α)) (i : Nat) (rest : List Nat) :
    (mk b pt e h cs).nodeAt (i :: rest) =
      match cs[i]? with
      | some child => child.nodeAt rest
      | none => none := by
  rw [nodeAt_cons]
  rfl

theorem getElem?_split_ne (l1 l2 : List (Node α)) (c c' : Node α) {i : Nat}
    (hi : i ≠ l1.length) : (l1 ++ c' :: l2)[i]? = (l1 ++ c :: l2)[i]? := by
  rw [← set_split l1 l2 c c', List.getElem?_set_ne (Ne.symm hi)]

/-- A removal that reports success has changed the value list of exactly one
leaf, which lost its first entry equal to the value; every node keeps its
frame, and every other node its value list. -/
theorem remove_true_at [DecidableEq α] (v : α) :
    ∀ n : Node α, (n.remove v).2 = true →
      ∃ path l, n.nodeAt path = some l ∧ l.hasChildren = false ∧ v ∈ l.elements ∧
        (n.remove v).1.nodeAt path =
          some (mk l.box l.point (l.elements.erase v) l.hasChildren l.children) ∧
        (∀ path2, ((n.remove v).1.nodeAt path2).map frame = (n.nodeAt path2).map frame) ∧
        ∀ path2, path2 ≠ path →
          ((n.remove v).1.nodeAt path2).map Node.elements =
            (n.nodeAt path2).map Node.elements := by
  apply Node.induct
  intro b pt e h cs ih
  rw [remove_mk]
  cases h with
  | false =>
    simp only [Bool.false_eq_true, if_false]
    have hf := firstIndex_spec v e
    cases hi : firstIndex v e with
    | none => intro hb; cases hb
    | some idx =>
      rw [hi] at hf
      simp only at hf
      intro _
      simp only [hf.2]
      refine ⟨[], mk b pt e false cs, nodeAt_nil _, rfl, hf.1, nodeAt_nil _, ?_, ?_⟩
      · intro path2
        cases path2 with
        | nil => rfl
        | cons i rest => rw [nodeAt_mk_cons, nodeAt_mk_cons]
      · intro path2 hne
        cases path2 with
        | nil => exact absurd rfl hne
        | cons i rest => rw [nodeAt_mk_cons, nodeAt_mk_cons]
  | true =>
    simp only [if_true]
    intro hb
    have hex : ∃ c ∈ cs, (fun c : Node α => (c.remove v).2) c = true := by
      clear ih
      induction cs with
      | nil => simp at hb
      | cons c cs ihc =>
        rw [removeLoop_cons] at hb
        by_cases hc : (c.remove v).2 = true
        · exact ⟨c, List.mem_cons_self _ _, hc⟩
        · rw [if_neg hc] at hb
          obtain ⟨d, hd, hdv⟩ := ihc hb
          exact ⟨d, List.mem_cons_of_mem _ hd, hdv⟩
    obtain ⟨l1, c, l2, rfl, h1, hcv⟩ := List.exists_first_split _ _ hex
    have h1' : ∀ d ∈ l1, (d.remove v).2 = false := h1
    have hcv' : (c.remove v).2 = true := hcv
    rw [removeLoop_split v l1 l2 c h1' hcv']
    obtain ⟨pc, l, hl, hlh, hvl, hl', hfr, hel⟩ := ih c (by simp) hcv'
    refine ⟨l1.length :: pc, l, ?_, hlh, hvl, ?_, ?_, ?_⟩
    · rw [nodeAt_split]; exact hl
    · rw [nodeAt_split]; exact hl'
    · intro path2
      cases path2 with
      | nil => simp [frame]
      | cons i rest =>
        rw [nodeAt_mk_cons, nodeAt_mk_cons]
        by_cases hi : i = l1.length
        · subst hi
          simp only [List.getElem?_append_right (le_refl _), Nat.sub_self,
            List.getElem?_cons_zero]
          exact hfr rest
        · rw [getElem?_split_ne l1 l2 c _ hi]
    · intro path2 hne
      cases path2 with
      | nil => rfl
      | cons i rest =>
        rw [nodeAt_mk_cons, nodeAt_mk_cons]
        by_cases hi : i = l1.length
        · subst hi
          simp only [List.getElem?_append_right (le_refl _), Nat.sub_self,
            List.getElem?_cons_zero]
          exact hel rest fun hr => hne (by rw [hr])
        · rw [getElem?_split_ne l1 l2 c _ hi]

end Node

/-- C19.  On a tree with a root (in particular on every reachable tree), for
every value `v`, `Remove(v)` never changes the shape of the tree: at every
address there is a node after the call exactly when there was one before, with
the same box, stored point, leaf/branch flag and number of children.  When the
call returns `false` nothing at all changes.  When it returns `true` one leaf
has lost the first entry of its value list equal to `v`, and the value list of
every other node is as it was. -/
theorem Octree.remove_keeps_shape {α : Type} [DecidableEq α] (o : Octree α) (r : Node α)
    (v : α) (hr : o.root = some r) :
    ∃ o' b r', o.Remove v = some (o', b) ∧ o'.root = some r' ∧ o'.dropped = o.dropped ∧
      (∀ path, (r'.nodeAt path).map Node.frame = (r.nodeAt path).map Node.frame) ∧
      (b = false → o' = o) ∧
      (b = true → ∃ path l, r.nodeAt path = some l ∧ l.hasChildren = false ∧
        v ∈ l.elements ∧
        r'.nodeAt path =
          some (Node.mk l.box l.point (l.elements.erase v) l.hasChildren l.children) ∧
        (l.elements.erase v).length + 1 = l.elements.length ∧
        ∀ path2, path2 ≠ path →
          (r'.nodeAt path2).map Node.elements = (r.nodeAt path2).map Node.elements) := by
  refine ⟨⟨some (r.remove v).1, o.dropped⟩, (r.remove v).2, (r.remove v).1,
    by rw [Octree.Remove, hr]; rfl, rfl, rfl, ?_, ?_, ?_⟩
  · intro path
    cases hb : (r.remove v).2 with
    | false => rw [Node.remove_false v r hb]
    | true =>
      obtain ⟨_, _, _, _, _, _, hfr, _⟩ := Node.remove_true_at v r hb
      exact hfr path
  · intro hb
    rw [Node.remove_false v r hb, ← hr]
  · intro hb
    obtain ⟨path, l, hl, hlh, hvl, hl', _, hel⟩ := Node.remove_true_at v r hb
    refine ⟨path, l, hl, hlh, hvl, hl', ?_, hel⟩
    rw [List.length_erase_of_mem hvl]
    have := List.length_pos_of_mem hvl
    omega

theorem Octree.remove_keeps_shape_witness :
    Octree.sampleCorner.root =
        some (Node.mk ⟨⟨0, 0, 0⟩, ⟨1, 1, 1⟩⟩ (some ⟨1, 1, 1⟩) [1] false []) ∧
      ∃ o' b r', Octree.sampleCorner.Remove 1 = some (o', b) ∧ o'.root = some r' ∧
        o'.dropped = Octree.sampleCorner.dropped ∧
        (∀ path, (r'.nodeAt path).map Node.frame =
          ((Node.mk ⟨⟨0, 0, 0⟩, ⟨1, 1, 1⟩⟩ (some ⟨1, 1, 1⟩) [1] false [] :
            Node Nat).nodeAt path).map Node.frame) ∧
        (b = false → o' = Octree.sampleCorner) ∧
        (b = true → ∃ path l,
          (Node.mk ⟨⟨0, 0, 0⟩, ⟨1, 1, 1⟩⟩ (some ⟨1, 1, 1⟩) [1] false [] :
            Node Nat).nodeAt path = some l ∧ l.hasChildren = false ∧
          1 ∈ l.elements ∧
          r'.nodeAt path =
            some (Node.mk l.box l.point (l.elements.erase 1) l.hasChildren l.children) ∧
          (l.elements.erase 1).length + 1 = l.elements.length ∧
          ∀ path2, path2 ≠ path →
            (r'.nodeAt path2).map Node.elements =
              ((Node.mk ⟨⟨0, 0, 0⟩, ⟨1, 1, 1⟩⟩ (some ⟨1, 1, 1⟩) [1] false [] :
                Node Nat).nodeAt path2).map Node.elements) :=
  ⟨rfl, Octree.remove_keeps_shape Octree.sampleCorner _ 1 rfl⟩

theorem List.first_split_unique {β : Type} (P : β → Bool) :
    ∀ (l1 m1 l2 m2 : List β) (c d : β), l1 ++ c :: l2 = m1 ++ d :: m2 →
      (∀ x ∈ l1, P x = false) → P c = true → (∀ x ∈ m1, P x = false) → P d = true →
      l1 = m1 ∧ c = d ∧ l2 = m2 := by
  intro l1
  induction l1 with
  | nil =>
    intro m1 l2 m2 c d h _ hc hm1 _
    cases m1 with
    | nil =>
      simp only [List.nil_append, List.cons.injEq] at h
      exact ⟨rfl, h.1, h.2⟩
    | cons y m1 =>
      simp only [List.nil_append, List.cons_append, List.cons.injEq] at h
      have := hm1 y (List.mem_cons_self _ _)
      rw [← h.1, hc] at this
      cases this
  | cons x l1 ih =>
    intro m1 l2 m2 c d h hl1 hc hm1 hd
    cases m1 with
    | nil =>
      simp only [List.nil_append, List.cons_append, List.cons.injEq] at h
      have := hl1 x (List.mem_cons_self _ _)
      rw [h.1, hd] at this
      cases this
    | cons y m1 =>
      simp only [List.cons_append, List.cons.injEq] at h
      obtain ⟨e1, e2, e3⟩ := ih m1 l2 m2 c d h.2
        (fun z hz => hl1 z (List.mem_cons_of_mem _ hz)) hc
        (fun z hz => hm1 z (List.mem_cons_of_mem _ hz)) hd
      exact ⟨by rw [h.1, e1], e2, e3⟩

namespace Node

variable {α : Type}

/-! ## An insertion that arrives at a leaf storing another point -/

/-- What an insertion does to a branch. -/
theorem Added.of_branch {es : List α} {p : Vector3f} {n n' : Node α} {leaf : List Nat}
    (h : Added es p n n' leaf) (hh : n.hasChildren = true) :
    ∃ l1 l2 c c' rest, n.children = l1 ++ c :: l2 ∧ n'.children = l1 ++ c' :: l2 ∧
      (∀ d ∈ l1, d.box.ContainsPoint p = false) ∧ c.box.ContainsPoint p = true ∧
      Added es p c c' rest ∧ leaf = l1.length :: rest ∧ n'.hasChildren = true := by
  cases h with
  | store box h => cases hh
  | append box es0 h => cases hh
  | descend box l1 l2 c c' path h h1 hc hadd =>
    exact ⟨l1, l2, c, c', path, rfl, rfl, h1, hc, hadd, rfl, rfl⟩
  | split box q es0 l1 l2 bi n0 path h hne hs h1 hi hadd => cases hh

/-- A leaf that stores another point becomes a branch, and the returned leaf
lies strictly below it. -/
theorem Added.becomes_branch {es : List α} {p q : Vector3f} {n n' : Node α} {leaf : List Nat}
    (h : Added es p n n' leaf) (hh : n.hasChildren = false) (hq : n.point = some q)
    (hne : q ≠ p) : n'.hasChildren = true ∧ leaf ≠ [] := by
  cases h with
  | store box h => cases hq
  | append box es0 h =>
    simp only [point_mk, Option.some.injEq] at hq
    exact absurd hq.symm hne
  | descend box l1 l2 c c' path h h1 hc hadd => cases hh
  | split box q0 es0 l1 l2 bi n0 path h hne' hs h1 hi hadd =>
    obtain ⟨_, _, _, _, rest, _, _, _, _, _, hleaf, hb⟩ := hadd.of_branch rfl
    exact ⟨hb, by rw [hleaf]; simp⟩

/-- An insertion follows the way of `tryAdd`: the node at an address on the
way is changed by the insertion into it. -/
theorem Added.routed {es : List α} {p : Vector3f} {n : Node α} {path : List Nat}
    (hr : Routed p n path) :
    ∀ (n' : Node α) (leaf : List Nat), Added es p n n' leaf →
      ∀ t, n.nodeAt path = some t →
        ∃ t' rest, n'.nodeAt path = some t' ∧ Added es p t t' rest ∧ leaf = path ++ rest := by
  induction hr with
  | here n =>
    intro n' leaf hadd t ht
    simp only [nodeAt_nil, Option.some.injEq] at ht
    subst ht
    exact ⟨n', leaf, nodeAt_nil _, hadd, rfl⟩
  | step box pt e l1 l2 c path h h1 hc _ ih =>
    intro n' leaf hadd t ht
    obtain ⟨m1, m2, c0, c0', rest0, hch, hch', hm1, hc0, hadd0, hleaf, _⟩ :=
      hadd.of_branch rfl
    simp only [children_mk] at hch
    obtain ⟨rfl, rfl, rfl⟩ := List.first_split_unique
      (fun d : Node α => d.box.ContainsPoint p) l1 m1 l2 m2 c c0 hch h1 hc hm1 hc0
    rw [nodeAt_split] at ht
    obtain ⟨t', rest, ht', haddt, hrest⟩ := ih c0' rest0 hadd0 t ht
    refine ⟨t', rest, ?_, haddt, ?_⟩
    · rw [nodeAt_cons, hch']
      simp only [List.getElem?_append_right (le_refl _), Nat.sub_self, List.getElem?_cons_zero]
      exact ht'
    · rw [hleaf, hrest]
      rfl

/-- The box of the first node on the way contains the point, if the box of
the last one does. -/
theorem Routed.root_contains {p : Vector3f} {n : Node α} {path : List Nat}
    (hr : Routed p n path) {t : Node α} (ht : n.nodeAt path = some t)
    (hin : t.box.ContainsPoint p = true) : n.box.ContainsPoint p = true := by
  cases hr with
  | here =>
    simp only [nodeAt_nil, Option.some.injEq] at ht
    rw [ht]
    exact hin
  | step box pt e l1 l2 c path h h1 hc hr' => exact h

theorem mem_leaves_self {l : Node α} (h : l.hasChildren = false) : l ∈ l.leaves := by
  cases l with
  | mk b pt e hc cs =>
    simp only [hasChildren_mk] at h
    subst h
    simp [leaves_leaf]

end Node

namespace Octree

variable {α : Type}

theorem add_mono {o : Octree α} {v : α} {p : Vector3f} {f1 f2 : Nat} (hle : f1 ≤ f2)
    {x : Octree α × Option NodeRef} (h : o.Add f1 v p = some x) : o.Add f2 v p = some x := by
  rw [Add] at h ⊢
  cases hr : o.root with
  | none => simp [hr] at h
  | some r =>
    rw [hr] at h
    simp only at h ⊢
    cases ht : r.tryAdd f1 [v] p with
    | none => simp [ht] at h
    | some y =>
      rw [Node.tryAdd_mono f1 f2 hle r [v] p y ht]
      rw [ht] at h
      exact h

/-- Every result of `Add` is the one computed with a given amount of
fuel. -/
theorem addReturns_eq_of_add {o o' : Octree α} {v : α} {p : Vector3f} {f : Nat}
    {x : Octree α × Option NodeRef} {node : Option NodeRef} (h : o.Add f v p = some x)
    (hadd : o.AddReturns v p o' node) : x = (o', node) := by
  obtain ⟨f', hf'⟩ := hadd
  have e1 := add_mono (le_max_left f f') h
  have e2 := add_mono (le_max_right f f') hf'
  rw [e1] at e2
  exact Option.some.inj e2

end Octree

theorem Octree.sampleTwo_reachable : Octree.Reachable Octree.sampleTwo :=
  ((Octree.Reachable.create _ _).of_addReturns Octree.sampleCorner_add).of_addReturns
    Octree.sampleTwo_add

theorem Box.makeSubBoxes_eq (b : Box) :
    b.makeSubBoxes =
      [ b.octant false false false, b.octant true false false, b.octant false true false,
        b.octant true true false, b.octant false false true, b.octant true false true,
        b.octant false true true, b.octant true true true ] := by
  have ex : (b.max.x - b.min.x) * (1 / 2) + b.min.x = (b.min.x + b.max.x) / 2 := by ring
  have ey : (b.max.y - b.min.y) * (1 / 2) + b.min.y = (b.min.y + b.max.y) / 2 := by ring
  have ez : (b.max.z - b.min.z) * (1 / 2) + b.min.z = (b.min.z + b.max.z) / 2 := by ring
  simp only [Box.makeSubBoxes, Vector3f.Lerp, Box.octant, Box.midpoint, ex, ey, ez, if_true,
    if_false, Bool.false_eq_true]

/-- C22.  For every box with `min[i] <= max[i]` on all axes, `makeSubBoxes`
returns the eight octants of the box split at the midpoint `(min + max) / 2`,
in the order low/low/low, high/low/low, low/high/low, high/high/low,
low/low/high, high/low/high, low/high/high, high/high/high in (x, y, z); each
of the eight is contained in the box, and a point is contained in the box
exactly when it is contained in at least one of the eight. -/
theorem Box.makeSubBoxes_octants (b : Box) (hb : b.Ordered) :
    b.makeSubBoxes =
        [ b.octant false false false, b.octant true false false, b.octant false true false,
          b.octant true true false, b.octant false false true, b.octant true false true,
          b.octant false true true, b.octant true true true ] ∧
      b.makeSubBoxes.length = 8 ∧
      (∀ s ∈ b.makeSubBoxes, b.Contains s = true ∧ s.IsContainedIn b = true) ∧
      ∀ p, b.ContainsPoint p = true ↔ ∃ s ∈ b.makeSubBoxes, s.ContainsPoint p = true := by
  refine ⟨Box.makeSubBoxes_eq b, rfl, ?_, ?_⟩
  · intro s hs
    have hso : s.Ordered := hb.subBox hs
    have h1 := (Box.containsPoint_iff _ _).1 (Box.subBox_subset b s s.min hs hso.min_mem)
    have h2 := (Box.containsPoint_iff _ _).1 (Box.subBox_subset b s s.max hs hso.max_mem)
    have hc : b.Contains s = true := by
      rw [Box.contains_iff]
      exact ⟨⟨h1.1.1, h2.1.2⟩, ⟨h1.2.1.1, h2.2.1.2⟩, h1.2.2.1, h2.2.2.2⟩
    exact ⟨hc, hc⟩
  · intro p
    constructor
    · exact Box.exists_subBox b p
    · rintro ⟨s, hs, hp⟩
      exact Box.subBox_subset b s p hs hp

theorem Box.makeSubBoxes_octants_witness :
    (⟨⟨0, 0, 0⟩, ⟨1, 1, 1⟩⟩ : Box).Ordered ∧
      (⟨⟨0, 0, 0⟩, ⟨1, 1, 1⟩⟩ : Box).makeSubBoxes =
        [ (⟨⟨0, 0, 0⟩, ⟨1, 1, 1⟩⟩ : Box).octant false false false,
          (⟨⟨0, 0, 0⟩, ⟨1, 1, 1⟩⟩ : Box).octant true false false,
          (⟨⟨0, 0, 0⟩, ⟨1, 1, 1⟩⟩ : Box).octant false true false,
          (⟨⟨0, 0, 0⟩, ⟨1, 1, 1⟩⟩ : Box).octant true true false,
          (⟨⟨0, 0, 0⟩, ⟨1, 1, 1⟩⟩ : Box).octant false false true,
          (⟨⟨0, 0, 0⟩, ⟨1, 1, 1⟩⟩ : Box).octant true false true,
          (⟨⟨0, 0, 0⟩, ⟨1, 1, 1⟩⟩ : Box).octant false true true,
          (⟨⟨0, 0, 0⟩, ⟨1, 1, 1⟩⟩ : Box).octant true true true ] ∧
      (⟨⟨0, 0, 0⟩, ⟨1, 1, 1⟩⟩ : Box).makeSubBoxes.length = 8 ∧
      (∀ s ∈ (⟨⟨0, 0, 0⟩, ⟨1, 1, 1⟩⟩ : Box).makeSubBoxes,
        (⟨⟨0, 0, 0⟩, ⟨1, 1, 1⟩⟩ : Box).Contains s = true ∧
          s.IsContainedIn ⟨⟨0, 0, 0⟩, ⟨1, 1, 1⟩⟩ = true) ∧
      ∀ p, (⟨⟨0, 0, 0⟩, ⟨1, 1, 1⟩⟩ : Box).ContainsPoint p = true ↔
        ∃ s ∈ (⟨⟨0, 0, 0⟩, ⟨1, 1, 1⟩⟩ : Box).makeSubBoxes, s.ContainsPoint p = true :=
  ⟨by norm_num [Box.Ordered],
    Box.makeSubBoxes_octants ⟨⟨0, 0, 0⟩, ⟨1, 1, 1⟩⟩ (by norm_num [Box.Ordered])⟩

namespace Node

variable {α : Type}

/-! ## An insertion at a point that is stored already -/

/-- What an insertion does to a branch: the node before and the node
after. -/
theorem Added.branch_eq {es : List α} {p : Vector3f} {n n' : Node α} {leaf : List Nat}
    (h : Added es p n n' leaf) (hh : n.hasChildren = true) :
    ∃ box l1 l2 c c' rest, n = mk box none [] true (l1 ++ c :: l2) ∧
      n' = mk box none [] true (l1 ++ c' :: l2) ∧
      (∀ d ∈ l1, d.box.ContainsPoint p = false) ∧ c.box.ContainsPoint p = true ∧
      Added es p c c' rest ∧ leaf = l1.length :: rest := by
  cases h with
  | store box h => cases hh
  | append box es0 h => cases hh
  | descend box l1 l2 c c' path h h1 hc hadd =>
    exact ⟨box, l1, l2, c, c', path, rfl, rfl, h1, hc, hadd, rfl⟩
  | split box q es0 l1 l2 bi n0 path h hne hs h1 hi hadd => cases hh

/-- An insertion at the point of the leaf it arrives at appends to the value
list of that leaf and changes nothing else. -/
theorem Added.append_at {es : List α} {p : Vector3f} {n : Node α} {path : List Nat}
    (hr : Routed p n path) :
    ∀ (n' : Node α) (leaf : List Nat), Added es p n n' leaf →
      ∀ (b : Box) (es0 : List α), n.nodeAt path = some (mk b (some p) es0 false []) →
        leaf = path ∧ n'.nodeAt path = some (mk b (some p) (es0 ++ es) false []) ∧
        (∀ path2, (n'.nodeAt path2).map frame = (n.nodeAt path2).map frame) ∧
        ∀ path2, path2 ≠ path →
          (n'.nodeAt path2).map Node.elements = (n.nodeAt path2).map Node.elements := by
  induction hr with
  | here n =>
    intro n' leaf hadd b es0 ht
    simp only [nodeAt_nil, Option.some.injEq] at ht
    subst ht
    cases hadd with
    | append box es1 h =>
      refine ⟨rfl, nodeAt_nil _, ?_, ?_⟩
      · intro path2
        cases path2 with
        | nil => simp [frame]
        | cons i rest => simp [nodeAt_mk_cons]
      · intro path2 hne
        cases path2 with
        | nil => exact absurd rfl hne
        | cons i rest => simp [nodeAt_mk_cons]
    | split box q es1 l1 l2 bi n0 path h hne hs h1 hi hadd => exact absurd rfl hne
  | step box pt e l1 l2 c path h h1 hc _ ih =>
    intro n' leaf hadd b es0 ht
    obtain ⟨box0, m1, m2, c0, c0', rest0, hn, hn', hm1, hc0, hadd0, hleaf⟩ :=
      hadd.branch_eq rfl
    simp only [mk.injEq] at hn
    obtain ⟨rfl, rfl, rfl, _, hch⟩ := hn
    obtain ⟨rfl, rfl, rfl⟩ := List.first_split_unique
      (fun d : Node α => d.box.ContainsPoint p) l1 m1 l2 m2 c c0 hch h1 hc hm1 hc0
    subst hn'
    rw [nodeAt_split] at ht
    obtain ⟨hl, hat, hfr, hel⟩ := ih c0' rest0 hadd0 b es0 ht
    refine ⟨by rw [hleaf, hl], by rw [nodeAt_split]; exact hat, ?_, ?_⟩
    · intro path2
      cases path2 with
      | nil => simp [frame]
      | cons i rest =>
        by_cases hi : i = l1.length
        · subst hi
          rw [nodeAt_split, nodeAt_split]
          exact hfr rest
        · rw [nodeAt_mk_cons, nodeAt_mk_cons, getElem?_split_ne l1 l2 c c0' hi]
    · intro path2 hne
      cases path2 with
      | nil => simp
      | cons i rest =>
        by_cases hi : i = l1.length
        · subst hi
          rw [nodeAt_split, nodeAt_split]
          exact hel rest (fun hrest => hne (by rw [hrest]))
        · rw [nodeAt_mk_cons, nodeAt_mk_cons, getElem?_split_ne l1 l2 c c0' hi]

/-- In a well-formed node the way of `tryAdd` for a stored point leads to
every node that stores the point below it. -/
theorem WF.routed_of_stores {n : Node α} (hwf : WF n) (p : Vector3f) :
    ∀ (path : List Nat) (l : Node α), n.nodeAt path = some l → l.Stores p →
      Routed p n path := by
  intro path
  induction path generalizing n with
  | nil => intro l _ _; exact Routed.here n
  | cons i rest ih =>
    intro l hl hst
    obtain ⟨_, hsub⟩ := hwf.nodeAt (i :: rest) l hl
    have hnst : n.Stores p := by
      obtain ⟨x, hx, hxp⟩ := hst
      exact ⟨x, hsub x hx, hxp⟩
    have hnin := hwf.stores_in_box p hnst
    rw [nodeAt_cons] at hl
    cases hci : n.children[i]? with
    | none => simp [hci] at hl
    | some c =>
      rw [hci] at hl
      simp only at hl
      obtain ⟨l1, l2, hcs, hlen⟩ := getElem?_split hci
      have hcmem : c ∈ n.children := List.getElem?_mem hci
      obtain ⟨hwc, _⟩ := hwf.child hcmem
      obtain ⟨_, hsubc⟩ := hwc.nodeAt rest l hl
      have hcst : c.Stores p := by
        obtain ⟨x, hx, hxp⟩ := hst
        exact ⟨x, hsubc x hx, hxp⟩
      cases hwf with
      | leaf box point elements hp he => cases hcmem
      | branch box children hb hw hpw =>
        simp only [children_mk] at hcs
        subst hcs
        rw [← hlen]
        refine Routed.step box none [] l1 l2 c rest hnin ?_ (hwc.stores_in_box p hcst)
          (ih hwc l hl hst)
        intro d hd
        rw [List.pairwise_append] at hpw
        exact hpw.2.2 d hd c (List.mem_cons_self _ _) p hcst

theorem Routed.cons_inv {p : Vector3f} {n : Node α} {i : Nat} {rest : List Nat}
    (h : Routed p n (i :: rest)) :
    ∃ box pt e l1 l2 c, n = mk box pt e true (l1 ++ c :: l2) ∧ i = l1.length ∧
      (∀ d ∈ l1, d.box.ContainsPoint p = false) ∧ c.box.ContainsPoint p = true ∧
      Routed p c rest := by
  generalize hpath : i :: rest = path at h
  cases h with
  | here => cases hpath
  | step box pt e l1 l2 c path0 h h1 hc hr =>
    simp only [List.cons.injEq] at hpath
    obtain ⟨rfl, rfl⟩ := hpath
    exact ⟨box, pt, e, l1, l2, c, rfl, rfl, h1, hc, hr⟩

/-- The way of `tryAdd` for a point ends at one leaf only. -/
theorem Routed.unique_leaf {p : Vector3f} :
    ∀ (path1 path2 : List Nat) (n t1 t2 : Node α), Routed p n path1 → Routed p n path2 →
      n.nodeAt path1 = some t1 → n.nodeAt path2 = some t2 →
      t1.hasChildren = false → t2.hasChildren = false → path1 = path2 := by
  intro path1
  induction path1 with
  | nil =>
    intro path2 n t1 t2 _ h2 e1 _ f1 _
    cases path2 with
    | nil => rfl
    | cons j r2 =>
      obtain ⟨box, pt, e, l1, l2, c, rfl, _⟩ := h2.cons_inv
      simp only [nodeAt_nil, Option.some.injEq] at e1
      subst e1
      cases f1
  | cons i r1 ih =>
    intro path2 n t1 t2 h1 h2 e1 e2 f1 f2
    obtain ⟨box, pt, e, l1, l2, c, rfl, rfl, hl1, hc, hr1⟩ := h1.cons_inv
    cases path2 with
    | nil =>
      simp only [nodeAt_nil, Option.some.injEq] at e2
      subst e2
      cases f2
    | cons j r2 =>
      obtain ⟨box', pt', e', m1, m2, d, hn, rfl, hm1, hd, hr2⟩ := h2.cons_inv
      simp only [mk.injEq] at hn
      obtain ⟨_, _, _, _, hch⟩ := hn
      obtain ⟨rfl, rfl, rfl⟩ := List.first_split_unique
        (fun x : Node α => x.box.ContainsPoint p) l1 m1 l2 m2 c d hch hl1 hc hm1 hd
      rw [nodeAt_split] at e1 e2
      rw [ih r2 c t1 t2 hr1 hr2 e1 e2 f1 f2]

end Node

/-- C21.  On a reachable tree, for every leaf that stores a point `p`: `p` is
in bounds, the leaf is the one that `tryAdd` reaches for `p`, and `Add(v, p)`
returns that leaf and only appends `v` to its value list, however many values
it holds.  At every address there is a node after the call exactly when there
was one before (no node is created), with the same box, stored point,
leaf/branch flag and number of children; the value list of every node other
than that leaf is as it was. -/
theorem Octree.add_same_point_appends {α : Type} [DecidableEq α] (o : Octree α)
    (r l : Node α) (v : α) (p : Vector3f) (path : List Nat) (h : Octree.Reachable o)
    (hr : o.root = some r) (hl : r.nodeAt path = some l) (hleaf : l.hasChildren = false)
    (hp : l.point = some p) :
    r.box.ContainsPoint p = true ∧ Node.Routed p r path ∧
      ∃ o' r', o.AddReturns v p o' (some ⟨o.dropped.length, path⟩) ∧
        (∀ o2 node2, o.AddReturns v p o2 node2 →
          o2 = o' ∧ node2 = some ⟨o.dropped.length, path⟩) ∧
        o'.root = some r' ∧ o'.dropped = o.dropped ∧
        r'.nodeAt path = some (Node.mk l.box (some p) (l.elements ++ [v]) false []) ∧
        (∀ path2, (r'.nodeAt path2).map Node.frame = (r.nodeAt path2).map Node.frame) ∧
        ∀ path2, path2 ≠ path →
          (r'.nodeAt path2).map Node.elements = (r.nodeAt path2).map Node.elements := by
  obtain ⟨r0, hr0, hwf⟩ := h.root_wf
  rw [hr] at hr0
  cases hr0
  obtain ⟨hwfl, hsub⟩ := hwf.nodeAt path l hl
  have hlself : l ∈ l.leaves := Node.mem_leaves_self hleaf
  have hroute : Node.Routed p r path := hwf.routed_of_stores p path l hl ⟨l, hlself, hp⟩
  have hrin : r.box.ContainsPoint p = true := hwf.stores_in_box p ⟨l, hsub l hlself, hp⟩
  obtain ⟨r', leaf, l0, hret, huniq, hadded, _⟩ := Octree.add_inside_core v hr hwf hrin
  have hleq : l = Node.mk l.box (some p) l.elements false [] := by
    cases hwfl with
    | leaf box point elements hpt he =>
      simp only [Node.point_mk] at hp
      rw [hp]
      rfl
    | branch box children hb hw hpw => cases hleaf
  rw [hleq] at hl
  obtain ⟨hpath, hat, hfr, hel⟩ :=
    Node.Added.append_at hroute r' leaf hadded l.box l.elements hl
  subst hpath
  exact ⟨hrin, hroute, _, r', hret, huniq, rfl, rfl, hat, hfr, hel⟩

theorem Octree.add_same_point_appends_witness :
    Octree.Reachable Octree.sampleTwo ∧
      ∃ r l, Octree.sampleTwo.root = some r ∧ r.nodeAt [7] = some l ∧
        l.hasChildren = false ∧ l.point = some ⟨1, 1, 1⟩ ∧
        r.box.ContainsPoint ⟨1, 1, 1⟩ = true ∧ Node.Routed (⟨1, 1, 1⟩ : Vector3f) r [7] ∧
        ∃ o' r', Octree.sampleTwo.AddReturns 5 ⟨1, 1, 1⟩ o'
            (some ⟨Octree.sampleTwo.dropped.length, [7]⟩) ∧
          (∀ o2 node2, Octree.sampleTwo.AddReturns 5 ⟨1, 1, 1⟩ o2 node2 →
            o2 = o' ∧ node2 = some ⟨Octree.sampleTwo.dropped.length, [7]⟩) ∧
          o'.root = some r' ∧ o'.dropped = Octree.sampleTwo.dropped ∧
          r'.nodeAt [7] =
            some (Node.mk l.box (some ⟨1, 1, 1⟩) (l.elements ++ [5]) false []) ∧
          (∀ path2, (r'.nodeAt path2).map Node.frame = (r.nodeAt path2).map Node.frame) ∧
          ∀ path2, path2 ≠ [7] →
            (r'.nodeAt path2).map Node.elements = (r.nodeAt path2).map Node.elements :=
  ⟨Octree.sampleTwo_reachable, _, _, rfl, rfl, rfl, rfl,
    Octree.add_same_point_appends Octree.sampleTwo _ _ 5 ⟨1, 1, 1⟩ [7]
      Octree.sampleTwo_reachable rfl rfl rfl rfl⟩

/-! ## The depth of nested subdivisions -/

/-- Every octant has half the side of the box on every axis. -/
theorem Box.side_subBox (b s : Box) (hs : s ∈ b.makeSubBoxes) :
    s.max.x - s.min.x = (b.max.x - b.min.x) / 2 ∧ s.max.y - s.min.y = (b.max.y - b.min.y) / 2 ∧
      s.max.z - s.min.z = (b.max.z - b.min.z) / 2 := by
  obtain ⟨lx, ly, lz, rfl⟩ := Box.mem_makeSubBoxes b s hs
  cases lx <;> cases ly <;> cases lz <;>
    simp only [if_true, if_false, Bool.false_eq_true] <;>
    refine ⟨?_, ?_, ?_⟩ <;> ring

/-- Two points of a box are no further apart on an axis than the side of the
box on that axis. -/
theorem Box.dist_le_side (b : Box) (p q : Vector3f) (hp : b.ContainsPoint p = true)
    (hq : b.ContainsPoint q = true) :
    |p.x - q.x| ≤ b.max.x - b.min.x ∧ |p.y - q.y| ≤ b.max.y - b.min.y ∧
      |p.z - q.z| ≤ b.max.z - b.min.z := by
  rw [Box.containsPoint_iff] at hp hq
  obtain ⟨⟨hx1, hx2⟩, ⟨hy1, hy2⟩, hz1, hz2⟩ := hp
  obtain ⟨⟨kx1, kx2⟩, ⟨ky1, ky2⟩, kz1, kz2⟩ := hq
  exact ⟨abs_le.2 ⟨by linarith, by linarith⟩, abs_le.2 ⟨by linarith, by linarith⟩,
    abs_le.2 ⟨by linarith, by linarith⟩⟩

namespace Node

variable {α : Type}

theorem Added.inside {es : List α} {p : Vector3f} {n n' : Node α} {path : List Nat}
    (h : Added es p n n' path) : n.box.ContainsPoint p = true := by
  cases h with
  | store box h => exact h
  | append box es0 h => exact h
  | descend box l1 l2 c c' path h h1 hc hadd => exact h
  | split box q es0 l1 l2 bi n0 path h hne hs h1 hi hadd => exact h

theorem Added.of_fresh {es : List α} {p : Vector3f} {b : Box} {n' : Node α} {path : List Nat}
    (h : Added es p (fresh b) n' path) : path = [] := by
  generalize hn : (fresh b : Node α) = n at h
  cases h with
  | store box h => rfl
  | append box es0 h => rfl
  | descend box l1 l2 c c' path h h1 hc hadd => simp [fresh] at hn
  | split box q es0 l1 l2 bi n0 path h hne hs h1 hi hadd => simp [fresh] at hn

/-- The chain of nested subdivisions is finite: when a leaf that stores `q`
receives a different point `p` and the new leaf ends up `k` levels below it,
then on every axis `2 ^ (k - 1)` times the distance of the two points is at
most the side of the leaf's box. -/
theorem Added.depth_bound {es : List α} {p : Vector3f} :
    ∀ (path : List Nat) (box : Box) (q : Vector3f) (es0 : List α) (n' : Node α),
      Added es p (mk box (some q) es0 false []) n' path → q ≠ p →
      box.ContainsPoint q = true →
      2 ^ (path.length - 1) * |q.x - p.x| ≤ box.max.x - box.min.x ∧
        2 ^ (path.length - 1) * |q.y - p.y| ≤ box.max.y - box.min.y ∧
        2 ^ (path.length - 1) * |q.z - p.z| ≤ box.max.z - box.min.z := by
  intro path
  induction path with
  | nil =>
    intro box q es0 n' hadd _ hq
    have := Box.dist_le_side box q p hq hadd.inside
    simpa using this
  | cons i rest ih =>
    intro box q es0 n' hadd hne hq
    have hp := hadd.inside
    simp only [box_mk] at hp
    have hbase := Box.dist_le_side box q p hq hp
    cases hadd with
    | split box0 q0 es1 l1 l2 bi n0 path0 h hne0 hs h1 hi hadd0 =>
      obtain ⟨m1, m2, c, c', rest', hch, _, _, hc, haddc, hleaf, _⟩ := hadd0.of_branch rfl
      simp only [children_mk] at hch
      simp only [List.cons.injEq] at hleaf
      obtain ⟨_, rfl⟩ := hleaf
      have hcmem : c ∈ (l1.map fun b => (fresh b : Node α)) ++
          mk bi (some q) es0 false [] :: l2.map fun b => fresh b := by
        rw [hch]
        simp
      have hbi : bi ∈ box.makeSubBoxes := by
        rw [hs]
        simp
      simp only [List.mem_append, List.mem_map, List.mem_cons] at hcmem
      have hfresh : ∀ b : Box, (fresh b : Node α) = c →
          2 ^ ((i :: rest).length - 1) * |q.x - p.x| ≤ box.max.x - box.min.x ∧
            2 ^ ((i :: rest).length - 1) * |q.y - p.y| ≤ box.max.y - box.min.y ∧
            2 ^ ((i :: rest).length - 1) * |q.z - p.z| ≤ box.max.z - box.min.z := by
        intro b hb
        rw [← hb] at haddc
        have := haddc.of_fresh
        subst this
        simpa using hbase
      rcases hcmem with ⟨b, _, hb⟩ | rfl | ⟨b, _, hb⟩
      · exact hfresh b hb
      · simp only [box_mk] at hc
        obtain ⟨sx, sy, sz⟩ := Box.side_subBox box bi hbi
        obtain ⟨ix, iy, iz⟩ := ih bi q es0 c' haddc hne hi
        rw [sx] at ix
        rw [sy] at iy
        rw [sz] at iz
        cases rest with
        | nil => simpa using hbase
        | cons j rest2 =>
          simp only [List.length_cons, Nat.add_sub_cancel] at ix iy iz ⊢
          rw [pow_succ]
          refine ⟨?_, ?_, ?_⟩ <;> linarith
      · exact hfresh b hb

end Node

/-- C23.  With exact coordinates, `Add(v, p)` terminates on every reachable
tree for every point `p`: from some amount of fuel on the call has one and the
same result.  When the call arrives at a leaf that stores a different point
`p1`, the new leaf ends up a finite number `k >= 1` of levels below that leaf
with `2 ^ (k - 1)` times the distance of `p1` and `p` on every axis at most
the side of the leaf's box on that axis; for two points of a box are no
further apart on an axis than the side of the box, and every octant has half
the side of its box on every axis. -/
theorem Octree.add_terminates {α : Type} [DecidableEq α] (o : Octree α) (v : α)
    (p : Vector3f) (h : Octree.Reachable o) :
    (∃ o' node f0, (∀ f, f0 ≤ f → o.Add f v p = some (o', node)) ∧
        ∀ o2 node2, o.AddReturns v p o2 node2 → o2 = o' ∧ node2 = node) ∧
      (∀ (r l : Node α) (path : List Nat) (p1 : Vector3f) (o' : Octree α)
          (node : Option NodeRef),
        o.root = some r → r.nodeAt path = some l → l.hasChildren = false →
        l.point = some p1 → p1 ≠ p → l.box.ContainsPoint p = true → Node.Routed p r path →
        o.AddReturns v p o' node →
        ∃ rest, node = some ⟨o.dropped.length, path ++ rest⟩ ∧ rest ≠ [] ∧
          2 ^ (rest.length - 1) * |p1.x - p.x| ≤ l.box.max.x - l.box.min.x ∧
          2 ^ (rest.length - 1) * |p1.y - p.y| ≤ l.box.max.y - l.box.min.y ∧
          2 ^ (rest.length - 1) * |p1.z - p.z| ≤ l.box.max.z - l.box.min.z) ∧
      (∀ b s : Box, s ∈ b.makeSubBoxes →
        s.max.x - s.min.x = (b.max.x - b.min.x) / 2 ∧
          s.max.y - s.min.y = (b.max.y - b.min.y) / 2 ∧
          s.max.z - s.min.z = (b.max.z - b.min.z) / 2) ∧
      ∀ (b : Box) (p1 p2 : Vector3f), b.ContainsPoint p1 = true → b.ContainsPoint p2 = true →
        |p1.x - p2.x| ≤ b.max.x - b.min.x ∧ |p1.y - p2.y| ≤ b.max.y - b.min.y ∧
          |p1.z - p2.z| ≤ b.max.z - b.min.z := by
  obtain ⟨r, hr, hwf⟩ := h.root_wf
  refine ⟨?_, ?_, Box.side_subBox, Box.dist_le_side⟩
  · have hex : ∃ o' node f0, ∀ f, f0 ≤ f → o.Add f v p = some (o', node) := by
      cases hp : r.box.ContainsPoint p with
      | false =>
        refine ⟨o, none, 1, fun f hf => ?_⟩
        obtain ⟨g, rfl⟩ := Nat.exists_eq_add_of_le hf
        rw [Octree.Add, hr]
        simp only
        rw [Nat.add_comm, Node.tryAdd_outside _ _ _ _ hp]
        cases o
        simp only at hr
        simp [hr]
      | true =>
        obtain ⟨r', path, hadded⟩ := Node.Added.exists_of_wf [v] p r hwf hp
        obtain ⟨f0, hf0⟩ := hadded.run
        refine ⟨⟨some r', o.dropped⟩, some ⟨o.dropped.length, path⟩, f0, fun f hf => ?_⟩
        rw [Octree.Add, hr]
        simp only
        rw [hf0 f hf]
        rfl
    obtain ⟨o', node, f0, hf0⟩ := hex
    refine ⟨o', node, f0, hf0, fun o2 node2 hadd => ?_⟩
    have := Octree.addReturns_eq_of_add (hf0 f0 (le_refl _)) hadd
    simp only [Prod.mk.injEq] at this
    exact ⟨this.1.symm, this.2.symm⟩
  · intro r0 l path p1 o' node hr0 hl hleaf hp1 hne hin hroute hadd
    rw [hr] at hr0
    cases hr0
    have hrin : r.box.ContainsPoint p = true := hroute.root_contains hl hin
    obtain ⟨r', leaf, rfl, rfl, hadded⟩ := Octree.addReturns_inside hr hwf hrin hadd
    obtain ⟨l', rest, _, haddl, hleafeq⟩ := Node.Added.routed hroute r' leaf hadded l hl
    obtain ⟨hwfl, _⟩ := hwf.nodeAt path l hl
    obtain ⟨_, hrest⟩ := haddl.becomes_branch hleaf hp1 hne
    have hleq : l = Node.mk l.box (some p1) l.elements false [] := by
      cases hwfl with
      | leaf box point elements hpt he =>
        simp only [Node.point_mk] at hp1
        rw [hp1]
        rfl
      | branch box children hb hw hpw => cases hleaf
    have hq : l.box.ContainsPoint p1 = true := by
      cases hwfl with
      | leaf box point elements hpt he => exact hpt p1 hp1
      | branch box children hb hw hpw => cases hleaf
    rw [hleq] at haddl
    exact ⟨rest, by rw [hleafeq], hrest,
      Node.Added.depth_bound rest l.box p1 l.elements l' haddl hne hq⟩

theorem Octree.add_terminates_witness :
    Octree.Reachable Octree.sampleCorner ∧
      ((∃ o' node f0,
          (∀ f, f0 ≤ f → Octree.sampleCorner.Add f 2 ⟨0, 0, 0⟩ = some (o', node)) ∧
          ∀ o2 node2, Octree.sampleCorner.AddReturns 2 ⟨0, 0, 0⟩ o2 node2 →
            o2 = o' ∧ node2 = node) ∧
        (∀ (r l : Node Nat) (path : List Nat) (p1 : Vector3f) (o' : Octree Nat)
            (node : Option NodeRef),
          Octree.sampleCorner.root = some r → r.nodeAt path = some l →
          l.hasChildren = false → l.point = some p1 → p1 ≠ ⟨0, 0, 0⟩ →
          l.box.ContainsPoint ⟨0, 0, 0⟩ = true → Node.Routed (⟨0, 0, 0⟩ : Vector3f) r path →
          Octree.sampleCorner.AddReturns 2 ⟨0, 0, 0⟩ o' node →
          ∃ rest, node = some ⟨Octree.sampleCorner.dropped.length, path ++ rest⟩ ∧
            rest ≠ [] ∧
            2 ^ (rest.length - 1) * |p1.x - 0| ≤ l.box.max.x - l.box.min.x ∧
            2 ^ (rest.length - 1) * |p1.y - 0| ≤ l.box.max.y - l.box.min.y ∧
            2 ^ (rest.length - 1) * |p1.z - 0| ≤ l.box.max.z - l.box.min.z) ∧
        (∀ b s : Box, s ∈ b.makeSubBoxes →
          s.max.x - s.min.x = (b.max.x - b.min.x) / 2 ∧
            s.max.y - s.min.y = (b.max.y - b.min.y) / 2 ∧
            s.max.z - s.min.z = (b.max.z - b.min.z) / 2) ∧
        ∀ (b : Box) (p1 p2 : Vector3f), b.ContainsPoint p1 = true →
          b.ContainsPoint p2 = true →
          |p1.x - p2.x| ≤ b.max.x - b.min.x ∧ |p1.y - p2.y| ≤ b.max.y - b.min.y ∧
            |p1.z - p2.z| ≤ b.max.z - b.min.z) :=
  ⟨(Octree.Reachable.create _ _).of_addReturns Octree.sampleCorner_add,
    Octree.add_terminates Octree.sampleCorner 2 ⟨0, 0, 0⟩
      ((Octree.Reachable.create _ _).of_addReturns Octree.sampleCorner_add)⟩

/-! ## Subdivisions of any depth -/

theorem Box.corner_makeSubBoxes (k : Nat) :
    (Box.corner k).makeSubBoxes =
      [ Box.corner (k + 1),
        ⟨⟨(1 / 2) ^ (k + 1), 0, 0⟩, ⟨(1 / 2) ^ k, (1 / 2) ^ (k + 1), (1 / 2) ^ (k + 1)⟩⟩,
        ⟨⟨0, (1 / 2) ^ (k + 1), 0⟩, ⟨(1 / 2) ^ (k + 1), (1 / 2) ^ k, (1 / 2) ^ (k + 1)⟩⟩,
        ⟨⟨(1 / 2) ^ (k + 1), (1 / 2) ^ (k + 1), 0⟩, ⟨(1 / 2) ^ k, (1 / 2) ^ k, (1 / 2) ^ (k + 1)⟩⟩,
        ⟨⟨0, 0, (1 / 2) ^ (k + 1)⟩, ⟨(1 / 2) ^ (k + 1), (1 / 2) ^ (k + 1), (1 / 2) ^ k⟩⟩,
        ⟨⟨(1 / 2) ^ (k + 1), 0, (1 / 2) ^ (k + 1)⟩, ⟨(1 / 2) ^ k, (1 / 2) ^ (k + 1), (1 / 2) ^ k⟩⟩,
        ⟨⟨0, (1 / 2) ^ (k + 1), (1 / 2) ^ (k + 1)⟩, ⟨(1 / 2) ^ (k + 1), (1 / 2) ^ k, (1 / 2) ^ k⟩⟩,
        ⟨⟨(1 / 2) ^ (k + 1), (1 / 2) ^ (k + 1), (1 / 2) ^ (k + 1)⟩,
          ⟨(1 / 2) ^ k, (1 / 2) ^ k, (1 / 2) ^ k⟩⟩ ] := by
  have e : ((1 / 2 : ℚ) ^ k - 0) * (1 / 2) + 0 = (1 / 2) ^ (k + 1) := by
    rw [pow_succ]
    ring
  simp only [Box.makeSubBoxes, Box.corner, Vector3f.Lerp, e]

theorem Box.corner_contains (k n : Nat) (h : k ≤ n) :
    (Box.corner k).ContainsPoint ⟨(1 / 2) ^ n, 0, 0⟩ = true := by
  have h0 : (0 : ℚ) ≤ (1 / 2) ^ n := by positivity
  have h1 : (0 : ℚ) ≤ (1 / 2) ^ k := by positivity
  have h2 : ((1 / 2 : ℚ)) ^ n ≤ (1 / 2) ^ k :=
    pow_le_pow_of_le_one (by norm_num) (by norm_num) h
  rw [Box.containsPoint_iff]
  simp only [Box.corner]
  exact ⟨⟨h0, h2⟩, ⟨le_refl _, h1⟩, le_refl _, h1⟩

namespace Node

variable {α : Type}

theorem Added.split_first {es : List α} {p : Vector3f} (box : Box) (q : Vector3f)
    (es0 : List α) (bi : Box) (l2 : List Box) (n' : Node α) (path : List Nat)
    (h : box.ContainsPoint p = true) (hne : q ≠ p) (hs : box.makeSubBoxes = bi :: l2)
    (hi : bi.ContainsPoint q = true)
    (hadd : Added es p
      (mk box none [] true (mk bi (some q) es0 false [] :: l2.map fun b => fresh b)) n' path) :
    Added es p (mk box (some q) es0 false []) n' path :=
  Added.split box q es0 [] l2 bi n' path h hne hs (fun b hb => by cases hb) hi hadd

theorem Added.descend_first {es : List α} {p : Vector3f} (box : Box) (c c' : Node α)
    (l2 : List (Node α)) (path : List Nat) (h : box.ContainsPoint p = true)
    (hc : c.box.ContainsPoint p = true) (hadd : Added es p c c' path) :
    Added es p (mk box none [] true (c :: l2)) (mk box none [] true (c' :: l2)) (0 :: path) :=
  Added.descend box [] l2 c c' path h (fun d hd => by cases hd) hc hadd

theorem Added.descend_second {es : List α} {p : Vector3f} (box : Box) (c0 : Node α) (b1 : Box)
    (l2 : List (Node α)) (h : box.ContainsPoint p = true)
    (h0 : c0.box.ContainsPoint p = false) (h1 : b1.ContainsPoint p = true) :
    Added es p (mk box none [] true (c0 :: fresh b1 :: l2))
      (mk box none [] true (c0 :: mk b1 (some p) es false [] :: l2)) [1] :=
  Added.descend box [c0] l2 (fresh b1) _ [] h
    (fun d hd => by
      rw [List.mem_singleton] at hd
      subst hd
      exact h0)
    h1 (Added.store b1 h1)

/-- In the cube `[0, (1/2)^k]^3` with `(0, 0, 0)` stored, the insertion of
`((1/2)^n, 0, 0)` for `k <= n` subdivides along the first octants down to the
cube `[0, (1/2)^n]^3`, and puts the new point on the second octant of
that. -/
theorem Added.deep (es es0 : List α) (n : Nat) :
    ∀ j k, j + k = n →
      ∃ n', Added es ⟨(1 / 2) ^ n, 0, 0⟩ (mk (Box.corner k) (some ⟨0, 0, 0⟩) es0 false []) n'
        (List.replicate j 0 ++ [1]) := by
  have hpos : ∀ m : Nat, (0 : ℚ) < (1 / 2) ^ m := fun m => by positivity
  have hne : (⟨0, 0, 0⟩ : Vector3f) ≠ ⟨(1 / 2) ^ n, 0, 0⟩ := by
    intro h
    have := congrArg Vector3f.x h
    simp only at this
    exact absurd this (ne_of_lt (hpos n))
  have hzero : ∀ m : Nat, (Box.corner m).ContainsPoint ⟨0, 0, 0⟩ = true := by
    intro m
    rw [Box.containsPoint_iff]
    simp only [Box.corner]
    exact ⟨⟨le_refl _, (hpos m).le⟩, ⟨le_refl _, (hpos m).le⟩, le_refl _, (hpos m).le⟩
  intro j
  induction j with
  | zero =>
    intro k hk
    simp only [Nat.zero_add] at hk
    subst hk
    have hfirst : (Box.corner (k + 1)).ContainsPoint ⟨(1 / 2) ^ k, 0, 0⟩ = false := by
      rw [← Bool.not_eq_true, Box.containsPoint_iff]
      simp only [Box.corner]
      intro h
      have h1 := h.1.2
      rw [pow_succ] at h1
      have := hpos k
      linarith
    have hsecond : (⟨⟨(1 / 2) ^ (k + 1), 0, 0⟩,
        ⟨(1 / 2) ^ k, (1 / 2) ^ (k + 1), (1 / 2) ^ (k + 1)⟩⟩ : Box).ContainsPoint
          ⟨(1 / 2) ^ k, 0, 0⟩ = true := by
      rw [Box.containsPoint_iff]
      simp only
      have h1 := hpos k
      have h2 := hpos (k + 1)
      have h3 : ((1 / 2 : ℚ)) ^ (k + 1) ≤ (1 / 2) ^ k := by
        rw [pow_succ]
        linarith
      exact ⟨⟨h3, le_refl _⟩, ⟨le_refl _, h2.le⟩, le_refl _, h2.le⟩
    exact ⟨_, Added.split_first (Box.corner k) ⟨0, 0, 0⟩ es0 (Box.corner (k + 1)) _ _ _
      (Box.corner_contains k k (le_refl _)) hne (Box.corner_makeSubBoxes k) (hzero (k + 1))
      (Added.descend_second (Box.corner k) _ _ _ (Box.corner_contains k k (le_refl _))
        hfirst hsecond)⟩
  | succ j ih =>
    intro k hk
    obtain ⟨n', hadd⟩ := ih (k + 1) (by omega)
    exact ⟨_, Added.split_first (Box.corner k) ⟨0, 0, 0⟩ es0 (Box.corner (k + 1)) _ _ _
      (Box.corner_contains k n (by omega)) hne (Box.corner_makeSubBoxes k) (hzero (k + 1))
      (Added.descend_first (Box.corner k) _ _ _ _ (Box.corner_contains k n (by omega))
        (Box.corner_contains (k + 1) n (by omega)) hadd)⟩

end Node

theorem Octree.create_unit {α : Type} :
    (CreateOctree ⟨0, 0, 0⟩ ⟨1, 1, 1⟩ : Octree α) =
      ⟨some (Node.fresh ⟨⟨0, 0, 0⟩, ⟨1, 1, 1⟩⟩), []⟩ := by
  norm_num [CreateOctree, Vector3f.Min, Vector3f.Max]

theorem Box.corner_zero : Box.corner 0 = ⟨⟨0, 0, 0⟩, ⟨1, 1, 1⟩⟩ := by
  simp [Box.corner]

/-- C24 (as amended).  With coordinates taken as exact numbers, subdivision
depth has no upper bound: for every natural number `n` there are two distinct
points `p1`, `p2` of the box `[(0,0,0),(1,1,1)]`, namely `(0, 0, 0)` and
`((1/2)^n, 0, 0)`, such that on the fresh tree over that box `Add(v1, p1)` and
then `Add(v2, p2)` return, and in the tree they leave the leaf that holds
`p2`, which is the node the second call returns and the only leaf with that
point, lies more than `n` levels below the root. -/
theorem Octree.depth_unbounded {α : Type} (n : Nat) (v1 v2 : α) :
    ∃ p1 p2 : Vector3f, p1 ≠ p2 ∧
      (⟨⟨0, 0, 0⟩, ⟨1, 1, 1⟩⟩ : Box).ContainsPoint p1 = true ∧
      (⟨⟨0, 0, 0⟩, ⟨1, 1, 1⟩⟩ : Box).ContainsPoint p2 = true ∧
      (CreateOctree ⟨0, 0, 0⟩ ⟨1, 1, 1⟩ : Octree α).root =
        some (Node.fresh ⟨⟨0, 0, 0⟩, ⟨1, 1, 1⟩⟩) ∧
      ∃ o1 node1 o2 node2 r2 l,
        (CreateOctree ⟨0, 0, 0⟩ ⟨1, 1, 1⟩ : Octree α).AddReturns v1 p1 o1 (some node1) ∧
        (∀ o' node', (CreateOctree ⟨0, 0, 0⟩ ⟨1, 1, 1⟩ : Octree α).AddReturns v1 p1 o' node' →
          o' = o1 ∧ node' = some node1) ∧
        o1.AddReturns v2 p2 o2 (some node2) ∧
        (∀ o' node', o1.AddReturns v2 p2 o' node' → o' = o2 ∧ node' = some node2) ∧
        o2.root = some r2 ∧ o2.resolve node2 = some l ∧ r2.nodeAt node2.path = some l ∧
        l.hasChildren = false ∧ l.point = some p2 ∧ l.elements = [v2] ∧
        n < node2.path.length ∧
        ∀ path l', r2.nodeAt path = some l' → l'.hasChildren = false →
          l'.point = some p2 → path = node2.path := by
  have hpos : (0 : ℚ) < (1 / 2) ^ n := by positivity
  have hne : (⟨0, 0, 0⟩ : Vector3f) ≠ ⟨(1 / 2) ^ n, 0, 0⟩ := by
    intro h
    have := congrArg Vector3f.x h
    simp only at this
    exact absurd this (ne_of_lt hpos)
  have hin1 : (⟨⟨0, 0, 0⟩, ⟨1, 1, 1⟩⟩ : Box).ContainsPoint ⟨0, 0, 0⟩ = true := by
    norm_num [Box.ContainsPoint]
  have hin2 : (⟨⟨0, 0, 0⟩, ⟨1, 1, 1⟩⟩ : Box).ContainsPoint ⟨(1 / 2) ^ n, 0, 0⟩ = true := by
    have := Box.corner_contains 0 n (Nat.zero_le n)
    rw [Box.corner_zero] at this
    exact this
  have hadd1 : (CreateOctree ⟨0, 0, 0⟩ ⟨1, 1, 1⟩ : Octree α).Add 1 v1 ⟨0, 0, 0⟩ =
      some (⟨some (Node.mk ⟨⟨0, 0, 0⟩, ⟨1, 1, 1⟩⟩ (some ⟨0, 0, 0⟩) [v1] false []), []⟩,
        some ⟨0, []⟩) := by
    rw [Octree.create_unit]
    norm_num [Octree.Add, Node.tryAdd, Node.fresh, Box.ContainsPoint]
  have hwf1 : (Node.mk ⟨⟨0, 0, 0⟩, ⟨1, 1, 1⟩⟩ (some ⟨0, 0, 0⟩) [v1] false [] : Node α).WF :=
    Node.WF.leaf _ _ _ (fun q hq => by cases hq; exact hin1) (fun hn => by cases hn)
  obtain ⟨r', path, l, hret, huniq, _, hwf', _, hres, hleaf, hpt, hel, _⟩ :=
    Octree.add_inside_core v2
      (rfl : (⟨some (Node.mk ⟨⟨0, 0, 0⟩, ⟨1, 1, 1⟩⟩ (some ⟨0, 0, 0⟩) [v1] false []), []⟩ :
        Octree α).root = _) hwf1 hin2
  obtain ⟨n', hdeep⟩ := Node.Added.deep [v2] [v1] n n 0 (by omega)
  rw [Box.corner_zero] at hdeep
  obtain ⟨f0, hf0⟩ := hdeep.run
  have hret2 : (⟨some (Node.mk ⟨⟨0, 0, 0⟩, ⟨1, 1, 1⟩⟩ (some ⟨0, 0, 0⟩) [v1] false []), []⟩ :
      Octree α).AddReturns v2 ⟨(1 / 2) ^ n, 0, 0⟩ ⟨some n', []⟩
        (some ⟨0, List.replicate n 0 ++ [1]⟩) := by
    refine ⟨f0, ?_⟩
    rw [Octree.Add]
    simp only
    rw [hf0 f0 (le_refl _)]
    rfl
  have hpath : path = List.replicate n 0 ++ [1] := by
    have := (huniq _ _ hret2).2
    simp only [Option.some.injEq, NodeRef.mk.injEq] at this
    exact this.2.symm
  have hat : r'.nodeAt path = some l := by
    simpa [Octree.resolve] using hres
  have hels : l.elements = [v2] := by
    rw [hel, Node.elementsAt_mk]
    simp [Ne.symm hne]
  refine ⟨⟨0, 0, 0⟩, ⟨(1 / 2) ^ n, 0, 0⟩, hne, hin1, hin2, by rw [Octree.create_unit], _,
    ⟨0, []⟩, _, _, r', l, ⟨1, hadd1⟩, ?_, hret, huniq, rfl, hres, hat, hleaf, hpt, hels, ?_,
    ?_⟩
  · intro o' node' hadd
    have := Octree.addReturns_eq_of_add hadd1 hadd
    simp only [Prod.mk.injEq] at this
    exact ⟨this.1.symm, this.2.symm⟩
  · simp [hpath]
  · intro path2 l2 hl2 hleaf2 hpt2
    exact Node.Routed.unique_leaf path2 path r' l2 l
      (hwf'.routed_of_stores _ path2 l2 hl2 ⟨l2, Node.mem_leaves_self hleaf2, hpt2⟩)
      (hwf'.routed_of_stores _ path l hat ⟨l, Node.mem_leaves_self hleaf, hpt⟩) hl2 hat
      hleaf2 hleaf

/-! ## The package on `float64`: fuel -/

namespace Machine

namespace Node

variable {α : Type}

theorem addLoop_fuel (call1 call2 : Node α → Option (Node α × Option (List Nat)))
    (hm : ∀ c r, call1 c = some r → call2 c = some r)
    (cs : List (Node α)) (i : Nat) (r : List (Node α) × Option (List Nat))
    (h : addLoop call1 i cs = some r) : addLoop call2 i cs = some r := by
  induction cs generalizing i r with
  | nil => simpa [addLoop] using h
  | cons c cs ih =>
    simp only [addLoop] at h ⊢
    cases h1 : call1 c with
    | none => simp [h1] at h
    | some x =>
      obtain ⟨c', leaf⟩ := x
      rw [hm c _ h1]
      rw [h1] at h
      cases leaf with
      | some leaf => simpa using h
      | none =>
        simp only at h ⊢
        cases h2 : addLoop call1 (i + 1) cs with
        | none => simp [h2] at h
        | some y =>
          rw [ih (i + 1) y h2]
          rw [h2] at h
          exact h

theorem tryAdd_unfold (fuel : Nat) (n : Node α) (es : List α) (p : Vector3f) :
    tryAdd (fuel + 1) n es p =
      if !n.box.ContainsPoint p then some (n, none)
      else if n.hasChildren then addToChildren fuel n es p
      else match n.point with
        | some q =>
          if q.eq p then
            some (mk n.box n.point (n.elements ++ es) n.hasChildren n.children, some [])
          else subdivide fuel n es p
        | none => some (mk n.box (some p) es n.hasChildren n.children, some []) := by
  rw [tryAdd]

theorem addToChildren_unfold (fuel : Nat) (n : Node α) (es : List α) (p : Vector3f) :
    addToChildren (fuel + 1) n es p =
      match addLoop (fun child => tryAdd fuel child es p) 0 n.children with
      | none => none
      | some (children', r) => some (mk n.box n.point n.elements n.hasChildren children', r) := by
  rw [addToChildren]

theorem subdivide_unfold (fuel : Nat) (n : Node α) (es : List α) (p : Vector3f) :
    subdivide (fuel + 1) n es p =
      match (match n.point with
        | some q => (addToChildren fuel
            (mk n.box n.point n.elements true
              (n.children ++ (n.box.makeSubBoxes.map fun b => fresh b)))
            n.elements q).map Prod.fst
        | none => none) with
      | none => none
      | some n2 => addToChildren fuel (mk n2.box none [] n2.hasChildren n2.children) es p := by
  rw [subdivide]
  simp only [point, elements]

/-- More fuel does not change a result. -/
theorem fuel_step (fuel : Nat) :
    (∀ (n : Node α) es p r, tryAdd fuel n es p = some r → tryAdd (fuel + 1) n es p = some r) ∧
    (∀ (n : Node α) es p r,
      addToChildren fuel n es p = some r → addToChildren (fuel + 1) n es p = some r) ∧
    (∀ (n : Node α) es p r,
      subdivide fuel n es p = some r → subdivide (fuel + 1) n es p = some r) := by
  induction fuel with
  | zero =>
    refine ⟨?_, ?_, ?_⟩ <;> intro n es p r h
    · simp [tryAdd] at h
    · simp [addToChildren] at h
    · simp [subdivide] at h
  | succ fuel ih =>
    obtain ⟨ih1, ih2, ih3⟩ := ih
    refine ⟨?_, ?_, ?_⟩
    · intro n es p r h
      rw [tryAdd_unfold] at h ⊢
      split_ifs at h ⊢ with h1 h2
      · exact h
      · exact ih2 _ _ _ _ h
      · cases hp : n.point with
        | none => simpa [hp] using h
        | some q =>
          simp only [hp] at h ⊢
          split_ifs at h ⊢ with h3
          · exact h
          · exact ih3 _ _ _ _ h
    · intro n es p r h
      rw [addToChildren_unfold] at h ⊢
      cases h1 : addLoop (fun child => tryAdd fuel child es p) 0 n.children with
      | none => simp [h1] at h
      | some x =>
        rw [addLoop_fuel _ (fun child => tryAdd (fuel + 1) child es p)
          (fun c r hc => ih1 c es p r hc) _ _ _ h1]
        rw [h1] at h
        exact h
    · intro n es p r h
      rw [subdivide_unfold] at h ⊢
      cases hp : n.point with
      | none => simp [hp] at h
      | some q =>
        simp only [hp] at h ⊢
        cases h1 : addToChildren fuel
            (mk n.box (some q) n.elements true
              (n.children ++ (n.box.makeSubBoxes.map fun b => fresh b)))
            n.elements q with
        | none => simp [h1] at h
        | some x =>
          rw [ih2 _ _ _ _ h1]
          rw [h1] at h
          simp only [Option.map_some'] at h ⊢
          exact ih2 _ _ _ _ h

theorem tryAdd_fuel (f1 f2 : Nat) (hle : f1 ≤ f2) (n : Node α) (es : List α) (p : Vector3f)
    (r : Node α × Option (List Nat)) (h : tryAdd f1 n es p = some r) :
    tryAdd f2 n es p = some r := by
  induction hle with
  | refl => exact h
  | step _ ih => exact (fuel_step _).1 _ _ _ _ ih

theorem depthLoop_mem {c : Node α} {cs : List (Node α)} (h : c ∈ cs) :
    depth c + 1 ≤ depthLoop cs := by
  induction cs with
  | nil => cases h
  | cons d cs ih =>
    rw [depthLoop]
    rcases List.mem_cons.1 h with rfl | h
    · exact le_max_left _ _
    · exact le_trans (ih h) (le_max_right _ _)

/-- No node lies more levels below a node than its depth. -/
theorem nodeAt_depth : ∀ (path : List Nat) (n l : Node α), n.nodeAt path = some l →
    path.length ≤ n.depth := by
  intro path
  induction path with
  | nil => intro n l _; exact Nat.zero_le _
  | cons i rest ih =>
    intro n l h
    rw [nodeAt] at h
    cases hc : n.children[i]? with
    | none => simp [hc] at h
    | some c =>
      rw [hc] at h
      simp only at h
      have h1 := ih c l h
      have h2 := depthLoop_mem (List.getElem?_mem hc)
      cases n with
      | mk b pt e hh cs =>
        rw [depth]
        simp only [children] at h2
        simp only [List.length_cons]
        omega

end Node

namespace Octree

variable {α : Type}

theorem add_fuel {o : Octree α} {v : α} {p : Vector3f} {f1 f2 : Nat} (hle : f1 ≤ f2)
    {x : Octree α × Option (List Nat)} (h : o.Add f1 v p = some x) :
    o.Add f2 v p = some x := by
  rw [Add] at h ⊢
  cases hr : o.root with
  | none => simp [hr] at h
  | some r =>
    rw [hr] at h
    simp only at h ⊢
    cases ht : r.tryAdd f1 [v] p with
    | none => simp [ht] at h
    | some y =>
      rw [Node.tryAdd_fuel f1 f2 hle r [v] p y ht]
      rw [ht] at h
      exact h

/-- A call of `Add` has at most one result, whatever the fuel. -/
theorem add_unique {o : Octree α} {v : α} {p : Vector3f} {f1 f2 : Nat}
    {x y : Octree α × Option (List Nat)} (h1 : o.Add f1 v p = some x)
    (h2 : o.Add f2 v p = some y) : y = x := by
  have e1 := add_fuel (le_max_left f1 f2) h1
  have e2 := add_fuel (le_max_right f1 f2) h2
  rw [e1] at e2
  exact (Option.some.inj e2).symm

/-- The coordinates are `float64` values, of which there are finitely many:
two calls of `Add` on a tree, at any two points, never leave a node more than
a fixed number of levels below the root. -/
theorem depth_bounded (o : Octree α) (v1 v2 : α) :
    ∃ N : Nat, ∀ (p1 p2 : Vector3f) (f1 f2 : Nat) (o1 o2 : Octree α)
      (node1 node2 : Option (List Nat)) (r2 : Node α),
      o.Add f1 v1 p1 = some (o1, node1) → o1.Add f2 v2 p2 = some (o2, node2) →
      o2.root = some r2 → r2.depth ≤ N := by
  have key : ∀ pp : Vector3f × Vector3f, ∃ b : Nat, ∀ (f1 f2 : Nat) (o1 o2 : Octree α)
      (node1 node2 : Option (List Nat)) (r2 : Node α),
      o.Add f1 v1 pp.1 = some (o1, node1) → o1.Add f2 v2 pp.2 = some (o2, node2) →
      o2.root = some r2 → r2.depth ≤ b := by
    intro pp
    by_cases h : ∃ (f1 f2 : Nat) (o1 o2 : Octree α) (node1 node2 : Option (List Nat))
        (r2 : Node α), o.Add f1 v1 pp.1 = some (o1, node1) ∧
          o1.Add f2 v2 pp.2 = some (o2, node2) ∧ o2.root = some r2
    · obtain ⟨f1, f2, o1, o2, node1, node2, r2, h1, h2, h3⟩ := h
      refine ⟨r2.depth, ?_⟩
      intro g1 g2 q1 q2 m1 m2 s2 k1 k2 k3
      have e1 := add_unique h1 k1
      simp only [Prod.mk.injEq] at e1
      obtain ⟨rfl, rfl⟩ := e1
      have e2 := add_unique h2 k2
      simp only [Prod.mk.injEq] at e2
      obtain ⟨rfl, rfl⟩ := e2
      rw [h3] at k3
      cases k3
      exact le_refl _
    · exact ⟨0, fun g1 g2 q1 q2 m1 m2 s2 k1 k2 k3 =>
        absurd ⟨g1, g2, q1, q2, m1, m2, s2, k1, k2, k3⟩ h⟩
  choose g hg using key
  haveI : Nonempty (Vector3f × Vector3f) := ⟨(Vector3f.zero, Vector3f.zero)⟩
  obtain ⟨top, htop⟩ := Finite.exists_max g
  refine ⟨g top, ?_⟩
  intro p1 p2 f1 f2 o1 o2 node1 node2 r2 h1 h2 h3
  exact le_trans (hg (p1, p2) f1 f2 o1 o2 node1 node2 r2 h1 h2 h3) (htop (p1, p2))

end Octree

end Machine

/-! ## Values of `float64` -/

/-- The constants denote `0`, `1/2`, `1` and `2^1023` (magnitudes in units of
`2^(-1074)`), the two infinities and a NaN. -/
theorem Float64.constants_value :
    Float64.zero.value = Float64.Value.fin false 0 ∧
      Float64.half.value = Float64.Value.fin false (2 ^ 1073) ∧
      Float64.one.value = Float64.Value.fin false (2 ^ 1074) ∧
      Float64.huge.value = Float64.Value.fin false (2 ^ 2097) ∧
      Float64.huge.neg.value = Float64.Value.fin true (2 ^ 2097) ∧
      (Float64.infinity false).value = Float64.Value.inf false ∧
      (Float64.infinity true).value = Float64.Value.inf true ∧
      Float64.nan.value = Float64.Value.nan := by
  decide!

/-- The centre `(max - min) * 0.5 + min` of the range from `-Inf` to `+Inf`
is a NaN, and the centre of the range from `-2^1023` to `2^1023` is `+Inf`;
a NaN compares false with everything. -/
theorem Float64.centre_values :
    (((Float64.infinity false).sub (Float64.infinity true)).mul Float64.half).add
        (Float64.infinity true) = Float64.nan ∧
      ((Float64.huge.sub Float64.huge.neg).mul Float64.half).add Float64.huge.neg =
        Float64.infinity false ∧
      ((Float64.one.sub Float64.zero).mul Float64.half).add Float64.zero = Float64.half ∧
      Float64.nan.le Float64.nan = false ∧ Float64.nan.ge Float64.zero = false ∧
      Float64.nan.le Float64.zero = false ∧ (Float64.infinity false).le Float64.huge = false := by
  decide!

/-! ## Example trees on `float64` -/

/-- C24 fails on `float64` coordinates, of which there are finitely many:
there is a number `N` such that, whatever the points `p1` and `p2`, when
`Add(1, p1)` and then `Add(2, p2)` return on the fresh tree over the box
`[(0,0,0),(1,1,1)]`, no node of the tree they leave lies more than `N` levels
below the root. -/
theorem Octree.depth_unbounded_counterexample :
    (Machine.CreateOctree Machine.Vector3f.zero Machine.Vector3f.ones :
        Machine.Octree Nat).root.map Machine.Node.box =
        some ⟨Machine.Vector3f.zero, Machine.Vector3f.ones⟩ ∧
      ∃ N : Nat, ∀ (p1 p2 : Machine.Vector3f) (f1 f2 : Nat) (o1 o2 : Machine.Octree Nat)
        (node1 node2 : Option (List Nat)) (r2 : Machine.Node Nat),
        (Machine.CreateOctree Machine.Vector3f.zero Machine.Vector3f.ones :
          Machine.Octree Nat).Add f1 1 p1 = some (o1, node1) →
        o1.Add f2 2 p2 = some (o2, node2) → o2.root = some r2 →
        ∀ path l, r2.nodeAt path = some l → path.length ≤ N := by
  refine ⟨by decide!, ?_⟩
  obtain ⟨N, hN⟩ := Machine.Octree.depth_bounded
    (Machine.CreateOctree Machine.Vector3f.zero Machine.Vector3f.ones : Machine.Octree Nat) 1 2
  refine ⟨N, ?_⟩
  intro p1 p2 f1 f2 o1 o2 node1 node2 r2 h1 h2 h3 path l hl
  exact le_trans (Machine.Node.nodeAt_depth path r2 l hl)
    (hN p1 p2 f1 f2 o1 o2 node1 node2 r2 h1 h2 h3)
